import Mathlib

/-!
The possum scheduler: schedule evaluation.

A shallow embedding of `schedule.go` (kitchen times, periods, schedules, the
start/stop decision and their JSON form), of the discovery, the change lists and
the applying of changes in `instance.go`, `asg.go` and `db.go`, of `GetSchedules`
in `store.go` and of `perRegion` and `Handler` in `cmd/lambda/main.go`, together
with the parts of Go's `time`, `strings`, `strconv`, `fmt` and `encoding/json`
packages that the code calls.

Conventions of the embedding:
* Go `int` values are `Int`; the code only compares them, and `strconv.Atoi`
  rejects what does not fit 64 bits, which the model of `Atoi` keeps.
* Go pointers (`*Period`, `*KitchenTime`, `*Schedule`) are modelled by their
  pointees; a nil result is `none`. What `json.Unmarshal` leaves in a schedule may
  hold nil periods and is kept apart, as a `DecodedSchedule`.
* A Go panic (index out of range) is `none` in an `Option` result.
-/

namespace Possum

/-! ## Go's `time` package, as far as `schedule.go` observes it -/

/-- Go's `time.Weekday` is an `int` with `Sunday = 0`, ..., `Saturday = 6`. -/
abbrev Weekday := Int

def Sunday : Weekday := 0
def Monday : Weekday := 1
def Tuesday : Weekday := 2
def Wednesday : Weekday := 3
def Thursday : Weekday := 4
def Friday : Weekday := 5
def Saturday : Weekday := 6

/-- A `time.Location`: its name and, for every instant (Unix seconds), the offset
in seconds east of UTC that is in effect there. -/
structure Location where
  name : String
  offset : Int → Int

/-- The UTC location. -/
def UTC : Location := ⟨"UTC", fun _ => 0⟩

/-- A `time.Time`: an instant in Unix seconds, shown in a location. The code reads
nothing finer than the minute, so nanoseconds are left out. -/
structure Time where
  unix : Int
  loc : Location

/-- Go's `Time.In`: the same instant, shown in another location. -/
def Time.In (t : Time) (loc : Location) : Time := { t with loc := loc }

/-- Seconds since the Unix epoch on the wall clock of the time's location. -/
def Time.wall (t : Time) : Int := t.unix + t.loc.offset t.unix

/-- Go's `Time.Hour`: the hour within the day, 0..23. -/
def Time.Hour (t : Time) : Int := (t.wall % 86400) / 3600

/-- Go's `Time.Minute`: the minute within the hour, 0..59. -/
def Time.Minute (t : Time) : Int := (t.wall % 3600) / 60

/-- Go's `Time.Weekday`; 1 January 1970 was a Thursday. -/
def Time.Weekday (t : Time) : Weekday := (t.wall / 86400 + 4) % 7

/-- The test helper `newWeekday` of `schedule_test.go`:
`time.Date(2018, 5, 6+weekday, hour, min, 0, 0, loc)`; 6 May 2018 is a Sunday and
starts at Unix second 1525564800 in UTC, the location used here. -/
def newWeekday (weekday : Weekday) (hour min : Int) : Time :=
  ⟨1525564800 + weekday * 86400 + hour * 3600 + min * 60, UTC⟩

/-! ## Kitchen times and periods -/

/-- The struct `KitchenTime`. -/
structure KitchenTime where
  Hour : Int
  Minute : Int
deriving DecidableEq

/-- The struct `Period`; an empty `Weekdays` list (nil or of length 0) means every
weekday. -/
structure Period where
  StartTime : KitchenTime
  StopTime : KitchenTime
  Weekdays : List Weekday
deriving DecidableEq

/-- The method `Period.beforeStart`. -/
def Period.beforeStart (r : Period) (t : Time) : Bool :=
  if r.StartTime.Hour > t.Hour then true
  else if r.StopTime.Hour = t.Hour ∧ r.StartTime.Minute > t.Minute then true
  else false

/-- The method `Period.afterStop`. -/
def Period.afterStop (r : Period) (t : Time) : Bool :=
  if r.StopTime.Hour < t.Hour then true
  else if r.StopTime.Hour = t.Hour ∧ r.StopTime.Minute < t.Minute then true
  else false

/-- The loop of `Period.inWeekday` over the weekdays of the period. -/
def inWeekdayLoop (t : Time) : List Weekday → Bool
  | [] => false
  | weekday :: rest => if weekday = t.Weekday then true else inWeekdayLoop t rest

/-- The method `Period.inWeekday`. -/
def Period.inWeekday (r : Period) (t : Time) : Bool :=
  if r.Weekdays.length = 0 then true else inWeekdayLoop t r.Weekdays

/-- The method `Period.InPeriod`. -/
def Period.InPeriod (r : Period) (t : Time) : Bool :=
  if !r.inWeekday t then false
  else if r.beforeStart t then false
  else if r.afterStop t then false
  else true

/-- The time of day `(h, m)` is at or after the kitchen time `k`, comparing
(hour, minute) pairs lexicographically. -/
def atOrAfter (h m : Int) (k : KitchenTime) : Prop :=
  k.Hour < h ∨ (k.Hour = h ∧ k.Minute ≤ m)

/-- The time of day `(h, m)` is at or before the kitchen time `k`, comparing
(hour, minute) pairs lexicographically. -/
def atOrBefore (h m : Int) (k : KitchenTime) : Prop :=
  h < k.Hour ∨ (h = k.Hour ∧ m ≤ k.Minute)

instance (h m : Int) (k : KitchenTime) : Decidable (atOrAfter h m k) := by
  unfold atOrAfter; infer_instance

instance (h m : Int) (k : KitchenTime) : Decidable (atOrBefore h m k) := by
  unfold atOrBefore; infer_instance

/-- The weekday of `t` is allowed by the period: the list is empty or holds it. -/
def weekdayAllowed (r : Period) (t : Time) : Prop :=
  r.Weekdays = [] ∨ t.Weekday ∈ r.Weekdays

/-! ## Parsing kitchen times -/

deriving instance DecidableEq for Except

/-- Go's `strings.Split` for a separator of one byte: the fields between the
separators, in order; a text without separator is the only field. -/
def Split (sep : Char) : List Char → List (List Char)
  | [] => [[]]
  | c :: cs =>
    if c = sep then [] :: Split sep cs
    else
      match Split sep cs with
      | [] => [[c]]
      | field :: fields => (c :: field) :: fields

/-- The value of a decimal digit, `none` for any other character. -/
def digitValue (c : Char) : Option Nat :=
  if 48 ≤ c.toNat ∧ c.toNat ≤ 57 then some (c.toNat - 48) else none

/-- The digit loop of Go's `strconv.ParseUint` in base 10 and 64 bits: `none` on a
character that is not a digit and when the value leaves the range of `uint64`. -/
def parseUintLoop : List Char → Nat → Option Nat
  | [], n => some n
  | c :: cs, n =>
    match digitValue c with
    | none => none
    | some d => if 2 ^ 64 ≤ n * 10 + d then none else parseUintLoop cs (n * 10 + d)

/-- Go's `strconv.Atoi` on a 64-bit platform; `none` stands for a returned error
(the callers here never look at which one). An optional sign, then at least one
digit and nothing else, with a value in the range of `int`. -/
def Atoi (s : List Char) : Option Int :=
  match s with
  | [] => none
  | c :: rest =>
    let neg : Bool := c = '-'
    let digits := if c = '+' ∨ c = '-' then rest else s
    match digits with
    | [] => none
    | _ :: _ =>
      match parseUintLoop digits 0 with
      | none => none
      | some un =>
        if !neg ∧ 2 ^ 63 ≤ un then none
        else if neg ∧ 2 ^ 63 < un then none
        else some (if neg then -(un : Int) else (un : Int))

/-- The constant `errFormat` of `NewKitchenTime`, filled in with the text. -/
def errFormat (kitchenTime : String) : String :=
  "wrong format for time, should be 13:45, not " ++ kitchenTime

/-- The function `NewKitchenTime`. -/
def NewKitchenTime (kitchenTime : String) : Except String KitchenTime :=
  let s := Split ':' kitchenTime.toList
  if s.length ≠ 2 then .error (errFormat kitchenTime)
  else
    match Atoi (s.getD 0 []) with
    | none => .error (errFormat kitchenTime)
    | some hour =>
      match Atoi (s.getD 1 []) with
      | none => .error (errFormat kitchenTime)
      | some minute => .ok ⟨hour, minute⟩

/-- The function `NewPeriod`. -/
def NewPeriod (start stop : String) (weekdays : List Weekday) : Except String Period :=
  match NewKitchenTime start with
  | .error err => .error ("start time " ++ err)
  | .ok startTime =>
    match NewKitchenTime stop with
    | .error err => .error ("stop time " ++ err)
    | .ok stopTime => .ok ⟨startTime, stopTime, weekdays⟩

/-! ## Schedules -/

/-- Go's `ScheduledAction` is an `int8`. -/
abbrev ScheduledAction := Int

def StopAction : ScheduledAction := -1
def NoopAction : ScheduledAction := 0
def StartAction : ScheduledAction := 1

/-- The struct `Schedule`. -/
structure Schedule where
  Name : String
  Locations : List Location
  Periods : List Period

/-- The function `NewSchedule`. -/
def NewSchedule (name : String) : Schedule := ⟨name, [], []⟩

/-- The type `Schedules`. -/
abbrev Schedules := List Schedule

/-- The method `Schedules.Find`; `none` is the nil result. -/
def Schedules.Find : Schedules → String → Option Schedule
  | [], _ => none
  | sch :: rest, name => if sch.Name = name then some sch else Schedules.Find rest name

/-- The method `Schedule.AddPeriod`, given Go's `time.LoadLocation` (the timezone
database of the host). It returns the schedule after the call and the error, if
any. -/
def Schedule.AddPeriod (LoadLocation : String → Except String Location) (s : Schedule)
    (timezone : String) (period : Period) : Schedule × Option String :=
  match LoadLocation timezone with
  | .error err => (s, some err)
  | .ok loc =>
    ({ s with Locations := s.Locations ++ [loc], Periods := s.Periods ++ [period] }, none)

/-- A sequence of `AddPeriod` calls on a schedule, whatever each call returns. -/
def addPeriods (LoadLocation : String → Except String Location) (s : Schedule) :
    List (String × Period) → Schedule
  | [] => s
  | (timezone, period) :: calls =>
    addPeriods LoadLocation (s.AddPeriod LoadLocation timezone period).1 calls

/-- The loop of `Schedule.Action` from index `i` on, over the periods not yet
visited; `none` is the panic of `s.Locations[i]` out of range. -/
def actionLoop (locations : List Location) (t : Time) (isRunning : Bool) :
    Nat → List Period → Option ScheduledAction
  | _, [] => some NoopAction
  | i, rule :: rest =>
    match locations[i]? with
    | none => none
    | some loc =>
      let convertedTime := t.In loc
      if rule.InPeriod convertedTime && !isRunning then some StartAction
      else if !rule.InPeriod convertedTime && isRunning then some StopAction
      else actionLoop locations t isRunning (i + 1) rest

/-- The method `Schedule.Action`. -/
def Schedule.Action (s : Schedule) (t : Time) (isRunning : Bool) : Option ScheduledAction :=
  actionLoop s.Locations t isRunning 0 s.Periods

/-- The decision of one rule on its own: Start when its period contains the
instant in the rule's timezone and the resource is not running, Stop when it does
not contain it and the resource is running, Noop otherwise. -/
def ruleDecision (t : Time) (isRunning : Bool) (rule : Location × Period) : ScheduledAction :=
  if rule.2.InPeriod (t.In rule.1) = true ∧ isRunning = false then StartAction
  else if rule.2.InPeriod (t.In rule.1) = false ∧ isRunning = true then StopAction
  else NoopAction

/-- The decision of the first rule, in list order, whose own decision is not Noop;
Noop when there is none. -/
def firstDecision (t : Time) (isRunning : Bool) (rules : List (Location × Period)) :
    ScheduledAction :=
  ((rules.map (ruleDecision t isRunning)).find? (fun a => a ≠ NoopAction)).getD NoopAction

/-- A location with a fixed offset of twelve hours east of UTC. -/
def plusTwelve : Location := ⟨"Etc/GMT-12", fun _ => 43200⟩

/-- A timezone database with two entries, for evaluating examples. -/
def twoZones (timezone : String) : Except String Location :=
  if timezone = "UTC" then .ok UTC
  else if timezone = "Etc/GMT-12" then .ok plusTwelve
  else .error ("unknown time zone " ++ timezone)

/-- A character is one of the decimal digits `0` to `9`. -/
def isDecimalDigit (c : Char) : Prop := 48 ≤ c.toNat ∧ c.toNat ≤ 57

/-- The number written by a list of decimal digits, most significant first. -/
def decimalValue (digits : List Char) : Nat :=
  digits.foldl (fun n c => n * 10 + (c.toNat - 48)) 0

/-- The text `s` is a decimal integer with value `n`: an optional sign `+` or `-`,
then at least one decimal digit and nothing else, with `n` in the range of a
64-bit `int`. -/
def DenotesInt (s : List Char) (n : Int) : Prop :=
  ∃ digits : List Char, digits ≠ [] ∧ (∀ c ∈ digits, isDecimalDigit c)
    ∧ (((s = digits ∨ s = '+' :: digits) ∧ n = (decimalValue digits : Int))
        ∨ (s = '-' :: digits ∧ n = -(decimalValue digits : Int)))
    ∧ -(2 : Int) ^ 63 ≤ n ∧ n < (2 : Int) ^ 63

/-- The rules that a sequence of `AddPeriod` calls adds: for every call whose
timezone loads, the loaded location with the period of that call, in call order. -/
def loadedRules (LoadLocation : String → Except String Location) :
    List (String × Period) → List (Location × Period)
  | [] => []
  | (timezone, period) :: calls =>
    match LoadLocation timezone with
    | .error _ => loadedRules LoadLocation calls
    | .ok loc => (loc, period) :: loadedRules LoadLocation calls

/-- A schedule with two rules, 08:00-17:00 in UTC and 08:00-17:00 twelve hours
east of it, built with `NewSchedule` and `AddPeriod`. -/
def twoRuleSchedule : Schedule :=
  addPeriods twoZones (NewSchedule "TwoShifts")
    [("UTC", ⟨⟨8, 0⟩, ⟨17, 0⟩, []⟩), ("Etc/GMT-12", ⟨⟨8, 0⟩, ⟨17, 0⟩, []⟩)]

/-! ## Rendering: Go's `fmt` verbs and `Weekday.String` -/

/-- The digit loop of Go's `fmt` for a decimal integer: the digits of `u`, most
significant first, in front of `acc`. The fuel bounds the number of digits. -/
def fmtDigitsLoop : Nat → Nat → List Char → List Char
  | 0, _, acc => acc
  | fuel + 1, u, acc =>
    if 10 ≤ u then fmtDigitsLoop fuel (u / 10) (Char.ofNat (48 + u % 10) :: acc)
    else Char.ofNat (48 + u) :: acc

/-- The decimal digits of a natural number, at least one. -/
def fmtNat (u : Nat) : List Char := fmtDigitsLoop (u + 1) u []

/-- Go's `fmt.Sprintf("%d", n)`. -/
def fmtD (n : Int) : List Char :=
  if n < 0 then '-' :: fmtNat (-n).toNat else fmtNat n.toNat

/-- Go's `fmt.Sprintf("%02d", n)`: width two, padded with zeros, the sign counting
for the width. -/
def fmtD02 (n : Int) : List Char :=
  if n < 0 then '-' :: fmtNat (-n).toNat
  else if (fmtNat n.toNat).length < 2 then '0' :: fmtNat n.toNat
  else fmtNat n.toNat

/-- The method `KitchenTime.String`: `fmt.Sprintf("%02d:%02d", d.Hour, d.Minute)`. -/
def KitchenTime.String (d : KitchenTime) : String :=
  String.mk (fmtD02 d.Hour ++ ':' :: fmtD02 d.Minute)

/-- Go's `Weekday.String`: the English name of a valid weekday, and a marker with
the number (as `uint64`) for any other value. -/
def Weekday.String (d : Weekday) : String :=
  if d = 0 then "Sunday"
  else if d = 1 then "Monday"
  else if d = 2 then "Tuesday"
  else if d = 3 then "Wednesday"
  else if d = 4 then "Thursday"
  else if d = 5 then "Friday"
  else if d = 6 then "Saturday"
  else "%!Weekday(" ++ String.mk (fmtNat (d % 2 ^ 64).toNat) ++ ")"

/-- The function `AllWeekdays`. -/
def AllWeekdays : List Weekday :=
  [Monday, Tuesday, Wednesday, Thursday, Friday, Saturday, Sunday]

/-! ## JSON documents and the marshalling of periods

Go's `encoding/json` is modelled on parsed documents: `json.Marshal` builds a
document and `json.Unmarshal` reads one. A document is the parse tree of a text
that the scanner of the package accepts; the text, its errors of form and the limit
on nesting are left out. An object keeps its members in the order of the text,
duplicates included, because the decoder takes them one after the other. Of the
errors of `json.Unmarshal` only the presence is modelled, not the message. -/

/-- A JSON document. A number keeps its literal text. -/
inductive JSON where
  | null : JSON
  | bool (b : Bool) : JSON
  | number (literal : String) : JSON
  | str (s : String) : JSON
  | arr (items : List JSON) : JSON
  | obj (fields : List (String × JSON)) : JSON

/-- The value that decoding an object into a Go map keeps for a key: keys are
compared exactly, and the one of the last member with that key stays. -/
def JSON.lookup (key : String) : List (String × JSON) → Option JSON
  | [] => none
  | (k, v) :: rest =>
    match JSON.lookup key rest with
    | some w => some w
    | none => if k = key then some v else none

/-- Go's `foldName` on one character, as far as a name of ASCII letters can tell:
a small ASCII letter becomes the capital one, and the two other characters that
Unicode folds onto an ASCII letter, the long s (U+017F) and the Kelvin sign
(U+212A), become `S` and `K`. -/
def foldRune (c : Char) : Char :=
  if 97 ≤ c.toNat ∧ c.toNat ≤ 122 then Char.ofNat (c.toNat - 32)
  else if c.toNat = 383 then 'S'
  else if c.toNat = 8490 then 'K'
  else c

/-- Whether the decoder of a struct takes the object key `key` for the field called
`field`: the two are equal, or equal without regard to letter case (Unicode simple
folding). The field names of this package are ASCII letters, and no two of one
struct match the same key. -/
def matchesField (key field : String) : Bool :=
  decide (key.toList.map foldRune = field.toList.map foldRune)

/-- Decoding a value into a Go `string` that holds `cur`: `null` leaves it, a JSON
string sets it, anything else is an error. -/
def decodeString (cur : String) : JSON → Except String String
  | .null => .ok cur
  | .str s => .ok s
  | _ => .error "json: cannot unmarshal into Go value of type string"

/-- Decoding the elements of a JSON array into a Go `[]string`. The decoder writes
element `i` in place: `backing` holds, from index `i` on, what the slice and the
rest of its backing array held before, and `""` stands behind its end. -/
def decodeStringItems : List JSON → List String → Except String (List String)
  | [], _ => .ok []
  | item :: items, backing =>
    match decodeString (backing.headD "") item with
    | .error err => .error err
    | .ok s =>
      match decodeStringItems items backing.tail with
      | .error err => .error err
      | .ok rest => .ok (s :: rest)

/-- A Go `[]string` under decoding: the elements of the slice, and what an earlier,
longer value of the same field left behind them in the backing array. -/
structure StringSlice where
  elems : List String
  spare : List String

/-- Decoding a value into a Go `[]string`: `null` makes it nil, an array without
elements makes it a fresh empty slice, an array with elements is decoded in place,
anything else is an error. -/
def decodeStringList (cur : StringSlice) : JSON → Except String StringSlice
  | .null => .ok ⟨[], []⟩
  | .arr [] => .ok ⟨[], []⟩
  | .arr (item :: items) =>
    match decodeStringItems (item :: items) (cur.elems ++ cur.spare) with
    | .error err => .error err
    | .ok elems => .ok ⟨elems, (cur.elems ++ cur.spare).drop elems.length⟩
  | _ => .error "json: cannot unmarshal into Go value of type []string"

/-- The anonymous struct that `Period.MarshalJSON` and `Period.UnmarshalJSON`
pass through `encoding/json`. -/
structure PeriodAlias where
  StartTime : String
  StopTime : String
  Weekdays : List String
deriving DecidableEq

/-- The document `json.Marshal` writes for a `[]string`: `null` for the nil slice
(the empty list of the embedding), an array of strings otherwise. -/
def encodeStringList (l : List String) : JSON :=
  if l = [] then .null else .arr (l.map JSON.str)

/-- Go's `json.Marshal` of the anonymous struct of `Period.MarshalJSON`. -/
def PeriodAlias.encode (a : PeriodAlias) : JSON :=
  .obj [("StartTime", .str a.StartTime), ("StopTime", .str a.StopTime),
    ("Weekdays", encodeStringList a.Weekdays)]

/-- The members of an object decoded into the anonymous struct of
`Period.UnmarshalJSON`, one after the other: a member whose key matches a field is
decoded into that field, over what an earlier member left there; any other member
is passed over. `spare` is what stands behind `Weekdays` in its backing array. -/
def decodeAliasMembers :
    List (String × JSON) → PeriodAlias → List String → Except String PeriodAlias
  | [], decoded, _ => .ok decoded
  | (key, value) :: rest, decoded, spare =>
    if matchesField key "StartTime" then
      match decodeString decoded.StartTime value with
      | .error err => .error err
      | .ok s => decodeAliasMembers rest ⟨s, decoded.StopTime, decoded.Weekdays⟩ spare
    else if matchesField key "StopTime" then
      match decodeString decoded.StopTime value with
      | .error err => .error err
      | .ok s => decodeAliasMembers rest ⟨decoded.StartTime, s, decoded.Weekdays⟩ spare
    else if matchesField key "Weekdays" then
      match decodeStringList ⟨decoded.Weekdays, spare⟩ value with
      | .error err => .error err
      | .ok weekdays =>
        decodeAliasMembers rest ⟨decoded.StartTime, decoded.StopTime, weekdays.elems⟩
          weekdays.spare
    else decodeAliasMembers rest decoded spare

/-- Go's `json.Unmarshal` into the zero anonymous struct of `Period.UnmarshalJSON`:
`null` leaves the struct as it is, and only an object is accepted otherwise. -/
def PeriodAlias.decode : JSON → Except String PeriodAlias
  | .null => .ok ⟨"", "", []⟩
  | .obj members => decodeAliasMembers members ⟨"", "", []⟩ []
  | _ => .error "json: cannot unmarshal into Go value of type struct"

/-- The method `Period.MarshalJSON`, up to the document it hands to the encoder
(it returns no error). -/
def Period.MarshalJSON (r : Period) : JSON :=
  PeriodAlias.encode ⟨r.StartTime.String, r.StopTime.String, r.Weekdays.map Weekday.String⟩

/-- The inner loop of `Period.UnmarshalJSON`: the days of `AllWeekdays` whose name is
`sday`, appended to the weekdays found so far. -/
def appendDaysNamed (sday : String) : List Weekday → List Weekday → List Weekday
  | [], weekdays => weekdays
  | day :: days, weekdays =>
    if Weekday.String day = sday then appendDaysNamed sday days (weekdays ++ [day])
    else appendDaysNamed sday days weekdays

/-- The outer loop of `Period.UnmarshalJSON` over the names in the document. -/
def weekdaysNamed : List String → List Weekday → List Weekday
  | [], weekdays => weekdays
  | sday :: sdays, weekdays => weekdaysNamed sdays (appendDaysNamed sday AllWeekdays weekdays)

/-- The method `Period.UnmarshalJSON`: the period it fills in, or the error it
returns. When it returns no error it has set all three fields, so the result does
not depend on what the period held before. -/
def Period.UnmarshalJSON (b : JSON) : Except String Period :=
  match PeriodAlias.decode b with
  | .error err => .error err
  | .ok decoded =>
    match NewKitchenTime decoded.StartTime with
    | .error err => .error err
    | .ok startTime =>
      match NewKitchenTime decoded.StopTime with
      | .error err => .error err
      | .ok stopTime => .ok ⟨startTime, stopTime, weekdaysNamed decoded.Weekdays []⟩

/-! ## The marshalling of schedules -/

/-- Go's `Location.String`: the name of the location. -/
def Location.String (l : Location) : String := l.name

/-- The document `json.Marshal` writes for the `[]*Period` of a schedule, each
period through `Period.MarshalJSON`: `null` for the nil slice (the empty list of
the embedding). -/
def encodePeriods : List Period → JSON
  | [] => .null
  | p :: ps => .arr ((p :: ps).map Period.MarshalJSON)

/-- The method `Schedule.MarshalJSON`, up to the document it hands to the encoder
(it returns no error). -/
def Schedule.MarshalJSON (s : Schedule) : JSON :=
  .obj [("Name", .str s.Name),
    ("Locations", encodeStringList (s.Locations.map Location.String)),
    ("Periods", encodePeriods s.Periods)]

/-- Decoding the elements of a JSON array into a Go `[]*Period`: a `null` element
gives the nil pointer (`none`), any other element goes through
`Period.UnmarshalJSON`, whose first error ends the decoding. An element is decoded
over what the slice held at its index; that makes no difference here, since `null`
always gives nil and `Period.UnmarshalJSON` sets every field. -/
def decodePeriodItems : List JSON → Except String (List (Option Period))
  | [] => .ok []
  | .null :: items =>
    match decodePeriodItems items with
    | .error err => .error err
    | .ok rest => .ok (none :: rest)
  | item :: items =>
    match Period.UnmarshalJSON item with
    | .error err => .error err
    | .ok p =>
      match decodePeriodItems items with
      | .error err => .error err
      | .ok rest => .ok (some p :: rest)

/-- Decoding a value into a Go `[]*Period`: `null` makes it nil, an array sets it,
anything else is an error. -/
def decodePeriods : JSON → Except String (List (Option Period))
  | .null => .ok []
  | .arr items => decodePeriodItems items
  | _ => .error "json: cannot unmarshal into Go value of type []*Period"

/-- The members of an object decoded into the struct `tmp` of
`Schedule.UnmarshalJSON`, with fields `Name` and `Periods`, one after the other. -/
def decodeTmpMembers :
    List (String × JSON) → String × List (Option Period) →
      Except String (String × List (Option Period))
  | [], tmp => .ok tmp
  | (key, value) :: rest, (name, periods) =>
    if matchesField key "Name" then
      match decodeString name value with
      | .error err => .error err
      | .ok s => decodeTmpMembers rest (s, periods)
    else if matchesField key "Periods" then
      match decodePeriods value with
      | .error err => .error err
      | .ok ps => decodeTmpMembers rest (name, ps)
    else decodeTmpMembers rest (name, periods)

/-- Go's `json.Unmarshal` into the zero struct `tmp` of `Schedule.UnmarshalJSON`:
`null` leaves the struct as it is, and only an object is accepted otherwise. -/
def decodeScheduleTmp : JSON → Except String (String × List (Option Period))
  | .null => .ok ("", [])
  | .obj members => decodeTmpMembers members ("", [])
  | _ => .error "json: cannot unmarshal into Go value of type struct"

/-- Whether Go's `strconv.ParseFloat(literal, 64)` returns a range error for the
literal of a JSON number: the number, rounded to the nearest `float64`, is beyond
the largest one, which is the case from `2^1024 - 2^970` on in absolute value. -/
def float64Overflows (literal : String) : Bool :=
  let unsigned := literal.toList.dropWhile (fun c => c = '-')
  let mantissa := unsigned.takeWhile (fun c => c ≠ 'e' ∧ c ≠ 'E')
  let exponent := (unsigned.dropWhile (fun c => c ≠ 'e' ∧ c ≠ 'E')).drop 1
  let whole := mantissa.takeWhile (fun c => c ≠ '.')
  let fraction := (mantissa.dropWhile (fun c => c ≠ '.')).drop 1
  let m : Nat := decimalValue (whole ++ fraction)
  let e : Int :=
    (match exponent with
      | '-' :: ds => -(decimalValue ds : Int)
      | '+' :: ds => (decimalValue ds : Int)
      | ds => (decimalValue ds : Int)) - (fraction.length : Int)
  if 0 ≤ e then decide (2 ^ 1024 - 2 ^ 970 ≤ m * 10 ^ e.toNat)
  else decide ((2 ^ 1024 - 2 ^ 970) * 10 ^ (-e).toNat ≤ m)

mutual
/-- Whether `json.Unmarshal` into a Go `map[string]interface{}` accepts the
document: it turns every number into a `float64`, and a number out of range is its
only error. -/
def JSON.floatsInRange : JSON → Bool
  | .number literal => !float64Overflows literal
  | .arr items => itemsInRange items
  | .obj members => membersInRange members
  | _ => true
/-- All elements of an array have their numbers in the range of `float64`. -/
def itemsInRange : List JSON → Bool
  | [] => true
  | item :: items => item.floatsInRange && itemsInRange items
/-- All members of an object have their numbers in the range of `float64`. -/
def membersInRange : List (String × JSON) → Bool
  | [] => true
  | (_, value) :: members => value.floatsInRange && membersInRange members
end

/-- The loop of `Schedule.UnmarshalJSON` over the entries of "Locations": an entry
that is a string is loaded and appended, any other entry is passed over, and the
first location that does not load ends the loop with its error. -/
def loadLocationsLoop (LoadLocation : String → Except String Location) :
    List JSON → List Location → List Location × Option String
  | [], locations => (locations, none)
  | .str name :: rest, locations =>
    match LoadLocation name with
    | .error err => (locations, some err)
    | .ok loc => loadLocationsLoop LoadLocation rest (locations ++ [loc])
  | _ :: rest, locations => loadLocationsLoop LoadLocation rest locations

/-- The struct `Schedule` as `json.Unmarshal` can leave it: an entry of `Periods`
may be the nil pointer (`none`), which `Schedule` leaves out. -/
structure DecodedSchedule where
  Name : String
  Locations : List Location
  Periods : List (Option Period)

/-- A schedule without nil pointers, among the schedules that may hold some. -/
def Schedule.decoded (s : Schedule) : DecodedSchedule :=
  ⟨s.Name, s.Locations, s.Periods.map some⟩

/-- The method `Schedule.UnmarshalJSON`, given Go's `time.LoadLocation`. It returns
the schedule after the call and the error, if any. The first `json.Unmarshal`
fills the struct `tmp`; the second one, into the map `d`, fails on a number out of
the range of `float64`, after `Name` and `Periods` have been set; `d["Locations"]`
is looked up by the exact key. -/
def Schedule.UnmarshalJSON (LoadLocation : String → Except String Location)
    (s : DecodedSchedule) (b : JSON) : DecodedSchedule × Option String :=
  match decodeScheduleTmp b with
  | .error err => (s, some err)
  | .ok (name, periods) =>
    if b.floatsInRange = false then
      (⟨name, s.Locations, periods⟩,
        some "json: cannot unmarshal number into Go value of type float64")
    else
      match b with
      | .obj members =>
        match JSON.lookup "Locations" members with
        | some (.arr locations) =>
          (⟨name, (loadLocationsLoop LoadLocation locations s.Locations).1, periods⟩,
            (loadLocationsLoop LoadLocation locations s.Locations).2)
        | _ => (⟨name, s.Locations, periods⟩, none)
      | _ => (⟨name, s.Locations, periods⟩, none)

/-- The loop of `Schedule.Action` on a schedule that may hold nil periods: as
`actionLoop`, and a nil rule that the loop reaches is a panic as well
(`rule.InPeriod` reads `r.Weekdays` through it), after `s.Locations[i]` has been
read. -/
def decodedActionLoop (locations : List Location) (t : Time) (isRunning : Bool) :
    Nat → List (Option Period) → Option ScheduledAction
  | _, [] => some NoopAction
  | i, entry :: rest =>
    match locations[i]? with
    | none => none
    | some loc =>
      match entry with
      | none => none
      | some rule =>
        let convertedTime := t.In loc
        if rule.InPeriod convertedTime && !isRunning then some StartAction
        else if !rule.InPeriod convertedTime && isRunning then some StopAction
        else decodedActionLoop locations t isRunning (i + 1) rest

/-- The method `Schedule.Action` on a schedule that may hold nil periods; `none` is
a panic. -/
def DecodedSchedule.Action (s : DecodedSchedule) (t : Time) (isRunning : Bool) :
    Option ScheduledAction :=
  decodedActionLoop s.Locations t isRunning 0 s.Periods

/-- The fields of a period fit what Go can hold and print by name: hours and
minutes in the range of a 64-bit `int`, weekdays from Sunday to Saturday. -/
def Period.representable (p : Period) : Prop :=
  (-(2 : Int) ^ 63 ≤ p.StartTime.Hour ∧ p.StartTime.Hour < (2 : Int) ^ 63)
  ∧ (-(2 : Int) ^ 63 ≤ p.StartTime.Minute ∧ p.StartTime.Minute < (2 : Int) ^ 63)
  ∧ (-(2 : Int) ^ 63 ≤ p.StopTime.Hour ∧ p.StopTime.Hour < (2 : Int) ^ 63)
  ∧ (-(2 : Int) ^ 63 ≤ p.StopTime.Minute ∧ p.StopTime.Minute < (2 : Int) ^ 63)
  ∧ ∀ d ∈ p.Weekdays, Sunday ≤ d ∧ d ≤ Saturday

instance (p : Period) : Decidable p.representable := by
  unfold Period.representable; infer_instance

/-- A schedule built with `NewSchedule` and one `AddPeriod`, whose period names the
weekday number 9, which no instant has. -/
def oddWeekdaySchedule : Schedule :=
  addPeriods twoZones (NewSchedule "Odd") [("UTC", ⟨⟨0, 0⟩, ⟨23, 59⟩, [9]⟩)]

/-! ## Changes and the resources of the three adapters

The AWS SDK structs are modelled by the fields that the code reads; their pointer
fields are modelled by the pointees, except `InstanceLifecycle`, which the code
tests for nil. -/

/-- The struct `Change`; its field `Type` is `Type'` here, `Type` being reserved. -/
structure Change where
  ID : String
  Name : String
  Action : ScheduledAction
  Type' : String
  minSize : Int
  currentMinSize : Int
deriving DecidableEq

/-- The type `Changes`. -/
abbrev Changes := List Change

/-- The method `Changes.Append`. -/
def Changes.Append (c o : Changes) : Changes := c ++ o

/-- The constant `minSizeTag`. -/
def minSizeTag : String := "possum:min_size"

/-- A tag of the AWS SDK (`autoscaling.TagDescription`, `ec2.Tag`, `rds.Tag`): its
key and its value. -/
structure Tag where
  Key : String
  Value : String
deriving DecidableEq

/-- The fields of `autoscaling.Group` that the code reads. Of the instances and of
the suspended processes only the number is read. -/
structure Group where
  AutoScalingGroupName : String
  DesiredCapacity : Int
  MinSize : Int
  Instances : List String
  SuspendedProcesses : List String
  Tags : List Tag
deriving DecidableEq

/-- The struct `GroupSchedule`. -/
structure GroupSchedule where
  resource : Group
  schedule : String
deriving DecidableEq

/-- Go's `strconv.ParseInt(s, 10, 64)`: the same parse as `Atoi` on a 64-bit
platform. -/
def ParseInt (s : List Char) : Option Int := Atoi s

/-- The function `getASGTagValue`; `none` is the nil result. -/
def getASGTagValue : List Tag → String → Option String
  | [], _ => none
  | tag :: tags, keyName => if tag.Key = keyName then some tag.Value else getASGTagValue tags keyName

/-- The function `getASGTagInt64`. -/
def getASGTagInt64 (tags : List Tag) (tagKey : String) (defaultVal : Int) : Int :=
  match getASGTagValue tags tagKey with
  | none => defaultVal
  | some val =>
    match ParseInt val.toList with
    | none => defaultVal
    | some i => i

/-- The function `getASGName`. -/
def getASGName (group : Group) : String :=
  match getASGTagValue group.Tags "Name" with
  | some name => name
  | none => group.AutoScalingGroupName

/-- The loop of `getASGGroupChanges` over the groups not yet visited, with the
changes collected so far; `none` is a panic inside `Schedule.Action`. -/
def getASGGroupChangesLoop (ts : Time) (schedules : Schedules) :
    List GroupSchedule → Changes → Option Changes
  | [], changes => some changes
  | a :: rest, changes =>
    let group := a.resource
    if group.DesiredCapacity ≠ (group.Instances.length : Int) then
      getASGGroupChangesLoop ts schedules rest changes
    else if group.SuspendedProcesses.length > 0 then
      getASGGroupChangesLoop ts schedules rest changes
    else
      match schedules.Find a.schedule with
      | none => getASGGroupChangesLoop ts schedules rest changes
      | some effectiveSchedule =>
        let isRunning : Bool := group.Instances.length ≠ 0
        match effectiveSchedule.Action ts isRunning with
        | none => none
        | some act =>
          if act = NoopAction then getASGGroupChangesLoop ts schedules rest changes
          else
            getASGGroupChangesLoop ts schedules rest
              (changes ++ [⟨group.AutoScalingGroupName, getASGName group, act, "asg",
                getASGTagInt64 group.Tags minSizeTag 1, group.MinSize⟩])

/-- The function `getASGGroupChanges`. -/
def getASGGroupChanges (list : List GroupSchedule) (ts : Time) (schedules : Schedules) :
    Option Changes :=
  getASGGroupChangesLoop ts schedules list []

/-- The fields of `ec2.Instance` that the code reads; `State` is `State.Name`. -/
structure Instance where
  InstanceId : String
  State : String
  InstanceLifecycle : Option String
  Tags : List Tag
deriving DecidableEq

/-- The struct `instanceSchedule`. -/
structure instanceSchedule where
  resource : Instance
  schedule : String
deriving DecidableEq

/-- The constant `ec2.InstanceStateNameStopped`. -/
def InstanceStateNameStopped : String := "stopped"

/-- The constant `ec2.InstanceStateNameRunning`. -/
def InstanceStateNameRunning : String := "running"

/-- The function `getEC2TagValue`; `none` is the nil result. -/
def getEC2TagValue : List Tag → String → Option String
  | [], _ => none
  | tag :: tags, keyName => if tag.Key = keyName then some tag.Value else getEC2TagValue tags keyName

/-- The function `getInstanceName`. -/
def getInstanceName (inst : Instance) : String :=
  match getEC2TagValue inst.Tags "Name" with
  | none => inst.InstanceId
  | some instanceName => instanceName

/-- The loop of `getInstanceChanges`; `none` is a panic inside `Schedule.Action`. -/
def getInstanceChangesLoop (ts : Time) (schedules : Schedules) :
    List instanceSchedule → Changes → Option Changes
  | [], changes => some changes
  | a :: rest, changes =>
    if a.resource.State ≠ InstanceStateNameStopped ∧ a.resource.State ≠ InstanceStateNameRunning
    then getInstanceChangesLoop ts schedules rest changes
    else if a.resource.InstanceLifecycle = some "spot" then
      getInstanceChangesLoop ts schedules rest changes
    else
      match schedules.Find a.schedule with
      | none => getInstanceChangesLoop ts schedules rest changes
      | some effectiveSchedule =>
        let isRunning : Bool := a.resource.State = InstanceStateNameRunning
        match effectiveSchedule.Action ts isRunning with
        | none => none
        | some action =>
          if action = NoopAction then getInstanceChangesLoop ts schedules rest changes
          else
            getInstanceChangesLoop ts schedules rest
              (changes ++ [⟨a.resource.InstanceId, getInstanceName a.resource, action,
                "instance", 0, 0⟩])

/-- The function `getInstanceChanges`. -/
def getInstanceChanges (list : List instanceSchedule) (ts : Time) (schedules : Schedules) :
    Option Changes :=
  getInstanceChangesLoop ts schedules list []

/-- The fields of `rds.DBInstance` that the code reads. -/
structure DBInstance where
  DBInstanceIdentifier : String
  DBInstanceStatus : String
deriving DecidableEq

/-- The struct `dbInstanceSchedule`. -/
structure dbInstanceSchedule where
  resource : DBInstance
  schedule : String
deriving DecidableEq

/-- The loop of `getDBInstanceChanges`, with its constants `runningState` and
`stoppedState`; `none` is a panic inside `Schedule.Action`. -/
def getDBInstanceChangesLoop (ts : Time) (schedules : Schedules) :
    List dbInstanceSchedule → Changes → Option Changes
  | [], changes => some changes
  | a :: rest, changes =>
    let dbInstance := a.resource
    if dbInstance.DBInstanceStatus ≠ "available" ∧ dbInstance.DBInstanceStatus ≠ "stopped" then
      getDBInstanceChangesLoop ts schedules rest changes
    else
      match schedules.Find a.schedule with
      | none => getDBInstanceChangesLoop ts schedules rest changes
      | some effectiveSchedule =>
        let isRunning : Bool := dbInstance.DBInstanceStatus = "available"
        match effectiveSchedule.Action ts isRunning with
        | none => none
        | some act =>
          if act = NoopAction then getDBInstanceChangesLoop ts schedules rest changes
          else
            getDBInstanceChangesLoop ts schedules rest
              (changes ++ [⟨dbInstance.DBInstanceIdentifier, dbInstance.DBInstanceIdentifier,
                act, "rds", 0, 0⟩])

/-- The function `getDBInstanceChanges`. -/
def getDBInstanceChanges (list : List dbInstanceSchedule) (ts : Time) (schedules : Schedules) :
    Option Changes :=
  getDBInstanceChangesLoop ts schedules list []

/-- What one resource does to the changes collected by a loop: `none` for a panic,
`some none` for no change, `some (some c)` for the change `c`. -/
def collectChanges {α : Type} (step : α → Option (Option Change)) :
    List α → Changes → Option Changes
  | [], changes => some changes
  | a :: rest, changes =>
    match step a with
    | none => none
    | some none => collectChanges step rest changes
    | some (some c) => collectChanges step rest (changes ++ [c])

/-- The changes of two runs one after the other: a panic in either is a panic. -/
def joinChanges : Option Changes → Option Changes → Option Changes
  | some c, some o => some (c ++ o)
  | _, _ => none

/-- The body of the loop of `getASGGroupChanges` for one group. -/
def asgStep (ts : Time) (schedules : Schedules) (a : GroupSchedule) : Option (Option Change) :=
  if a.resource.DesiredCapacity ≠ (a.resource.Instances.length : Int) then some none
  else if a.resource.SuspendedProcesses.length > 0 then some none
  else
    match schedules.Find a.schedule with
    | none => some none
    | some effectiveSchedule =>
      match effectiveSchedule.Action ts (decide (a.resource.Instances.length ≠ 0)) with
      | none => none
      | some act =>
        if act = NoopAction then some none
        else some (some ⟨a.resource.AutoScalingGroupName, getASGName a.resource, act, "asg",
          getASGTagInt64 a.resource.Tags minSizeTag 1, a.resource.MinSize⟩)

/-- The body of the loop of `getInstanceChanges` for one instance. -/
def instanceStep (ts : Time) (schedules : Schedules) (a : instanceSchedule) :
    Option (Option Change) :=
  if a.resource.State ≠ InstanceStateNameStopped ∧ a.resource.State ≠ InstanceStateNameRunning
  then some none
  else if a.resource.InstanceLifecycle = some "spot" then some none
  else
    match schedules.Find a.schedule with
    | none => some none
    | some effectiveSchedule =>
      match effectiveSchedule.Action ts (decide (a.resource.State = InstanceStateNameRunning)) with
      | none => none
      | some action =>
        if action = NoopAction then some none
        else some (some ⟨a.resource.InstanceId, getInstanceName a.resource, action,
          "instance", 0, 0⟩)

/-- The body of the loop of `getDBInstanceChanges` for one database instance. -/
def dbStep (ts : Time) (schedules : Schedules) (a : dbInstanceSchedule) :
    Option (Option Change) :=
  if a.resource.DBInstanceStatus ≠ "available" ∧ a.resource.DBInstanceStatus ≠ "stopped" then
    some none
  else
    match schedules.Find a.schedule with
    | none => some none
    | some effectiveSchedule =>
      match effectiveSchedule.Action ts (decide (a.resource.DBInstanceStatus = "available")) with
      | none => none
      | some act =>
        if act = NoopAction then some none
        else some (some ⟨a.resource.DBInstanceIdentifier, a.resource.DBInstanceIdentifier,
          act, "rds", 0, 0⟩)

/-- The restore size that the claim on `getASGGroupChanges` describes: the integer
value of the first tag with key `possum:min_size`, and 1 when there is no such tag
or its value does not parse. -/
def restoreSize (tags : List Tag) : Int :=
  match tags.find? (fun tag => decide (tag.Key = minSizeTag)) with
  | none => 1
  | some tag => (ParseInt tag.Value.toList).getD 1

/-- The schedules of `TestGetASGGroupChanges` with the period `always`
(00:00-23:59 on all weekdays), in UTC. -/
def alwaysSchedules : Schedules :=
  [addPeriods twoZones (NewSchedule "n") [("UTC", ⟨⟨0, 0⟩, ⟨23, 59⟩, AllWeekdays⟩)]]

/-- The schedules of `TestGetASGGroupChanges` with the period `never`
(00:00-00:00), in UTC. -/
def neverSchedules : Schedules :=
  [addPeriods twoZones (NewSchedule "n") [("UTC", ⟨⟨0, 0⟩, ⟨0, 0⟩, []⟩)]]

/-- The instant `chkTime` of the adapter tests: a Monday at 12:00. -/
def chkTime : Time := newWeekday Monday 12 0

/-! ## Applying the changes of autoscaling groups

The autoscaling client is an outside service. It is modelled by the calls it
receives, in order, and by the error, if any, with which it answers a call after
the calls before it. -/

/-- The tag of `autoscaling.CreateOrUpdateTagsInput`. -/
structure AutoscalingTag where
  ResourceId : String
  Key : String
  Value : String
  PropagateAtLaunch : Bool
  ResourceType : String
deriving DecidableEq

/-- The calls that `performASGChanges` makes on the client, with their inputs. -/
inductive Call where
  | UpdateAutoScalingGroup (AutoScalingGroupName : String) (MinSize DesiredCapacity : Int)
  | CreateOrUpdateTags (Tags : List AutoscalingTag)
deriving DecidableEq

/-- The behaviour of a client: after the calls of the first argument, the error
with which it answers the call of the second, `none` for success. -/
abbrev ASGClient := List Call → Call → Option String

/-- The function `updateASGSize`: the calls made so far with the new one, and the
error of the new one. -/
def updateASGSize (client : ASGClient) (log : List Call) (name : String) (minSize : Int) :
    List Call × Option String :=
  (log ++ [Call.UpdateAutoScalingGroup name minSize minSize],
    client log (Call.UpdateAutoScalingGroup name minSize minSize))

/-- The function `tagASGGroupSize`. -/
def tagASGGroupSize (client : ASGClient) (log : List Call) (name : String) (minSize : Int) :
    List Call × Option String :=
  (log ++ [Call.CreateOrUpdateTags
      [⟨name, minSizeTag, String.mk (fmtD minSize), false, "auto-scaling-group"⟩]],
    client log (Call.CreateOrUpdateTags
      [⟨name, minSizeTag, String.mk (fmtD minSize), false, "auto-scaling-group"⟩]))

/-- The function `performASGChanges`, from the calls made so far: the calls made
in the end and the error returned, `none` for nil. -/
def performASGChanges (client : ASGClient) : List Change → List Call → List Call × Option String
  | [], log => (log, none)
  | change :: rest, log =>
    if change.Action = StartAction then
      match updateASGSize client log change.ID change.minSize with
      | (log1, some err) => (log1, some err)
      | (log1, none) => performASGChanges client rest log1
    else if change.Action = StopAction then
      match updateASGSize client log change.ID 0 with
      | (log1, some err) => (log1, some err)
      | (log1, none) =>
        match tagASGGroupSize client log1 change.ID change.currentMinSize with
        | (log2, some err) => (log2, some err)
        | (log2, none) => performASGChanges client rest log2
    else performASGChanges client rest log

/-- The calls that the claim on `performASGChanges` describes for one change: for
a Start, one update to `minSize`; for a Stop, one update to 0 and then the tag
write of `currentMinSize`; nothing for any other action. -/
def expectedCalls (change : Change) : List Call :=
  if change.Action = StartAction then
    [Call.UpdateAutoScalingGroup change.ID change.minSize change.minSize]
  else if change.Action = StopAction then
    [Call.UpdateAutoScalingGroup change.ID 0 0,
      Call.CreateOrUpdateTags
        [⟨change.ID, "possum:min_size", String.mk (fmtD change.currentMinSize), false,
          "auto-scaling-group"⟩]]
  else []

/-- The calls described for a list of changes, in list order. -/
def expectedCallsOf : List Change → List Call
  | [] => []
  | change :: rest => expectedCalls change ++ expectedCallsOf rest

/-- Issuing calls in order until one fails: the calls made and the error of the
first failing call, after which no call is made. -/
def issueAll (client : ASGClient) : List Call → List Call → List Call × Option String
  | [], log => (log, none)
  | call :: rest, log =>
    match client log call with
    | some err => (log ++ [call], some err)
    | none => issueAll client rest (log ++ [call])

/-- A client on which no call fails. -/
def reliableClient : ASGClient := fun _ _ => none

/-- A client on which every tag write fails and every other call succeeds. -/
def tagFailingClient : ASGClient
  | _, Call.CreateOrUpdateTags _ => some "tagging failed"
  | _, _ => none

/-! ## Applying the changes of instances -/

/-- The calls that `performInstanceChanges` makes on the EC2 client, with the
instance ids of their inputs. -/
inductive EC2Call where
  | StartInstances (InstanceIds : List String)
  | StopInstances (InstanceIds : List String)
deriving DecidableEq

/-- The behaviour of an EC2 client: after the calls of the first argument, the
error with which it answers the call of the second, `none` for success. -/
abbrev EC2Client := List EC2Call → EC2Call → Option String

/-- The first loop of `performInstanceChanges`: the ids of the Start changes and of
the Stop changes, each in list order, appended to the two lists built so far. -/
def sortInstanceChanges : List Change → List String → List String → List String × List String
  | [], toStart, toStop => (toStart, toStop)
  | a :: rest, toStart, toStop =>
    if a.Action = StartAction then sortInstanceChanges rest (toStart ++ [a.ID]) toStop
    else if a.Action = StopAction then sortInstanceChanges rest toStart (toStop ++ [a.ID])
    else sortInstanceChanges rest toStart toStop

/-- The second half of `performInstanceChanges`, with `err` starting as nil: the
start call when there is something to start, then the stop call when there is
something to stop, and the value of `err` after both. -/
def issueInstanceCalls (client : EC2Client) (toStart toStop : List String) (log : List EC2Call) :
    List EC2Call × Option String :=
  let afterStart : List EC2Call × Option String :=
    if toStart.length > 0 then
      (log ++ [EC2Call.StartInstances toStart], client log (EC2Call.StartInstances toStart))
    else (log, none)
  if toStop.length > 0 then
    (afterStart.1 ++ [EC2Call.StopInstances toStop],
      client afterStart.1 (EC2Call.StopInstances toStop))
  else afterStart

/-- The function `performInstanceChanges`, from the calls made so far: the calls
made in the end and the error returned, `none` for nil. -/
def performInstanceChanges (client : EC2Client) (list : Changes) (log : List EC2Call) :
    List EC2Call × Option String :=
  issueInstanceCalls client (sortInstanceChanges list [] []).1 (sortInstanceChanges list [] []).2
    log

/-- The ids of the changes of a list that have the given action, in list order. -/
def idsWithAction (action : ScheduledAction) (list : Changes) : List String :=
  (list.filter (fun a => decide (a.Action = action))).map (fun a => a.ID)

/-- An EC2 client on which no call fails. -/
def reliableEC2 : EC2Client := fun _ _ => none

/-- An EC2 client on which every start call fails and every stop call succeeds. -/
def startFailingEC2 : EC2Client
  | _, EC2Call.StartInstances _ => some "start failed"
  | _, EC2Call.StopInstances _ => none

/-- The change list of `TestChangeInstanceState`. -/
def testInstanceChanges : Changes :=
  [⟨"i-1", "", StopAction, "", 0, 0⟩, ⟨"i-2", "", StartAction, "", 0, 0⟩,
    ⟨"i-3", "", StopAction, "", 0, 0⟩, ⟨"i-4", "", StartAction, "", 0, 0⟩,
    ⟨"i-5", "", StartAction, "", 0, 0⟩]

/-! ## The Lambda handler (`cmd/lambda/main.go`)

The adapters and the services behind them are outside the embedding: `perRegion`
takes what each adapter returns when it is run, and `Handler` takes what the run
of each region returns. -/

/-- The three adapters, in the order in which `perRegion` calls them. -/
inductive Adapter where
  | instances
  | autoscaling
  | database
deriving DecidableEq

/-- The function `perRegion`, given what `DoInstances`, `DoAutoScalingGroups` and
`DoDB` return for the region when they are called: the adapters it calls, in
order, the changes it returns and the error it returns. -/
def perRegion (doInstances doAutoScalingGroups doDB : Changes × Option String) :
    List Adapter × Changes × Option String :=
  match doInstances with
  | (changes, some err) => ([Adapter.instances], changes, some err)
  | (changes, none) =>
    match doAutoScalingGroups with
    | (asg, some err) =>
      ([Adapter.instances, Adapter.autoscaling], changes.Append asg, some err)
    | (asg, none) =>
      match doDB with
      | (db, some err) =>
        ([Adapter.instances, Adapter.autoscaling, Adapter.database],
          (changes.Append asg).Append db, some err)
      | (db, none) =>
        ([Adapter.instances, Adapter.autoscaling, Adapter.database],
          (changes.Append asg).Append db, none)

/-- The method `ScheduledAction.String`. -/
def ScheduledAction.String (s : ScheduledAction) : String :=
  if s = StartAction then "start"
  else if s = StopAction then "stop"
  else "noop"

/-- The function `format` of `main.go`: one line for each change. -/
def format : Changes → String
  | [] => ""
  | a :: rest =>
    " • " ++ ScheduledAction.String a.Action ++ " \x60" ++ a.Name ++ "\x60 (" ++ a.Type' ++ ", "
      ++ a.ID ++ ")\n" ++ format rest

/-- A Go `map[string]possum.Changes`, as the list of its entries; a key occurs
once. -/
abbrev RegionalChanges := List (String × Changes)

/-- The assignment `m[k] = v` of a Go map. -/
def mapInsert : RegionalChanges → String → Changes → RegionalChanges
  | [], k, v => [(k, v)]
  | (k1, v1) :: rest, k, v =>
    if k1 = k then (k, v) :: rest else (k1, v1) :: mapInsert rest k v

/-- The value of a Go map at a key, if the key is present. -/
def mapLookup : RegionalChanges → String → Option Changes
  | [], _ => none
  | (k1, v1) :: rest, k => if k1 = k then some v1 else mapLookup rest k

/-- The goroutines of `Handler`, in the order in which they finish: each appends
its error, if any, to `errs` and stores its changes, if any, under its region. -/
def collectRegions (run : String → Changes × Option String) :
    List String → List String → RegionalChanges → List String × RegionalChanges
  | [], errs, regionalChanges => (errs, regionalChanges)
  | r :: rest, errs, regionalChanges =>
    collectRegions run rest
      (match (run r).2 with
        | some err => errs ++ [err]
        | none => errs)
      (if (run r).1.length > 0 then mapInsert regionalChanges r (run r).1 else regionalChanges)

/-- The loop of `Handler` that builds the notification from the entries of the
map (in the order of the entries here; Go fixes no order). -/
def buildNotification : RegionalChanges → String
  | [] => ""
  | (region, changes) :: rest =>
    if changes.length ≠ 0 then "*" ++ region ++ "*\n" ++ format changes ++ "\n" ++ buildNotification rest
    else buildNotification rest

/-- The function `Handler`: the report and the error it returns. Its inputs are
the environment variable `CONFIG_TABLE`, what `GetSchedules` and `getRegions`
return, what `perRegion` returns for each region, the order in which the
goroutines finish, and what `Notify` returns for a message. -/
def Handler (tableName : String) (getSchedules : Schedules × Option String)
    (getRegions : List String × Option String) (run : String → Changes × Option String)
    (order : List String) (notify : String → Option String) :
    Option RegionalChanges × Option String :=
  if tableName = "" then
    (none, some
      "env variable CONFIG_TABLE is empty, this should be the name of dynamodb table, see docs")
  else
    match getSchedules with
    | (_, some err) => (none, some err)
    | (schedules, none) =>
      if schedules.length = 0 then
        (none, some ("did not find any schedules in storage '" ++ tableName ++ "'"))
      else
        match getRegions with
        | (_, some err) => (none, some err)
        | (_, none) =>
          let regionalChanges := (collectRegions run order [] []).2
          let outputErr : Option String := none
          let notification := buildNotification regionalChanges
          if notification ≠ "" then
            match notify notification with
            | some err => (some regionalChanges, some err)
            | none => (some regionalChanges, outputErr)
          else (some regionalChanges, outputErr)

/-! ## The store (`store.go`) -/

/-- The field of `dynamodb.AttributeValue` that the code reads; `S` is a pointer
that may be nil. -/
structure AttributeValue where
  S : Option String
deriving DecidableEq

/-- The `Item` of a `dynamodb.GetItemOutput`: a Go map from attribute names to
pointers to attribute values, as the list of its entries. -/
abbrev Item := List (String × AttributeValue)

/-- The value of `Item[key]`: the pointer stored under the key, and the nil pointer
(`none`) when the key is absent. -/
def itemLookup : Item → String → Option AttributeValue
  | [], _ => none
  | (k, v) :: rest, key => if k = key then some v else itemLookup rest key

/-- Decoding the elements of a JSON array into `Schedules`, each element through
`Schedule.UnmarshalJSON` on a fresh schedule; a `null` element gives the nil
pointer (`none`). The first error ends the decoding, with the element it came from
kept as far as it was filled. -/
def decodeSchedulesItems (LoadLocation : String → Except String Location) :
    List JSON → List (Option DecodedSchedule) → List (Option DecodedSchedule) × Option String
  | [], schedules => (schedules, none)
  | .null :: items, schedules => decodeSchedulesItems LoadLocation items (schedules ++ [none])
  | item :: items, schedules =>
    match Schedule.UnmarshalJSON LoadLocation ⟨"", [], []⟩ item with
    | (s, some err) => (schedules ++ [some s], some err)
    | (s, none) => decodeSchedulesItems LoadLocation items (schedules ++ [some s])

/-- Go's `json.Unmarshal` into a nil `Schedules`. -/
def decodeSchedules (LoadLocation : String → Except String Location) :
    JSON → List (Option DecodedSchedule) × Option String
  | .null => ([], none)
  | .arr items => decodeSchedulesItems LoadLocation items []
  | _ => ([], some "json: cannot unmarshal into Go value of type possum.Schedules")

/-- The function `GetSchedules`, given what the client's `GetItem` returns (the item
and the error), the parser of JSON text and `time.LoadLocation`. The result is
`none` when the function panics, and otherwise the schedules, as `json.Unmarshal`
leaves them, and the error it returns. -/
def GetSchedules (getItem : Item × Option String) (parseJSON : String → Except String JSON)
    (LoadLocation : String → Except String Location) :
    Option (List (Option DecodedSchedule) × Option String) :=
  match getItem with
  | (_, some err) => some ([], some err)
  | (item, none) =>
    match itemLookup item "content" with
    | none => none
    | some value =>
      match value.S with
      | none => some ([], none)
      | some content =>
        match parseJSON content with
        | .error err => some ([], some err)
        | .ok document => some (decodeSchedules LoadLocation document)

/-! ## The goroutines of `Handler`, step by step -/

/-- The steps of one goroutine of `Handler` after `perRegion` has returned. The
statement `errs = append(errs, err)` reads `errs` and then stores the longer
slice; the map is written between `x.Lock()` and `x.Unlock()`. -/
inductive UnitStep where
  | readErrs
  | writeErrs
  | lock
  | insert
  | unlock
deriving DecidableEq

/-- The steps that a goroutine has to take for what `perRegion` returned. -/
def unitSteps (outcome : Changes × Option String) : List UnitStep :=
  (match outcome.2 with
    | some _ => [UnitStep.readErrs, UnitStep.writeErrs]
    | none => [])
  ++ (if outcome.1.length > 0 then [UnitStep.lock, UnitStep.insert, UnitStep.unlock] else [])

/-- One goroutine: its region, what `perRegion` returned, the steps left, and the
value of `errs` that it read last. -/
structure UnitState where
  region : String
  outcome : Changes × Option String
  todo : List UnitStep
  seen : List String
deriving DecidableEq

/-- The goroutines together with the variables they share: `errs`, the map, and the
goroutine that holds the mutex `x`, if any. -/
structure HandlerState where
  units : List UnitState
  errs : List String
  regionalChanges : RegionalChanges
  holder : Option Nat
deriving DecidableEq

/-- The state when all goroutines have their result of `perRegion`. -/
def startUnits (runs : List (String × Changes × Option String)) : HandlerState :=
  ⟨runs.map (fun run => ⟨run.1, run.2, unitSteps run.2, []⟩), [], [], none⟩

/-- The next step of goroutine `i`; `none` when it has no step left or waits for
the mutex. -/
def stepUnit (i : Nat) (st : HandlerState) : Option HandlerState :=
  match st.units[i]? with
  | none => none
  | some u =>
    match u.todo with
    | [] => none
    | UnitStep.readErrs :: rest =>
      some { st with units := st.units.set i { u with todo := rest, seen := st.errs } }
    | UnitStep.writeErrs :: rest =>
      some { st with
        units := st.units.set i { u with todo := rest }
        errs := u.seen ++ u.outcome.2.toList }
    | UnitStep.lock :: rest =>
      match st.holder with
      | some _ => none
      | none => some { st with units := st.units.set i { u with todo := rest }, holder := some i }
    | UnitStep.insert :: rest =>
      some { st with
        units := st.units.set i { u with todo := rest }
        regionalChanges := mapInsert st.regionalChanges u.region u.outcome.1 }
    | UnitStep.unlock :: rest =>
      some { st with units := st.units.set i { u with todo := rest }, holder := none }

/-- The steps of the goroutines in the order of a schedule; `none` when the
schedule asks for a step that cannot be taken. -/
def runSchedule : List Nat → HandlerState → Option HandlerState
  | [], st => some st
  | i :: rest, st =>
    match stepUnit i st with
    | none => none
    | some st1 => runSchedule rest st1

/-- A goroutine is in the middle of its insert into `errs`: it has read `errs` and
has not yet stored the result. -/
def insideErrsInsert (u : UnitState) : Bool :=
  match u.todo with
  | UnitStep.writeErrs :: _ => true
  | _ => false

/-- A goroutine is in the middle of its insert into the map: it has taken the mutex
and has not yet released it. -/
def insideMapInsert (u : UnitState) : Bool :=
  match u.todo with
  | UnitStep.insert :: _ => true
  | UnitStep.unlock :: _ => true
  | _ => false

/-- Two regions whose runs both return an error and one change. -/
def twoFailingRuns : List (String × Changes × Option String) :=
  [("eu-west-1", [⟨"i-1", "web", StopAction, "instance", 0, 0⟩], some "rds: request failed"),
    ("us-east-1", [⟨"i-2", "db", StopAction, "instance", 0, 0⟩], some "ec2: request failed")]

/-! ## What a document says about the lists of a schedule -/

/-- The value of the last member of an object that the decoder of a struct takes
for the field called `field`. -/
def JSON.member (field : String) : List (String × JSON) → Option JSON
  | [] => none
  | (k, v) :: rest =>
    match JSON.member field rest with
    | some w => some w
    | none => if matchesField k field then some v else none

/-- The number of entries that a document gives for the periods: the length of the
array of the last member taken for the field `Periods`, and 0 when the document is
not an object or has no such member or that member is not an array. -/
def periodEntries : JSON → Nat
  | .obj members =>
    match JSON.member "Periods" members with
    | some (.arr items) => items.length
    | _ => 0
  | _ => 0

/-- Whether a document is `null`. -/
def JSON.isNull : JSON → Bool
  | .null => true
  | _ => false

/-- Whether some entry that a document gives for the periods is `null`. -/
def hasNullPeriodEntry : JSON → Bool
  | .obj members =>
    match JSON.member "Periods" members with
    | some (.arr items) => items.any JSON.isNull
    | _ => false
  | _ => false

/-- The number of strings in a list of documents. -/
def countStrings : List JSON → Nat
  | [] => 0
  | .str _ :: rest => countStrings rest + 1
  | _ :: rest => countStrings rest

/-- The number of string entries under "Locations" in a document (the last member
with exactly that key), and 0 when the document is not an object or the key is
missing or not an array. -/
def locationEntries : JSON → Nat
  | .obj fields =>
    match JSON.lookup "Locations" fields with
    | some (.arr items) => countStrings items
    | _ => 0
  | _ => 0

/-- A document with one period and no "Locations" key. -/
def periodsOnlyDocument : JSON :=
  .obj [("Name", .str "OfficeHours"),
    ("Periods", .arr [.obj [("StartTime", .str "8:00"), ("StopTime", .str "18:00")]])]

/-- A document whose keys are written in small letters, with one period and no
location. -/
def smallLettersDocument : JSON :=
  .obj [("name", .str "x"),
    ("periods", .arr [.obj [("starttime", .str "8:00"), ("stoptime", .str "18:00")]])]

/-- A document with two entries for the periods, one of them `null`, and two
locations. -/
def nullPeriodDocument : JSON :=
  .obj [("Name", .str "OfficeHours"), ("Locations", .arr [.str "UTC", .str "UTC"]),
    ("Periods", .arr [.null, .obj [("StartTime", .str "8:00"), ("StopTime", .str "18:00")]])]

/-! ## Discovery of instances -/

/-- The constant `scheduleTag`. -/
def scheduleTag : String := "possum:schedule"

/-- The constant `autoScalingGroupTag`. -/
def autoScalingGroupTag : String := "aws:autoscaling:groupName"

/-- The inner loop of the callback of `getInstances`, over the instances of one
reservation. -/
def collectInstances : List Instance → List instanceSchedule → List instanceSchedule
  | [], list => list
  | inst :: rest, list =>
    match getEC2TagValue inst.Tags autoScalingGroupTag with
    | some _ => collectInstances rest list
    | none =>
      match getEC2TagValue inst.Tags scheduleTag with
      | some schedule => collectInstances rest (list ++ [⟨inst, schedule⟩])
      | none => collectInstances rest list

/-- The callback of `getInstances` on one page: the loop over its reservations. -/
def collectReservations : List (List Instance) → List instanceSchedule → List instanceSchedule
  | [], list => list
  | reservation :: rest, list => collectReservations rest (collectInstances reservation list)

/-- The callback of `getInstances` on the pages that the client hands over. -/
def collectPages : List (List (List Instance)) → List instanceSchedule → List instanceSchedule
  | [], list => list
  | page :: rest, list => collectPages rest (collectReservations page list)

/-- The function `getInstances`, given what `DescribeInstancesPagesWithContext`
does: the pages it hands to the callback (each a list of reservations, each a list
of instances) and the error it returns. -/
def getInstances (describe : List (List (List Instance)) × Option String) :
    List instanceSchedule × Option String :=
  (collectPages describe.1 [], describe.2)

/-- The instances of all pages, in the order of the provider. -/
def allInstances : List (List (List Instance)) → List Instance
  | [] => []
  | page :: rest => page.foldr (fun reservation acc => reservation ++ acc) [] ++ allInstances rest

/-- What the claim on `getInstances` describes for one instance: nothing when it
has a tag `aws:autoscaling:groupName` or no tag `possum:schedule`, and otherwise the
instance with the value of its (first) tag `possum:schedule`. -/
def scheduledInstance (inst : Instance) : Option instanceSchedule :=
  if ∃ tag ∈ inst.Tags, tag.Key = "aws:autoscaling:groupName" then none
  else
    match inst.Tags.find? (fun tag => decide (tag.Key = "possum:schedule")) with
    | none => none
    | some tag => some ⟨inst, tag.Value⟩

/-! ## Discovery of autoscaling groups -/

/-- The fields of `autoscaling.TagDescription` that `getAutoScalingGroups` reads in a
page of `DescribeTags`: the name of the tagged group and the value of the tag. The
pointer `tag.Value` is taken to be set, as it is for every tag the provider
describes. -/
structure TagDescription where
  ResourceId : String
  Value : String
deriving DecidableEq

/-- The closure `tagCollector` of `getAutoScalingGroups` on one page of tags: for
every tag of the page, its `ResourceId` is appended to `groupNames` and its value
to `schemas`. -/
def tagCollector : List TagDescription → List String × List String → List String × List String
  | [], collected => collected
  | tag :: rest, (groupNames, schemas) =>
    tagCollector rest (groupNames ++ [tag.ResourceId], schemas ++ [tag.Value])

/-- The calls of `tagCollector` that `DescribeTagsPagesWithContext` makes, one per
page. -/
def collectTagPages : List (List TagDescription) → List String × List String →
    List String × List String
  | [], collected => collected
  | page :: rest, collected => collectTagPages rest (tagCollector page collected)

/-- The closure `collector` of `getAutoScalingGroups` on one page of groups, from
the index `i` of the range loop on; `none` is the panic of `schemas[i]` out of
range. -/
def collector (schemas : List String) :
    Nat → List Group → List GroupSchedule → Option (List GroupSchedule)
  | _, [], result => some result
  | i, group :: rest, result =>
    match schemas[i]? with
    | none => none
    | some schedule => collector schemas (i + 1) rest (result ++ [⟨group, schedule⟩])

/-- The calls of `collector` that `DescribeAutoScalingGroupsPagesWithContext` makes,
one per page; the index of the range loop starts at 0 on every page. -/
def collectGroupPages (schemas : List String) :
    List (List Group) → List GroupSchedule → Option (List GroupSchedule)
  | [], result => some result
  | page :: rest, result =>
    match collector schemas 0 page result with
    | none => none
    | some result => collectGroupPages schemas rest result

/-- The function `getAutoScalingGroups`. The provider is given by what its two
paged calls deliver: the pages of tags with key `possum:schedule` and the error of
`DescribeTagsPagesWithContext`, and, for the group names asked for, the pages of
groups and the error of `DescribeAutoScalingGroupsPagesWithContext`. The result
`none` is a panic; a nil list is the empty list. -/
def getAutoScalingGroups (describeTags : List (List TagDescription) × Option String)
    (describeAutoScalingGroups : List String → List (List Group) × Option String) :
    Option (List GroupSchedule × Option String) :=
  let collected := collectTagPages describeTags.1 ([], [])
  match describeTags.2 with
  | some err => some ([], some err)
  | none =>
    if collected.1.length = 0 then some ([], none)
    else
      let described := describeAutoScalingGroups collected.1
      match collectGroupPages collected.2 described.1 [] with
      | none => none
      | some result => some (result, described.2)

/-- The schedule name that the tags give to the group called `name`: the value of
the (first) described tag whose `ResourceId` is that name. -/
def taggedSchedule (tags : List (List TagDescription)) (name : String) : Option String :=
  (tags.flatten.find? (fun tag => decide (tag.ResourceId = name))).map (fun tag => tag.Value)

/-- A group with nothing but a name, as in `TestGetAutoScalingGroups`. -/
def namedGroup (name : String) : Group := ⟨name, 0, 0, [], [], []⟩

/-- One page of tags: `group1` follows the schedule `OfficeHours` and `group2` the
schedule `Nights`. -/
def twoTaggedGroups : List (List TagDescription) :=
  [[⟨"group1", "OfficeHours"⟩, ⟨"group2", "Nights"⟩]]

/-- A provider that delivers `group1` and `group2` in the order of the tags, on two
pages of one group each. -/
def twoPagesProvider (_ : List String) : List (List Group) × Option String :=
  ([[namedGroup "group1"], [namedGroup "group2"]], none)

/-- A provider that delivers `group2` before `group1`, on one page. -/
def reorderingProvider (_ : List String) : List (List Group) × Option String :=
  ([[namedGroup "group2", namedGroup "group1"]], none)

/-! ## Inverted periods, single rules and restore sizes: sample data -/

/-- The kitchen time `a` is strictly after the kitchen time `b`, comparing
(hour, minute) pairs lexicographically. -/
def strictlyAfter (a b : KitchenTime) : Prop :=
  b.Hour < a.Hour ∨ (b.Hour = a.Hour ∧ b.Minute < a.Minute)

instance (a b : KitchenTime) : Decidable (strictlyAfter a b) := by
  unfold strictlyAfter; infer_instance

/-- A schedule with one rule, 08:00-17:00 in UTC on every weekday, built with
`NewSchedule` and `AddPeriod`. -/
def oneRuleSchedule : Schedule :=
  addPeriods twoZones (NewSchedule "OfficeHours") [("UTC", ⟨⟨8, 0⟩, ⟨17, 0⟩, []⟩)]

/-- A stopped group (no instance, capacity 0) under the schedule `n`, whose tag
`possum:min_size` holds `0`: what `performASGChanges` leaves behind when it stops a
group whose `MinSize` was 0. -/
def zeroMinSizeGroup : GroupSchedule :=
  ⟨⟨"asg", 0, 0, [], [], [⟨"possum:min_size", "0"⟩]⟩, "n"⟩

/-- A running group with one instance, `MinSize` 0 and no tag `possum:min_size`,
under the schedule `n`. -/
def runningMinZeroGroup : GroupSchedule :=
  ⟨⟨"asg", 1, 0, ["i-1"], [], []⟩, "n"⟩

/-! ## Periods: theorems -/

theorem inWeekdayLoop_eq_true_iff (t : Time) (days : List Weekday) :
    inWeekdayLoop t days = true ↔ t.Weekday ∈ days := by
  induction days with
  | nil => simp [inWeekdayLoop]
  | cons d rest ih =>
    by_cases h : d = t.Weekday
    · simp [inWeekdayLoop, h]
    · have h2 : ¬ t.Weekday = d := fun e => h e.symm
      simp [inWeekdayLoop, h, h2, ih]

theorem inWeekday_eq_true_iff (r : Period) (t : Time) :
    r.inWeekday t = true ↔ weekdayAllowed r t := by
  unfold Period.inWeekday weekdayAllowed
  by_cases h : r.Weekdays = []
  · simp [h]
  · have hl : ¬ r.Weekdays.length = 0 := fun e => h (List.length_eq_zero.mp e)
    simp [h, hl, inWeekdayLoop_eq_true_iff]

/-- C1, on the code: `InPeriod` does not decide "at or after StartTime and at or
before StopTime". `beforeStart` compares the minutes when the hour of the instant
equals `StopTime.Hour`, where `StartTime.Hour` is meant. For the period
08:30-18:00 on every day, Monday 08:00 is accepted although it is before the
start; for the period 08:30-18:45, Monday 18:15 is rejected although it lies
between start and stop. -/
theorem InPeriod_not_closed_interval :
    (weekdayAllowed ⟨⟨8, 30⟩, ⟨18, 0⟩, []⟩ (newWeekday Monday 8 0)
      ∧ Period.InPeriod ⟨⟨8, 30⟩, ⟨18, 0⟩, []⟩ (newWeekday Monday 8 0) = true
      ∧ ¬ atOrAfter (newWeekday Monday 8 0).Hour (newWeekday Monday 8 0).Minute ⟨8, 30⟩)
    ∧ (weekdayAllowed ⟨⟨8, 30⟩, ⟨18, 45⟩, []⟩ (newWeekday Monday 18 15)
      ∧ Period.InPeriod ⟨⟨8, 30⟩, ⟨18, 45⟩, []⟩ (newWeekday Monday 18 15) = false
      ∧ atOrAfter (newWeekday Monday 18 15).Hour (newWeekday Monday 18 15).Minute ⟨8, 30⟩
      ∧ atOrBefore (newWeekday Monday 18 15).Hour (newWeekday Monday 18 15).Minute ⟨18, 45⟩) := by
  refine ⟨⟨Or.inl rfl, by decide, by decide⟩, ⟨Or.inl rfl, by decide, by decide, by decide⟩⟩

/-- C2, on the code: an instant exactly at `StopTime` is rejected when the start
minute is greater than the stop minute. The period 08:30-18:00 on every day has
its start before its stop, Monday 18:00 has the hour and minute of `StopTime`, and
`InPeriod` returns false there. -/
theorem InPeriod_rejects_stop_boundary :
    atOrBefore 8 30 (⟨18, 0⟩ : KitchenTime)
    ∧ weekdayAllowed ⟨⟨8, 30⟩, ⟨18, 0⟩, []⟩ (newWeekday Monday 18 0)
    ∧ (newWeekday Monday 18 0).Hour = 18 ∧ (newWeekday Monday 18 0).Minute = 0
    ∧ Period.InPeriod ⟨⟨8, 30⟩, ⟨18, 0⟩, []⟩ (newWeekday Monday 18 0) = false := by
  refine ⟨by decide, Or.inl rfl, by decide, by decide, by decide⟩

/-- C3: a period with a non-empty weekday list never contains an instant whose
weekday is not in the list, whatever the hour, the minute and the start and stop
times are. -/
theorem InPeriod_false_of_weekday_not_listed (p : Period) (t : Time)
    (hne : p.Weekdays ≠ []) (hnot : t.Weekday ∉ p.Weekdays) :
    p.InPeriod t = false := by
  have hw : p.inWeekday t = false := by
    rw [← Bool.not_eq_true, inWeekday_eq_true_iff]
    rintro (h | h)
    · exact hne h
    · exact hnot h
  simp [Period.InPeriod, hw]

theorem InPeriod_false_of_weekday_not_listed_witness :
    (⟨⟨8, 0⟩, ⟨18, 0⟩, [Monday, Tuesday, Wednesday, Thursday, Friday]⟩ : Period).Weekdays ≠ []
    ∧ (newWeekday Saturday 12 0).Weekday
        ∉ (⟨⟨8, 0⟩, ⟨18, 0⟩, [Monday, Tuesday, Wednesday, Thursday, Friday]⟩ : Period).Weekdays
    ∧ Period.InPeriod ⟨⟨8, 0⟩, ⟨18, 0⟩, [Monday, Tuesday, Wednesday, Thursday, Friday]⟩
        (newWeekday Saturday 12 0) = false :=
  ⟨by decide, by decide,
    InPeriod_false_of_weekday_not_listed
      ⟨⟨8, 0⟩, ⟨18, 0⟩, [Monday, Tuesday, Wednesday, Thursday, Friday]⟩
      (newWeekday Saturday 12 0) (by decide) (by decide)⟩

/-- C4: a period with an empty weekday list gives the same `InPeriod` result for
any two instants with the same hour and minute, whatever their weekdays. -/
theorem InPeriod_eq_of_same_time_of_day (p : Period) (t1 t2 : Time)
    (hempty : p.Weekdays = []) (hh : t1.Hour = t2.Hour) (hm : t1.Minute = t2.Minute) :
    p.InPeriod t1 = p.InPeriod t2 := by
  simp [Period.InPeriod, Period.inWeekday, Period.beforeStart, Period.afterStop, hempty, hh, hm]

theorem InPeriod_eq_of_same_time_of_day_witness :
    (⟨⟨8, 0⟩, ⟨18, 0⟩, []⟩ : Period).Weekdays = []
    ∧ (newWeekday Friday 8 0).Hour = (newWeekday Saturday 8 0).Hour
    ∧ (newWeekday Friday 8 0).Minute = (newWeekday Saturday 8 0).Minute
    ∧ (newWeekday Friday 8 0).Weekday ≠ (newWeekday Saturday 8 0).Weekday
    ∧ Period.InPeriod ⟨⟨8, 0⟩, ⟨18, 0⟩, []⟩ (newWeekday Friday 8 0)
        = Period.InPeriod ⟨⟨8, 0⟩, ⟨18, 0⟩, []⟩ (newWeekday Saturday 8 0) :=
  ⟨rfl, by decide, by decide, by decide,
    InPeriod_eq_of_same_time_of_day ⟨⟨8, 0⟩, ⟨18, 0⟩, []⟩
      (newWeekday Friday 8 0) (newWeekday Saturday 8 0) rfl (by decide) (by decide)⟩

/-! ## Schedules: the decision -/

theorem firstDecision_nil (t : Time) (isRunning : Bool) :
    firstDecision t isRunning [] = NoopAction := rfl

theorem firstDecision_cons (t : Time) (isRunning : Bool) (rule : Location × Period)
    (rules : List (Location × Period)) :
    firstDecision t isRunning (rule :: rules)
      = if ruleDecision t isRunning rule ≠ NoopAction then ruleDecision t isRunning rule
        else firstDecision t isRunning rules := by
  unfold firstDecision
  by_cases h : ruleDecision t isRunning rule = NoopAction
  · simp [List.find?, h]
  · simp [List.find?, h]

theorem actionLoop_eq_firstDecision (locations : List Location) (t : Time) (isRunning : Bool) :
    ∀ (periods : List Period) (i : Nat), i + periods.length ≤ locations.length →
      actionLoop locations t isRunning i periods
        = some (firstDecision t isRunning (List.zip (locations.drop i) periods)) := by
  intro periods
  induction periods with
  | nil => intro i _; simp [actionLoop, firstDecision_nil]
  | cons rule rest ih =>
    intro i hi
    have hlt : i < locations.length := by
      simp only [List.length_cons] at hi; omega
    have hdrop : locations.drop i = locations[i] :: locations.drop (i + 1) :=
      List.drop_eq_getElem_cons hlt
    have hrest : i + 1 + rest.length ≤ locations.length := by
      simp only [List.length_cons] at hi; omega
    have hnext := ih (i + 1) hrest
    rw [hdrop, List.zip_cons_cons, firstDecision_cons]
    unfold actionLoop
    rw [List.getElem?_eq_getElem hlt]
    cases hin : rule.InPeriod (t.In locations[i]) <;> cases isRunning <;>
      simp [ruleDecision, hin, hnext, StartAction, StopAction, NoopAction]

/-- C5: for a schedule with as many locations as periods, `Action` returns (and
does not panic) the decision of the first rule in list order whose own decision
is not Noop, and Noop when every rule's own decision is Noop, in particular when
there are no rules. -/
theorem Action_eq_first_decisive_rule (s : Schedule) (t : Time) (isRunning : Bool)
    (hlen : s.Locations.length = s.Periods.length) :
    s.Action t isRunning = some (firstDecision t isRunning (List.zip s.Locations s.Periods))
    ∧ ((∀ rule ∈ List.zip s.Locations s.Periods, ruleDecision t isRunning rule = NoopAction) →
        s.Action t isRunning = some NoopAction)
    ∧ (s.Periods = [] → s.Action t isRunning = some NoopAction) := by
  have h := actionLoop_eq_firstDecision s.Locations t isRunning s.Periods 0 (by omega)
  rw [List.drop_zero] at h
  refine ⟨h, ?_, ?_⟩
  · intro hall
    unfold Schedule.Action
    rw [h]
    congr 1
    generalize List.zip s.Locations s.Periods = rules at hall
    induction rules with
    | nil => rfl
    | cons r rs ih =>
      rw [firstDecision_cons, hall r (List.mem_cons_self _ _)]
      simpa using ih (fun x hx => hall x (List.mem_cons_of_mem _ hx))
  · intro hnil
    unfold Schedule.Action
    rw [hnil]
    rfl

theorem Action_eq_first_decisive_rule_witness :
    twoRuleSchedule.Locations.length = twoRuleSchedule.Periods.length
    ∧ ruleDecision (newWeekday Friday 20 0) false (UTC, ⟨⟨8, 0⟩, ⟨17, 0⟩, []⟩) = NoopAction
    ∧ ruleDecision (newWeekday Friday 20 0) false (plusTwelve, ⟨⟨8, 0⟩, ⟨17, 0⟩, []⟩) = StartAction
    ∧ twoRuleSchedule.Action (newWeekday Friday 20 0) false
        = some (firstDecision (newWeekday Friday 20 0) false
            (List.zip twoRuleSchedule.Locations twoRuleSchedule.Periods)) :=
  ⟨by decide, by decide, by decide,
    (Action_eq_first_decisive_rule twoRuleSchedule (newWeekday Friday 20 0) false (by decide)).1⟩

theorem firstDecision_not_running (t : Time) (rules : List (Location × Period)) :
    (firstDecision t false rules = StartAction
      ↔ ∃ rule ∈ rules, rule.2.InPeriod (t.In rule.1) = true)
    ∧ (firstDecision t false rules = StartAction ∨ firstDecision t false rules = NoopAction) := by
  induction rules with
  | nil => simp [firstDecision_nil, StartAction, NoopAction]
  | cons r rs ih =>
    rw [firstDecision_cons]
    cases hin : r.2.InPeriod (t.In r.1)
    · have hd : ruleDecision t false r = NoopAction := by simp [ruleDecision, hin]
      rw [hd, if_neg (fun h => h rfl)]
      refine ⟨?_, ih.2⟩
      rw [ih.1]
      simp [hin]
    · have hd : ruleDecision t false r = StartAction := by simp [ruleDecision, hin]
      rw [hd, if_pos (by decide)]
      exact ⟨⟨fun _ => ⟨r, List.mem_cons_self _ _, hin⟩, fun _ => rfl⟩, Or.inl rfl⟩

theorem firstDecision_running (t : Time) (rules : List (Location × Period)) :
    (firstDecision t true rules = StopAction
      ↔ ∃ rule ∈ rules, rule.2.InPeriod (t.In rule.1) = false)
    ∧ (firstDecision t true rules = StopAction ∨ firstDecision t true rules = NoopAction) := by
  induction rules with
  | nil => simp [firstDecision_nil, StopAction, NoopAction]
  | cons r rs ih =>
    rw [firstDecision_cons]
    cases hin : r.2.InPeriod (t.In r.1)
    · have hd : ruleDecision t true r = StopAction := by simp [ruleDecision, hin]
      rw [hd, if_pos (by decide)]
      exact ⟨⟨fun _ => ⟨r, List.mem_cons_self _ _, hin⟩, fun _ => rfl⟩, Or.inl rfl⟩
    · have hd : ruleDecision t true r = NoopAction := by simp [ruleDecision, hin]
      rw [hd, if_neg (fun h => h rfl)]
      refine ⟨?_, ih.2⟩
      rw [ih.1]
      simp [hin]

/-- C6: for a schedule with as many locations as periods, `Action(t, false)` is
Start exactly when some rule's period contains `t` converted to the rule's
timezone and is Noop otherwise, never Stop; `Action(t, true)` is Stop exactly when
some rule's period does not contain the converted `t` and is Noop otherwise,
never Start. -/
theorem Action_start_iff_stop_iff (s : Schedule) (t : Time)
    (hlen : s.Locations.length = s.Periods.length) :
    (s.Action t false = some StartAction
      ↔ ∃ rule ∈ List.zip s.Locations s.Periods, rule.2.InPeriod (t.In rule.1) = true)
    ∧ (s.Action t false = some StartAction ∨ s.Action t false = some NoopAction)
    ∧ (s.Action t true = some StopAction
      ↔ ∃ rule ∈ List.zip s.Locations s.Periods, rule.2.InPeriod (t.In rule.1) = false)
    ∧ (s.Action t true = some StopAction ∨ s.Action t true = some NoopAction) := by
  have hf := actionLoop_eq_firstDecision s.Locations t false s.Periods 0 (by omega)
  have ht := actionLoop_eq_firstDecision s.Locations t true s.Periods 0 (by omega)
  rw [List.drop_zero] at hf ht
  have nf := firstDecision_not_running t (List.zip s.Locations s.Periods)
  have nt := firstDecision_running t (List.zip s.Locations s.Periods)
  unfold Schedule.Action
  rw [hf, ht]
  simp only [Option.some.injEq]
  exact ⟨nf.1, nf.2, nt.1, nt.2⟩

theorem Action_start_iff_stop_iff_witness :
    twoRuleSchedule.Locations.length = twoRuleSchedule.Periods.length
    ∧ twoRuleSchedule.Action (newWeekday Friday 20 0) false = some StartAction
    ∧ twoRuleSchedule.Action (newWeekday Friday 20 0) true = some StopAction
    ∧ twoRuleSchedule.Action (newWeekday Friday 18 0) false = some NoopAction
    ∧ (twoRuleSchedule.Action (newWeekday Friday 20 0) false = some StartAction
      ↔ ∃ rule ∈ List.zip twoRuleSchedule.Locations twoRuleSchedule.Periods,
          rule.2.InPeriod ((newWeekday Friday 20 0).In rule.1) = true) :=
  ⟨by decide, by decide, by decide, by decide,
    (Action_start_iff_stop_iff twoRuleSchedule (newWeekday Friday 20 0) (by decide)).1⟩

/-! ## Parsing: theorems -/

theorem digitValue_eq_some_iff (c : Char) (d : Nat) :
    digitValue c = some d ↔ isDecimalDigit c ∧ d = c.toNat - 48 := by
  unfold digitValue isDecimalDigit
  by_cases h : 48 ≤ c.toNat ∧ c.toNat ≤ 57
  · simp [h, eq_comm]
  · simp [h]

theorem digitValue_eq_none_iff (c : Char) : digitValue c = none ↔ ¬ isDecimalDigit c := by
  unfold digitValue isDecimalDigit
  by_cases h : 48 ≤ c.toNat ∧ c.toNat ≤ 57
  · simp [h]
  · simp [h]

theorem le_foldl_digits (cs : List Char) (n : Nat) :
    n ≤ cs.foldl (fun n c => n * 10 + (c.toNat - 48)) n := by
  induction cs generalizing n with
  | nil => simp
  | cons c cs ih =>
    simp only [List.foldl_cons]
    exact le_trans (by omega) (ih (n * 10 + (c.toNat - 48)))

theorem parseUintLoop_eq_some_iff (cs : List Char) (n m : Nat) :
    parseUintLoop cs n = some m
      ↔ (∀ c ∈ cs, isDecimalDigit c)
        ∧ m = cs.foldl (fun n c => n * 10 + (c.toNat - 48)) n
        ∧ (cs = [] ∨ m < 2 ^ 64) := by
  induction cs generalizing n with
  | nil => simp [parseUintLoop, eq_comm]
  | cons c cs ih =>
    unfold parseUintLoop
    by_cases hc : isDecimalDigit c
    · have hd : digitValue c = some (c.toNat - 48) := (digitValue_eq_some_iff c _).2 ⟨hc, rfl⟩
      rw [hd]
      simp only [List.foldl_cons, List.mem_cons, forall_eq_or_imp, hc, true_and]
      have hge := le_foldl_digits cs (n * 10 + (c.toNat - 48))
      by_cases hbig : 2 ^ 64 ≤ n * 10 + (c.toNat - 48)
      · rw [if_pos hbig]
        constructor
        · intro h; cases h
        · rintro ⟨_, hm, hlt⟩
          rcases hlt with hlt | hlt
          · cases hlt
          · omega
      · rw [if_neg hbig, ih]
        constructor
        · rintro ⟨hall, hm, _⟩
          refine ⟨hall, hm, Or.inr ?_⟩
          rcases cs with _ | ⟨c2, cs2⟩
          · simp at hm; omega
          · rename_i hor
            rcases hor with hor | hor
            · cases hor
            · exact hor
        · rintro ⟨hall, hm, hlt⟩
          refine ⟨hall, hm, ?_⟩
          rcases hlt with hlt | hlt
          · cases hlt
          · exact Or.inr hlt
    · have hd : digitValue c = none := (digitValue_eq_none_iff c).2 hc
      rw [hd]
      simp [hc]

theorem parseUintLoop_zero_eq_some_iff (ds : List Char) (hne : ds ≠ []) (un : Nat) :
    parseUintLoop ds 0 = some un
      ↔ (∀ c ∈ ds, isDecimalDigit c) ∧ un = decimalValue ds ∧ un < 2 ^ 64 := by
  rw [parseUintLoop_eq_some_iff]
  simp [decimalValue, hne]

theorem not_isDecimalDigit_minus : ¬ isDecimalDigit '-' := by
  unfold isDecimalDigit; decide

theorem not_isDecimalDigit_plus : ¬ isDecimalDigit '+' := by
  unfold isDecimalDigit; decide

theorem Atoi_minus (rest : List Char) (hne : rest ≠ []) :
    Atoi ('-' :: rest)
      = match parseUintLoop rest 0 with
        | none => none
        | some un => if 2 ^ 63 < un then none else some (-(un : Int)) := by
  cases rest with
  | nil => exact absurd rfl hne
  | cons d ds =>
    cases h : parseUintLoop (d :: ds) 0 <;> simp [Atoi, h]

theorem Atoi_plus (rest : List Char) (hne : rest ≠ []) :
    Atoi ('+' :: rest)
      = match parseUintLoop rest 0 with
        | none => none
        | some un => if 2 ^ 63 ≤ un then none else some (un : Int) := by
  cases rest with
  | nil => exact absurd rfl hne
  | cons d ds =>
    cases h : parseUintLoop (d :: ds) 0 <;> simp [Atoi, h]

theorem Atoi_unsigned (c : Char) (rest : List Char) (hp : c ≠ '+') (hm : c ≠ '-') :
    Atoi (c :: rest)
      = match parseUintLoop (c :: rest) 0 with
        | none => none
        | some un => if 2 ^ 63 ≤ un then none else some (un : Int) := by
  simp only [Atoi, hp, hm, or_self, if_false]
  cases parseUintLoop (c :: rest) 0 <;> simp [hm]

theorem Atoi_digits_neg (ds : List Char) (hne : ds ≠ []) (n : Int) :
    (match parseUintLoop ds 0 with
      | none => none
      | some un => if 2 ^ 63 < un then none else some (-(un : Int))) = some n
    ↔ (∀ c ∈ ds, isDecimalDigit c) ∧ n = -(decimalValue ds : Int) ∧ -(2 : Int) ^ 63 ≤ n := by
  constructor
  · intro h
    cases hp : parseUintLoop ds 0 with
    | none => rw [hp] at h; cases h
    | some un =>
      rw [hp] at h
      replace h : (if 2 ^ 63 < un then none else some (-(un : Int))) = some n := h
      obtain ⟨hall, hun, _⟩ := (parseUintLoop_zero_eq_some_iff ds hne un).1 hp
      by_cases hbig : 2 ^ 63 < un
      · rw [if_pos hbig] at h; cases h
      · simp only [hbig, if_false, Option.some.injEq] at h
        refine ⟨hall, by rw [← h, hun], ?_⟩
        rw [← h]
        norm_num at hbig ⊢
        omega
  · rintro ⟨hall, hn, hlo⟩
    have hle : decimalValue ds ≤ 2 ^ 63 := by
      rw [hn] at hlo
      norm_num at hlo ⊢
      omega
    have hp : parseUintLoop ds 0 = some (decimalValue ds) :=
      (parseUintLoop_zero_eq_some_iff ds hne _).2
        ⟨hall, rfl, lt_of_le_of_lt hle (by norm_num)⟩
    rw [hp]
    show (if 2 ^ 63 < decimalValue ds then none else some (-(decimalValue ds : Int))) = some n
    rw [if_neg (not_lt.mpr hle), hn]

theorem Atoi_digits_pos (ds : List Char) (hne : ds ≠ []) (n : Int) :
    (match parseUintLoop ds 0 with
      | none => none
      | some un => if 2 ^ 63 ≤ un then none else some (un : Int)) = some n
    ↔ (∀ c ∈ ds, isDecimalDigit c) ∧ n = (decimalValue ds : Int) ∧ n < (2 : Int) ^ 63 := by
  constructor
  · intro h
    cases hp : parseUintLoop ds 0 with
    | none => rw [hp] at h; cases h
    | some un =>
      rw [hp] at h
      replace h : (if 2 ^ 63 ≤ un then none else some (un : Int)) = some n := h
      obtain ⟨hall, hun, _⟩ := (parseUintLoop_zero_eq_some_iff ds hne un).1 hp
      by_cases hbig : 2 ^ 63 ≤ un
      · rw [if_pos hbig] at h; cases h
      · simp only [hbig, if_false, Option.some.injEq] at h
        refine ⟨hall, by rw [← h, hun], ?_⟩
        rw [← h]
        norm_num at hbig ⊢
        omega
  · rintro ⟨hall, hn, hhi⟩
    have hlt : decimalValue ds < 2 ^ 63 := by
      rw [hn] at hhi
      norm_num at hhi ⊢
      omega
    have hp : parseUintLoop ds 0 = some (decimalValue ds) :=
      (parseUintLoop_zero_eq_some_iff ds hne _).2
        ⟨hall, rfl, lt_trans hlt (by norm_num)⟩
    rw [hp]
    show (if 2 ^ 63 ≤ decimalValue ds then none else some (decimalValue ds : Int)) = some n
    rw [if_neg (not_le.mpr hlt), hn]

theorem DenotesInt_minus (rest : List Char) (n : Int) :
    DenotesInt ('-' :: rest) n
      ↔ rest ≠ [] ∧ (∀ c ∈ rest, isDecimalDigit c) ∧ n = -(decimalValue rest : Int)
        ∧ -(2 : Int) ^ 63 ≤ n := by
  constructor
  · rintro ⟨digits, hne, hall, hcase, hlo, _⟩
    rcases hcase with ⟨hs | hs, _⟩ | ⟨hs, hn⟩
    · exact absurd (hall '-' (by rw [← hs]; exact List.mem_cons_self _ _))
        not_isDecimalDigit_minus
    · simp at hs
    · obtain rfl : rest = digits := by simpa using hs
      exact ⟨hne, hall, hn, hlo⟩
  · rintro ⟨hne, hall, hn, hlo⟩
    refine ⟨rest, hne, hall, Or.inr ⟨rfl, hn⟩, hlo, ?_⟩
    rw [hn]
    have : (0 : Int) ≤ (decimalValue rest : Int) := Int.ofNat_nonneg _
    norm_num
    omega

theorem DenotesInt_plus (rest : List Char) (n : Int) :
    DenotesInt ('+' :: rest) n
      ↔ rest ≠ [] ∧ (∀ c ∈ rest, isDecimalDigit c) ∧ n = (decimalValue rest : Int)
        ∧ n < (2 : Int) ^ 63 := by
  constructor
  · rintro ⟨digits, hne, hall, hcase, _, hhi⟩
    rcases hcase with ⟨hs | hs, hn⟩ | ⟨hs, _⟩
    · exact absurd (hall '+' (by rw [← hs]; exact List.mem_cons_self _ _))
        not_isDecimalDigit_plus
    · obtain rfl : rest = digits := by simpa using hs
      exact ⟨hne, hall, hn, hhi⟩
    · simp at hs
  · rintro ⟨hne, hall, hn, hhi⟩
    refine ⟨rest, hne, hall, Or.inl ⟨Or.inr rfl, hn⟩, ?_, hhi⟩
    rw [hn]
    have : (0 : Int) ≤ (decimalValue rest : Int) := Int.ofNat_nonneg _
    norm_num
    omega

theorem DenotesInt_unsigned (c : Char) (rest : List Char) (hp : c ≠ '+') (hm : c ≠ '-')
    (n : Int) :
    DenotesInt (c :: rest) n
      ↔ (∀ x ∈ c :: rest, isDecimalDigit x) ∧ n = (decimalValue (c :: rest) : Int)
        ∧ n < (2 : Int) ^ 63 := by
  constructor
  · rintro ⟨digits, hne, hall, hcase, _, hhi⟩
    rcases hcase with ⟨hs | hs, hn⟩ | ⟨hs, _⟩
    · subst hs
      exact ⟨hall, hn, hhi⟩
    · exact absurd (List.cons.inj hs).1 hp
    · exact absurd (List.cons.inj hs).1 hm
  · rintro ⟨hall, hn, hhi⟩
    refine ⟨c :: rest, List.cons_ne_nil _ _, hall, Or.inl ⟨Or.inl rfl, hn⟩, ?_, hhi⟩
    rw [hn]
    have : (0 : Int) ≤ (decimalValue (c :: rest) : Int) := Int.ofNat_nonneg _
    norm_num
    omega

theorem Atoi_eq_some_iff (s : List Char) (n : Int) : Atoi s = some n ↔ DenotesInt s n := by
  cases s with
  | nil =>
    constructor
    · intro h; simp [Atoi] at h
    · rintro ⟨digits, hne, _, hcase, _⟩
      rcases hcase with ⟨hs | hs, _⟩ | ⟨hs, _⟩
      · exact absurd hs.symm hne
      · cases hs
      · cases hs
  | cons c rest =>
    by_cases hm : c = '-'
    · subst hm
      rw [DenotesInt_minus]
      by_cases hne : rest = []
      · subst hne
        simp [Atoi]
      · rw [Atoi_minus rest hne, Atoi_digits_neg rest hne]
        simp [hne]
    · by_cases hp : c = '+'
      · subst hp
        rw [DenotesInt_plus]
        by_cases hne : rest = []
        · subst hne
          simp [Atoi]
        · rw [Atoi_plus rest hne, Atoi_digits_pos rest hne]
          simp [hne]
      · rw [DenotesInt_unsigned c rest hp hm, Atoi_unsigned c rest hp hm,
          Atoi_digits_pos (c :: rest) (List.cons_ne_nil _ _)]

theorem Atoi_eq_none_iff (s : List Char) : Atoi s = none ↔ ¬ ∃ n, DenotesInt s n := by
  constructor
  · rintro h ⟨n, hn⟩
    rw [(Atoi_eq_some_iff s n).2 hn] at h
    cases h
  · intro h
    cases hs : Atoi s with
    | none => rfl
    | some n => exact absurd ⟨n, (Atoi_eq_some_iff s n).1 hs⟩ h

theorem Split_ne_nil (sep : Char) (s : List Char) : Split sep s ≠ [] := by
  induction s with
  | nil => simp [Split]
  | cons c cs ih =>
    unfold Split
    by_cases h : c = sep
    · simp [h]
    · rw [if_neg h]
      cases hs : Split sep cs <;> simp

theorem Split_intercalate (sep : Char) (s : List Char) :
    List.intercalate [sep] (Split sep s) = s ∧ ∀ field ∈ Split sep s, sep ∉ field := by
  induction s with
  | nil => simp [Split, List.intercalate]
  | cons c cs ih =>
    unfold Split
    by_cases h : c = sep
    · rw [if_pos h]
      have hne := Split_ne_nil sep cs
      cases hs : Split sep cs with
      | nil => exact absurd hs hne
      | cons f fs =>
        rw [hs] at ih
        refine ⟨?_, ?_⟩
        · have h1 := ih.1
          simp only [List.intercalate, List.intersperse, List.flatten, List.nil_append,
            List.singleton_append] at h1 ⊢
          rw [h1, h]
        · intro field hf
          rcases List.mem_cons.1 hf with hf | hf
          · rw [hf]; simp
          · exact ih.2 field hf
    · rw [if_neg h]
      have hne := Split_ne_nil sep cs
      cases hs : Split sep cs with
      | nil => exact absurd hs hne
      | cons f fs =>
        rw [hs] at ih
        refine ⟨?_, ?_⟩
        · have h1 := ih.1
          cases fs with
          | nil =>
            simp only [List.intercalate, List.intersperse, List.flatten, List.append_nil] at h1 ⊢
            rw [h1]
          | cons g gs =>
            simp only [List.intercalate, List.intersperse, List.flatten,
              List.cons_append] at h1 ⊢
            rw [h1]
        · intro field hf
          rcases List.mem_cons.1 hf with hf | hf
          · rw [hf]
            intro hmem
            rcases List.mem_cons.1 hmem with hmem | hmem
            · exact h hmem.symm
            · exact ih.2 f (List.mem_cons_self _ _) hmem
          · exact ih.2 field (List.mem_cons_of_mem _ hf)

theorem NewKitchenTime_eq_ok_iff (text : String) (kt : KitchenTime) :
    NewKitchenTime text = .ok kt
      ↔ (Split ':' text.toList).length = 2
        ∧ Atoi ((Split ':' text.toList).getD 0 []) = some kt.Hour
        ∧ Atoi ((Split ':' text.toList).getD 1 []) = some kt.Minute := by
  unfold NewKitchenTime
  simp only []
  generalize Split ':' text.toList = fields
  by_cases hlen : fields.length = 2
  · rw [if_neg (not_not.mpr hlen)]
    cases h0 : Atoi (fields.getD 0 []) with
    | none => simp
    | some hour =>
      cases h1 : Atoi (fields.getD 1 []) with
      | none => simp
      | some minute =>
        cases kt with
        | mk h m => simp [hlen]
  · rw [if_pos hlen]
    simp [hlen]

theorem NewKitchenTime_error_of_not_ok (text : String)
    (h : ∀ kt, NewKitchenTime text ≠ .ok kt) : NewKitchenTime text = .error (errFormat text) := by
  unfold NewKitchenTime at h ⊢
  simp only [] at h ⊢
  by_cases hlen : (Split ':' text.toList).length = 2
  · rw [if_neg (not_not.mpr hlen)] at h ⊢
    cases h0 : Atoi ((Split ':' text.toList).getD 0 []) with
    | none => rfl
    | some hour =>
      cases h1 : Atoi ((Split ':' text.toList).getD 1 []) with
      | none => rfl
      | some minute =>
        rw [h0, h1] at h
        exact absurd rfl (h ⟨hour, minute⟩)
  · rw [if_pos hlen]

/-- C7 as stated fails: `NewKitchenTime` accepts "25:99" and returns hour 25 and
minute 99, outside 0..23 and 0..59. -/
theorem NewKitchenTime_accepts_out_of_range :
    ∃ kt, NewKitchenTime "25:99" = .ok kt
      ∧ ¬ (0 ≤ kt.Hour ∧ kt.Hour ≤ 23 ∧ 0 ≤ kt.Minute ∧ kt.Minute ≤ 59) :=
  ⟨⟨25, 99⟩, by decide, by decide⟩

/-- C7, amended: for every text that `NewKitchenTime` accepts, the hour and the
minute of the result are in the range of a 64-bit `int`, from -2^63 to 2^63-1;
no narrower range is checked. -/
theorem NewKitchenTime_fields_in_int_range (text : String) (kt : KitchenTime)
    (hok : NewKitchenTime text = .ok kt) :
    (-(2 : Int) ^ 63 ≤ kt.Hour ∧ kt.Hour < (2 : Int) ^ 63)
    ∧ (-(2 : Int) ^ 63 ≤ kt.Minute ∧ kt.Minute < (2 : Int) ^ 63) := by
  obtain ⟨_, h0, h1⟩ := (NewKitchenTime_eq_ok_iff text kt).1 hok
  obtain ⟨_, _, _, _, hlo0, hhi0⟩ := (Atoi_eq_some_iff _ _).1 h0
  obtain ⟨_, _, _, _, hlo1, hhi1⟩ := (Atoi_eq_some_iff _ _).1 h1
  exact ⟨⟨hlo0, hhi0⟩, ⟨hlo1, hhi1⟩⟩

theorem NewKitchenTime_fields_in_int_range_witness :
    NewKitchenTime "25:99" = .ok ⟨25, 99⟩
    ∧ (-(2 : Int) ^ 63 ≤ (⟨25, 99⟩ : KitchenTime).Hour
        ∧ (⟨25, 99⟩ : KitchenTime).Hour < (2 : Int) ^ 63)
    ∧ (-(2 : Int) ^ 63 ≤ (⟨25, 99⟩ : KitchenTime).Minute
        ∧ (⟨25, 99⟩ : KitchenTime).Minute < (2 : Int) ^ 63) :=
  ⟨by decide, NewKitchenTime_fields_in_int_range "25:99" ⟨25, 99⟩ (by decide)⟩

/-- C8: `NewKitchenTime` returns an error exactly when splitting the text on ':'
does not give two fields or one of the two fields is not a decimal integer that
`Atoi` parses; when it succeeds the hour is the value of the first field and the
minute the value of the second; "8:00" and "0:0" are accepted. -/
theorem NewKitchenTime_error_iff (text : String) :
    ((∃ err, NewKitchenTime text = .error err)
      ↔ (Split ':' text.toList).length ≠ 2
        ∨ (¬ ∃ n, DenotesInt ((Split ':' text.toList).getD 0 []) n)
        ∨ (¬ ∃ n, DenotesInt ((Split ':' text.toList).getD 1 []) n))
    ∧ (∀ kt, NewKitchenTime text = .ok kt →
        DenotesInt ((Split ':' text.toList).getD 0 []) kt.Hour
        ∧ DenotesInt ((Split ':' text.toList).getD 1 []) kt.Minute)
    ∧ NewKitchenTime "8:00" = .ok ⟨8, 0⟩
    ∧ NewKitchenTime "0:0" = .ok ⟨0, 0⟩ := by
  refine ⟨⟨?_, ?_⟩, ?_, by decide, by decide⟩
  · rintro ⟨err, herr⟩
    by_contra hcon
    push_neg at hcon
    obtain ⟨hlen, ⟨h, hh⟩, ⟨m, hm⟩⟩ := hcon
    have hok : NewKitchenTime text = .ok ⟨h, m⟩ :=
      (NewKitchenTime_eq_ok_iff text ⟨h, m⟩).2
        ⟨hlen, (Atoi_eq_some_iff _ _).2 hh, (Atoi_eq_some_iff _ _).2 hm⟩
    rw [hok] at herr
    cases herr
  · intro hbad
    refine ⟨errFormat text, NewKitchenTime_error_of_not_ok text ?_⟩
    intro kt hok
    obtain ⟨hlen, h0, h1⟩ := (NewKitchenTime_eq_ok_iff text kt).1 hok
    rcases hbad with hbad | hbad | hbad
    · exact hbad hlen
    · exact hbad ⟨kt.Hour, (Atoi_eq_some_iff _ _).1 h0⟩
    · exact hbad ⟨kt.Minute, (Atoi_eq_some_iff _ _).1 h1⟩
  · intro kt hok
    obtain ⟨_, h0, h1⟩ := (NewKitchenTime_eq_ok_iff text kt).1 hok
    exact ⟨(Atoi_eq_some_iff _ _).1 h0, (Atoi_eq_some_iff _ _).1 h1⟩

/-! ## Schedules: lookup and construction -/

/-- C9: on a list of schedules, `Find` returns nil exactly when no schedule of the
list has the name, and otherwise the first schedule in list order whose name is
the one asked for; it is total. -/
theorem Find_first_with_name (s : Schedules) (name : String) :
    (Schedules.Find s name = none ↔ ∀ sch ∈ s, sch.Name ≠ name)
    ∧ (∀ sch, Schedules.Find s name = some sch →
        sch.Name = name
        ∧ ∃ before after, s = before ++ sch :: after ∧ ∀ x ∈ before, x.Name ≠ name)
    ∧ ((∃ sch ∈ s, sch.Name = name) → ∃ sch, Schedules.Find s name = some sch) := by
  induction s with
  | nil => simp [Schedules.Find]
  | cons a rest ih =>
    obtain ⟨ih1, ih2, ih3⟩ := ih
    by_cases ha : a.Name = name
    · refine ⟨?_, ?_, ?_⟩
      · simp [Schedules.Find, ha]
      · intro sch hs
        simp only [Schedules.Find, ha, if_true, Option.some.injEq] at hs
        subst hs
        exact ⟨ha, [], rest, rfl, by simp⟩
      · intro _
        exact ⟨a, by simp [Schedules.Find, ha]⟩
    · have hstep : Schedules.Find (a :: rest) name = Schedules.Find rest name := by
        simp [Schedules.Find, ha]
      refine ⟨?_, ?_, ?_⟩
      · rw [hstep, ih1]
        simp [ha]
      · intro sch hs
        rw [hstep] at hs
        obtain ⟨hn, before, after, hsplit, hbefore⟩ := ih2 sch hs
        refine ⟨hn, a :: before, after, by rw [hsplit]; rfl, ?_⟩
        intro x hx
        rcases List.mem_cons.1 hx with hx | hx
        · rw [hx]; exact ha
        · exact hbefore x hx
      · rintro ⟨sch, hmem, hn⟩
        rw [hstep]
        rcases List.mem_cons.1 hmem with hmem | hmem
        · rw [hmem] at hn; exact absurd hn ha
        · exact ih3 ⟨sch, hmem, hn⟩

theorem zip_map_fst_map_snd {α β : Type} (l : List (α × β)) :
    List.zip (l.map Prod.fst) (l.map Prod.snd) = l := by
  induction l with
  | nil => rfl
  | cons x xs ih => simp [ih]

theorem addPeriods_eq (LoadLocation : String → Except String Location) :
    ∀ (calls : List (String × Period)) (s : Schedule),
      (addPeriods LoadLocation s calls).Name = s.Name
      ∧ (addPeriods LoadLocation s calls).Locations
          = s.Locations ++ (loadedRules LoadLocation calls).map Prod.fst
      ∧ (addPeriods LoadLocation s calls).Periods
          = s.Periods ++ (loadedRules LoadLocation calls).map Prod.snd := by
  intro calls
  induction calls with
  | nil => intro s; simp [addPeriods, loadedRules]
  | cons call calls ih =>
    intro s
    obtain ⟨timezone, period⟩ := call
    unfold addPeriods loadedRules
    cases hload : LoadLocation timezone with
    | error err =>
      have hs : (s.AddPeriod LoadLocation timezone period).1 = s := by
        simp [Schedule.AddPeriod, hload]
      rw [hs]
      exact ih s
    | ok loc =>
      have hs : (s.AddPeriod LoadLocation timezone period).1
          = { s with Locations := s.Locations ++ [loc], Periods := s.Periods ++ [period] } := by
        simp [Schedule.AddPeriod, hload]
      rw [hs]
      obtain ⟨h1, h2, h3⟩ := ih ⟨s.Name, s.Locations ++ [loc], s.Periods ++ [period]⟩
      refine ⟨h1, ?_, ?_⟩
      · rw [h2]; simp
      · rw [h3]; simp

/-- C10: a schedule obtained from `NewSchedule` by any sequence of `AddPeriod`
calls has as many locations as periods, the i-th location being the one loaded
for the timezone given with the i-th period; an `AddPeriod` whose timezone loads
returns no error and appends one entry to each list, and one whose timezone does
not load returns the error and leaves the schedule as it was. -/
theorem AddPeriod_keeps_lists_parallel (LoadLocation : String → Except String Location)
    (name : String) (calls : List (String × Period)) :
    ((addPeriods LoadLocation (NewSchedule name) calls).Locations.length
        = (addPeriods LoadLocation (NewSchedule name) calls).Periods.length
      ∧ List.zip (addPeriods LoadLocation (NewSchedule name) calls).Locations
          (addPeriods LoadLocation (NewSchedule name) calls).Periods
          = loadedRules LoadLocation calls)
    ∧ (∀ (s : Schedule) (timezone : String) (period : Period) (loc : Location),
        LoadLocation timezone = .ok loc →
          (s.AddPeriod LoadLocation timezone period).2 = none
          ∧ (s.AddPeriod LoadLocation timezone period).1.Locations = s.Locations ++ [loc]
          ∧ (s.AddPeriod LoadLocation timezone period).1.Periods = s.Periods ++ [period]
          ∧ (s.AddPeriod LoadLocation timezone period).1.Name = s.Name)
    ∧ (∀ (s : Schedule) (timezone : String) (period : Period) (err : String),
        LoadLocation timezone = .error err →
          s.AddPeriod LoadLocation timezone period = (s, some err)) := by
  refine ⟨?_, ?_, ?_⟩
  · obtain ⟨_, h2, h3⟩ := addPeriods_eq LoadLocation calls (NewSchedule name)
    rw [h2, h3]
    simp only [NewSchedule, List.nil_append, List.length_map, true_and]
    exact zip_map_fst_map_snd _
  · intro s timezone period loc hload
    simp [Schedule.AddPeriod, hload]
  · intro s timezone period err hload
    simp [Schedule.AddPeriod, hload]

/-! ## Rendering and parsing back -/

theorem toNat_ofNat_digit (d : Nat) (hd : d < 10) : (Char.ofNat (48 + d)).toNat = 48 + d := by
  interval_cases d <;> rfl

theorem isDecimalDigit_ofNat_digit (d : Nat) (hd : d < 10) :
    isDecimalDigit (Char.ofNat (48 + d)) := by
  unfold isDecimalDigit
  rw [toNat_ofNat_digit d hd]
  omega

theorem foldl_digits_append (ds acc : List Char) (n : Nat) :
    (ds ++ acc).foldl (fun n c => n * 10 + (c.toNat - 48)) n
      = acc.foldl (fun n c => n * 10 + (c.toNat - 48))
          (ds.foldl (fun n c => n * 10 + (c.toNat - 48)) n) :=
  List.foldl_append _ _ _ _

theorem fmtDigitsLoop_spec :
    ∀ (fuel u : Nat) (acc : List Char), u < fuel →
      ∃ ds : List Char, fmtDigitsLoop fuel u acc = ds ++ acc ∧ ds ≠ []
        ∧ (∀ c ∈ ds, isDecimalDigit c) ∧ decimalValue ds = u := by
  intro fuel
  induction fuel with
  | zero => intro u acc h; omega
  | succ fuel ih =>
    intro u acc hfuel
    unfold fmtDigitsLoop
    by_cases hu : 10 ≤ u
    · rw [if_pos hu]
      obtain ⟨ds, hds, _, hall, hval⟩ :=
        ih (u / 10) (Char.ofNat (48 + u % 10) :: acc) (by omega)
      refine ⟨ds ++ [Char.ofNat (48 + u % 10)], ?_, by simp, ?_, ?_⟩
      · rw [hds]; simp
      · intro c hc
        rcases List.mem_append.1 hc with hc | hc
        · exact hall c hc
        · rw [List.mem_singleton.1 hc]
          exact isDecimalDigit_ofNat_digit _ (Nat.mod_lt _ (by decide))
      · unfold decimalValue at hval ⊢
        rw [foldl_digits_append, hval]
        simp only [List.foldl_cons, List.foldl_nil]
        rw [toNat_ofNat_digit _ (Nat.mod_lt _ (by decide))]
        omega
    · rw [if_neg hu]
      refine ⟨[Char.ofNat (48 + u)], rfl, by simp, ?_, ?_⟩
      · intro c hc
        rw [List.mem_singleton.1 hc]
        exact isDecimalDigit_ofNat_digit _ (by omega)
      · unfold decimalValue
        simp only [List.foldl_cons, List.foldl_nil]
        rw [toNat_ofNat_digit _ (by omega)]
        omega

theorem fmtNat_spec (u : Nat) :
    fmtNat u ≠ [] ∧ (∀ c ∈ fmtNat u, isDecimalDigit c) ∧ decimalValue (fmtNat u) = u := by
  obtain ⟨ds, hds, hne, hall, hval⟩ := fmtDigitsLoop_spec (u + 1) u [] (by omega)
  unfold fmtNat
  rw [hds, List.append_nil]
  exact ⟨hne, hall, hval⟩

theorem decimalValue_zero_cons (ds : List Char) :
    decimalValue ('0' :: ds) = decimalValue ds := by
  unfold decimalValue
  rfl

theorem isDecimalDigit_zero : isDecimalDigit '0' := by
  unfold isDecimalDigit; decide

theorem Atoi_fmtD (n : Int) (hlo : -(2 : Int) ^ 63 ≤ n) (hhi : n < (2 : Int) ^ 63) :
    Atoi (fmtD n) = some n := by
  rw [Atoi_eq_some_iff]
  unfold fmtD
  by_cases hneg : n < 0
  · rw [if_pos hneg]
    obtain ⟨hne, hall, hval⟩ := fmtNat_spec (-n).toNat
    refine ⟨fmtNat (-n).toNat, hne, hall, Or.inr ⟨rfl, ?_⟩, hlo, hhi⟩
    rw [hval]
    omega
  · rw [if_neg hneg]
    obtain ⟨hne, hall, hval⟩ := fmtNat_spec n.toNat
    refine ⟨fmtNat n.toNat, hne, hall, Or.inl ⟨Or.inl rfl, ?_⟩, hlo, hhi⟩
    rw [hval]
    omega

theorem Atoi_fmtD02 (n : Int) (hlo : -(2 : Int) ^ 63 ≤ n) (hhi : n < (2 : Int) ^ 63) :
    Atoi (fmtD02 n) = some n := by
  rw [Atoi_eq_some_iff]
  unfold fmtD02
  by_cases hneg : n < 0
  · rw [if_pos hneg]
    obtain ⟨hne, hall, hval⟩ := fmtNat_spec (-n).toNat
    refine ⟨fmtNat (-n).toNat, hne, hall, Or.inr ⟨rfl, ?_⟩, hlo, hhi⟩
    rw [hval]
    omega
  · rw [if_neg hneg]
    obtain ⟨hne, hall, hval⟩ := fmtNat_spec n.toNat
    by_cases hshort : (fmtNat n.toNat).length < 2
    · rw [if_pos hshort]
      refine ⟨'0' :: fmtNat n.toNat, List.cons_ne_nil _ _, ?_, Or.inl ⟨Or.inl rfl, ?_⟩, hlo, hhi⟩
      · intro c hc
        rcases List.mem_cons.1 hc with hc | hc
        · rw [hc]; exact isDecimalDigit_zero
        · exact hall c hc
      · rw [decimalValue_zero_cons, hval]
        omega
    · rw [if_neg hshort]
      refine ⟨fmtNat n.toNat, hne, hall, Or.inl ⟨Or.inl rfl, ?_⟩, hlo, hhi⟩
      rw [hval]
      omega

theorem not_isDecimalDigit_colon : ¬ isDecimalDigit ':' := by
  unfold isDecimalDigit; decide

theorem colon_not_mem_fmtD02 (n : Int) : ':' ∉ fmtD02 n := by
  have hdig : ∀ u, ':' ∉ fmtNat u := fun u h =>
    not_isDecimalDigit_colon ((fmtNat_spec u).2.1 ':' h)
  unfold fmtD02
  split_ifs
  · intro h
    rcases List.mem_cons.1 h with h | h
    · exact absurd h (by decide)
    · exact hdig _ h
  · intro h
    rcases List.mem_cons.1 h with h | h
    · exact absurd h (by decide)
    · exact hdig _ h
  · exact hdig _

theorem Split_of_not_mem (sep : Char) (s : List Char) (h : sep ∉ s) : Split sep s = [s] := by
  induction s with
  | nil => rfl
  | cons c cs ih =>
    have hc : ¬ c = sep := fun e => h (by rw [e]; exact List.mem_cons_self _ _)
    have hcs : sep ∉ cs := fun e => h (List.mem_cons_of_mem _ e)
    unfold Split
    rw [if_neg hc, ih hcs]

theorem Split_append_sep (sep : Char) (a b : List Char) (h : sep ∉ a) :
    Split sep (a ++ sep :: b) = a :: Split sep b := by
  induction a with
  | nil =>
    show Split sep (sep :: b) = [] :: Split sep b
    rw [Split, if_pos rfl]
  | cons c cs ih =>
    have hc : ¬ c = sep := fun e => h (by rw [e]; exact List.mem_cons_self _ _)
    have hcs : sep ∉ cs := fun e => h (List.mem_cons_of_mem _ e)
    show Split sep (c :: (cs ++ sep :: b)) = (c :: cs) :: Split sep b
    rw [Split, if_neg hc, ih hcs]

theorem NewKitchenTime_String (k : KitchenTime)
    (hh : -(2 : Int) ^ 63 ≤ k.Hour ∧ k.Hour < (2 : Int) ^ 63)
    (hm : -(2 : Int) ^ 63 ≤ k.Minute ∧ k.Minute < (2 : Int) ^ 63) :
    NewKitchenTime k.String = .ok k := by
  rw [NewKitchenTime_eq_ok_iff]
  have hsplit : Split ':' (KitchenTime.String k).toList = [fmtD02 k.Hour, fmtD02 k.Minute] := by
    show Split ':' (fmtD02 k.Hour ++ ':' :: fmtD02 k.Minute) = _
    rw [Split_append_sep _ _ _ (colon_not_mem_fmtD02 _),
      Split_of_not_mem _ _ (colon_not_mem_fmtD02 _)]
  rw [hsplit]
  exact ⟨rfl, Atoi_fmtD02 _ hh.1 hh.2, Atoi_fmtD02 _ hm.1 hm.2⟩

/-! ## Periods through JSON -/

theorem appendDaysNamed_eq_filter (sday : String) (days weekdays : List Weekday) :
    appendDaysNamed sday days weekdays
      = weekdays ++ days.filter (fun day => decide (Weekday.String day = sday)) := by
  induction days generalizing weekdays with
  | nil => simp [appendDaysNamed]
  | cons day days ih =>
    unfold appendDaysNamed
    by_cases h : Weekday.String day = sday
    · rw [if_pos h, ih]
      simp [List.filter_cons, h]
    · rw [if_neg h, ih]
      simp [List.filter_cons, h]

theorem AllWeekdays_filter_named (d : Weekday) (hlo : 0 ≤ d) (hhi : d ≤ 6) :
    AllWeekdays.filter (fun day => decide (Weekday.String day = Weekday.String d)) = [d] := by
  interval_cases d <;> decide

theorem weekdaysNamed_map_String (days : List Weekday) (hdays : ∀ d ∈ days, 0 ≤ d ∧ d ≤ 6) :
    ∀ weekdays : List Weekday,
      weekdaysNamed (days.map Weekday.String) weekdays = weekdays ++ days := by
  induction days with
  | nil => intro weekdays; simp [weekdaysNamed]
  | cons d days ih =>
    intro weekdays
    have hd := hdays d (List.mem_cons_self _ _)
    simp only [List.map_cons, weekdaysNamed]
    rw [appendDaysNamed_eq_filter, AllWeekdays_filter_named d hd.1 hd.2,
      ih (fun x hx => hdays x (List.mem_cons_of_mem _ hx))]
    simp

theorem decodeStringItems_map_str (l : List String) :
    ∀ backing : List String, decodeStringItems (l.map JSON.str) backing = .ok l := by
  induction l with
  | nil => intro backing; rfl
  | cons s l ih =>
    intro backing
    simp [decodeStringItems, decodeString, ih]

theorem decodeStringList_encodeStringList (l : List String) (cur : StringSlice) :
    ∃ spare, decodeStringList cur (encodeStringList l) = .ok ⟨l, spare⟩ := by
  unfold encodeStringList
  cases l with
  | nil => exact ⟨[], rfl⟩
  | cons s l =>
    rw [if_neg (List.cons_ne_nil s l)]
    refine ⟨(cur.elems ++ cur.spare).drop (s :: l).length, ?_⟩
    have h := decodeStringItems_map_str (s :: l) (cur.elems ++ cur.spare)
    simp only [List.map_cons] at h
    simp only [List.map_cons, decodeStringList, h]

theorem matchesField_self_facts :
    matchesField "StartTime" "StartTime" = true
    ∧ matchesField "StopTime" "StartTime" = false
    ∧ matchesField "StopTime" "StopTime" = true
    ∧ matchesField "Weekdays" "StartTime" = false
    ∧ matchesField "Weekdays" "StopTime" = false
    ∧ matchesField "Weekdays" "Weekdays" = true
    ∧ matchesField "Name" "Name" = true
    ∧ matchesField "Locations" "Name" = false
    ∧ matchesField "Locations" "Periods" = false
    ∧ matchesField "Periods" "Name" = false
    ∧ matchesField "Periods" "Periods" = true := by
  decide

theorem PeriodAlias_decode_encode (a : PeriodAlias) :
    PeriodAlias.decode (PeriodAlias.encode a) = .ok a := by
  obtain ⟨m1, m2, m3, m4, m5, m6, _⟩ := matchesField_self_facts
  obtain ⟨spare, hw⟩ := decodeStringList_encodeStringList a.Weekdays ⟨[], []⟩
  unfold PeriodAlias.encode PeriodAlias.decode
  simp only [decodeAliasMembers, m1, m2, m3, m4, m5, m6, decodeString, hw, if_true,
    Bool.false_eq_true, if_false]

/-- The decoder of the anonymous struct on four documents: keys in another letter
case are taken; a member that cannot be decoded is an error even when a later
member for the same field can; an element `null` leaves what the slice held at its
index; and the value `null` makes the slice nil. -/
theorem PeriodAlias_decode_examples :
    PeriodAlias.decode (.obj [("starttime", .str "8:00"), ("STOPTIME", .str "9:00"),
        ("weekdays", .arr [.str "Monday"])]) = .ok ⟨"8:00", "9:00", ["Monday"]⟩
    ∧ PeriodAlias.decode (.obj [("StartTime", .number "8"), ("StartTime", .str "8:00")])
        = .error "json: cannot unmarshal into Go value of type string"
    ∧ PeriodAlias.decode (.obj [("Weekdays", .arr [.str "Monday", .str "Friday"]),
        ("weekdays", .arr [.null])]) = .ok ⟨"", "", ["Monday"]⟩
    ∧ PeriodAlias.decode (.obj [("Weekdays", .arr [.str "Monday"]), ("Weekdays", .null)])
        = .ok ⟨"", "", []⟩ := by
  decide

theorem Period_UnmarshalJSON_MarshalJSON (p : Period)
    (hsh : -(2 : Int) ^ 63 ≤ p.StartTime.Hour ∧ p.StartTime.Hour < (2 : Int) ^ 63)
    (hsm : -(2 : Int) ^ 63 ≤ p.StartTime.Minute ∧ p.StartTime.Minute < (2 : Int) ^ 63)
    (heh : -(2 : Int) ^ 63 ≤ p.StopTime.Hour ∧ p.StopTime.Hour < (2 : Int) ^ 63)
    (hem : -(2 : Int) ^ 63 ≤ p.StopTime.Minute ∧ p.StopTime.Minute < (2 : Int) ^ 63)
    (hdays : ∀ d ∈ p.Weekdays, 0 ≤ d ∧ d ≤ 6) :
    Period.UnmarshalJSON p.MarshalJSON = .ok p := by
  unfold Period.UnmarshalJSON Period.MarshalJSON
  rw [PeriodAlias_decode_encode]
  simp only [NewKitchenTime_String _ hsh hsm, NewKitchenTime_String _ heh hem,
    weekdaysNamed_map_String _ hdays, List.nil_append]

theorem fmtD02_two_digits_nat (u : Nat) (hu : u < 60) :
    fmtD02 (u : Int) = [Char.ofNat (48 + u / 10), Char.ofNat (48 + u % 10)] := by
  interval_cases u <;> rfl

theorem fmtD02_two_digits (n : Int) (hlo : 0 ≤ n) (hhi : n ≤ 59) :
    fmtD02 n = [Char.ofNat (48 + n.toNat / 10), Char.ofNat (48 + n.toNat % 10)] := by
  have h := fmtD02_two_digits_nat n.toNat (by omega)
  rwa [Int.toNat_of_nonneg hlo] at h

/-- C11: for a period whose start and stop have hours in 0..23 and minutes in
0..59 and whose weekdays are all valid (Sunday..Saturday), unmarshalling what
`MarshalJSON` produces gives the period back: the same start, the same stop and the
same weekdays in the same order. The times are written as two digits, a colon and
two digits, so that the time parsed from "8:00" is written "08:00". -/
theorem Period_JSON_roundtrip (p : Period)
    (hstart : (0 ≤ p.StartTime.Hour ∧ p.StartTime.Hour ≤ 23)
      ∧ (0 ≤ p.StartTime.Minute ∧ p.StartTime.Minute ≤ 59))
    (hstop : (0 ≤ p.StopTime.Hour ∧ p.StopTime.Hour ≤ 23)
      ∧ (0 ≤ p.StopTime.Minute ∧ p.StopTime.Minute ≤ 59))
    (hdays : ∀ d ∈ p.Weekdays, Sunday ≤ d ∧ d ≤ Saturday) :
    Period.UnmarshalJSON p.MarshalJSON = .ok p
    ∧ p.MarshalJSON = .obj [("StartTime", .str p.StartTime.String),
        ("StopTime", .str p.StopTime.String),
        ("Weekdays", encodeStringList (p.Weekdays.map Weekday.String))]
    ∧ p.StartTime.String.toList
        = [Char.ofNat (48 + p.StartTime.Hour.toNat / 10),
            Char.ofNat (48 + p.StartTime.Hour.toNat % 10), ':',
            Char.ofNat (48 + p.StartTime.Minute.toNat / 10),
            Char.ofNat (48 + p.StartTime.Minute.toNat % 10)]
    ∧ p.StopTime.String.toList
        = [Char.ofNat (48 + p.StopTime.Hour.toNat / 10),
            Char.ofNat (48 + p.StopTime.Hour.toNat % 10), ':',
            Char.ofNat (48 + p.StopTime.Minute.toNat / 10),
            Char.ofNat (48 + p.StopTime.Minute.toNat % 10)]
    ∧ (∀ k, NewKitchenTime "8:00" = .ok k → k.String = "08:00") := by
  obtain ⟨⟨h1, h2⟩, ⟨h3, h4⟩⟩ := hstart
  obtain ⟨⟨h5, h6⟩, ⟨h7, h8⟩⟩ := hstop
  refine ⟨?_, rfl, ?_, ?_, ?_⟩
  · apply Period_UnmarshalJSON_MarshalJSON
    · constructor <;> norm_num <;> omega
    · constructor <;> norm_num <;> omega
    · constructor <;> norm_num <;> omega
    · constructor <;> norm_num <;> omega
    · exact hdays
  · show fmtD02 p.StartTime.Hour ++ ':' :: fmtD02 p.StartTime.Minute = _
    rw [fmtD02_two_digits _ h1 (by omega), fmtD02_two_digits _ h3 h4]
    rfl
  · show fmtD02 p.StopTime.Hour ++ ':' :: fmtD02 p.StopTime.Minute = _
    rw [fmtD02_two_digits _ h5 (by omega), fmtD02_two_digits _ h7 h8]
    rfl
  · intro k hk
    have h8 : NewKitchenTime "8:00" = .ok ⟨8, 0⟩ := by decide
    rw [h8] at hk
    cases hk
    decide

theorem Period_JSON_roundtrip_witness :
    ((0 ≤ (⟨⟨8, 0⟩, ⟨9, 0⟩, [Monday, Saturday]⟩ : Period).StartTime.Hour
        ∧ (⟨⟨8, 0⟩, ⟨9, 0⟩, [Monday, Saturday]⟩ : Period).StartTime.Hour ≤ 23)
      ∧ (0 ≤ (⟨⟨8, 0⟩, ⟨9, 0⟩, [Monday, Saturday]⟩ : Period).StartTime.Minute
        ∧ (⟨⟨8, 0⟩, ⟨9, 0⟩, [Monday, Saturday]⟩ : Period).StartTime.Minute ≤ 59))
    ∧ Period.UnmarshalJSON (Period.MarshalJSON ⟨⟨8, 0⟩, ⟨9, 0⟩, [Monday, Saturday]⟩)
        = .ok ⟨⟨8, 0⟩, ⟨9, 0⟩, [Monday, Saturday]⟩
    ∧ (KitchenTime.String ⟨8, 0⟩ = "08:00" ∧ KitchenTime.String ⟨9, 0⟩ = "09:00"
      ∧ Weekday.String Monday = "Monday" ∧ Weekday.String Saturday = "Saturday") :=
  ⟨by decide,
    (Period_JSON_roundtrip ⟨⟨8, 0⟩, ⟨9, 0⟩, [Monday, Saturday]⟩
      (by decide) (by decide) (by decide)).1,
    by decide⟩

/-! ## Schedules through JSON -/

theorem decodedActionLoop_map_some (locations : List Location) (t : Time) (isRunning : Bool)
    (periods : List Period) :
    ∀ i : Nat, decodedActionLoop locations t isRunning i (periods.map some)
      = actionLoop locations t isRunning i periods := by
  induction periods with
  | nil => intro i; rfl
  | cons rule rest ih =>
    intro i
    simp only [List.map_cons, decodedActionLoop, actionLoop]
    cases locations[i]? with
    | none => rfl
    | some loc => simp only [ih]

/-- On a schedule without nil periods the two models of `Schedule.Action` agree. -/
theorem decoded_Action (s : Schedule) (t : Time) (isRunning : Bool) :
    s.decoded.Action t isRunning = s.Action t isRunning :=
  decodedActionLoop_map_some s.Locations t isRunning s.Periods 0

/-- Two schedules without nil periods that agree as decoded schedules are equal. -/
theorem decoded_injective (s1 s2 : Schedule) (h : s1.decoded = s2.decoded) : s1 = s2 := by
  cases s1 with
  | mk n1 l1 p1 =>
    cases s2 with
    | mk n2 l2 p2 =>
      simp only [Schedule.decoded, DecodedSchedule.mk.injEq] at h
      obtain ⟨hn, hl, hp⟩ := h
      have hp2 : p1 = p2 := List.map_injective_iff.mpr (Option.some_injective _) hp
      rw [hn, hl, hp2]

/-- C12 as stated fails: the schedule "Odd", built by `NewSchedule` and one
successful `AddPeriod` with a period from `NewPeriod` that names weekday number 9
(written as "%!Weekday(9)", a name that `UnmarshalJSON` passes over), is unmarshalled
without error into a schedule whose period has no weekdays left; on Monday 12:00
the original answers Noop to a stopped resource and the copy answers Start. -/
theorem Schedule_JSON_roundtrip_drops_unknown_weekday :
    NewPeriod "0:00" "23:59" [9] = .ok ⟨⟨0, 0⟩, ⟨23, 59⟩, [9]⟩
    ∧ ((NewSchedule "Odd").AddPeriod twoZones "UTC" ⟨⟨0, 0⟩, ⟨23, 59⟩, [9]⟩).2 = none
    ∧ ((NewSchedule "Odd").AddPeriod twoZones "UTC" ⟨⟨0, 0⟩, ⟨23, 59⟩, [9]⟩).1
        = oddWeekdaySchedule
    ∧ (Schedule.UnmarshalJSON twoZones ⟨"", [], []⟩ oddWeekdaySchedule.MarshalJSON).2 = none
    ∧ oddWeekdaySchedule.Periods = [⟨⟨0, 0⟩, ⟨23, 59⟩, [9]⟩]
    ∧ (Schedule.UnmarshalJSON twoZones ⟨"", [], []⟩ oddWeekdaySchedule.MarshalJSON).1.Periods
        = [some ⟨⟨0, 0⟩, ⟨23, 59⟩, []⟩]
    ∧ oddWeekdaySchedule.Action (newWeekday Monday 12 0) false = some NoopAction
    ∧ (Schedule.UnmarshalJSON twoZones ⟨"", [], []⟩ oddWeekdaySchedule.MarshalJSON).1.Action
        (newWeekday Monday 12 0) false = some StartAction := by
  refine ⟨by decide, by decide, rfl, by decide, by decide, by decide, by decide, by decide⟩

theorem Period_MarshalJSON_ne_null (p : Period) : p.MarshalJSON ≠ .null := by
  intro h
  cases h

theorem decodePeriodItems_map_MarshalJSON (ps : List Period)
    (hps : ∀ p ∈ ps, p.representable) :
    decodePeriodItems (ps.map Period.MarshalJSON) = .ok (ps.map some) := by
  induction ps with
  | nil => rfl
  | cons p ps ih =>
    obtain ⟨h1, h2, h3, h4, h5⟩ := hps p (List.mem_cons_self _ _)
    have hp : Period.UnmarshalJSON p.MarshalJSON = .ok p :=
      Period_UnmarshalJSON_MarshalJSON p h1 h2 h3 h4 h5
    have hrest := ih (fun x hx => hps x (List.mem_cons_of_mem _ hx))
    simp only [List.map_cons]
    show decodePeriodItems (PeriodAlias.encode _ :: _) = _
    unfold PeriodAlias.encode
    unfold decodePeriodItems
    have hp2 : Period.UnmarshalJSON
        (JSON.obj [("StartTime", JSON.str p.StartTime.String),
          ("StopTime", JSON.str p.StopTime.String),
          ("Weekdays", encodeStringList (p.Weekdays.map Weekday.String))]) = .ok p := hp
    simp only [hp2, hrest]

theorem decodePeriods_encodePeriods (ps : List Period) (hps : ∀ p ∈ ps, p.representable) :
    decodePeriods (encodePeriods ps) = .ok (ps.map some) := by
  cases ps with
  | nil => rfl
  | cons p ps => exact decodePeriodItems_map_MarshalJSON (p :: ps) hps

theorem itemsInRange_map_str (l : List String) : itemsInRange (l.map JSON.str) = true := by
  induction l with
  | nil => rfl
  | cons s l ih => simp [itemsInRange, JSON.floatsInRange, ih]

theorem encodeStringList_floatsInRange (l : List String) :
    (encodeStringList l).floatsInRange = true := by
  unfold encodeStringList
  split_ifs
  · rfl
  · simp [JSON.floatsInRange, itemsInRange_map_str]

theorem Period_MarshalJSON_floatsInRange (p : Period) : p.MarshalJSON.floatsInRange = true := by
  unfold Period.MarshalJSON PeriodAlias.encode
  simp [JSON.floatsInRange, membersInRange, encodeStringList_floatsInRange]

theorem itemsInRange_map_MarshalJSON (ps : List Period) :
    itemsInRange (ps.map Period.MarshalJSON) = true := by
  induction ps with
  | nil => rfl
  | cons p ps ih => simp [itemsInRange, Period_MarshalJSON_floatsInRange, ih]

/-- A document that `Schedule.MarshalJSON` writes holds no number, so that decoding
it into a map cannot fail. -/
theorem Schedule_MarshalJSON_floatsInRange (s : Schedule) :
    s.MarshalJSON.floatsInRange = true := by
  have hp : (encodePeriods s.Periods).floatsInRange = true := by
    cases hps : s.Periods with
    | nil => rfl
    | cons p ps =>
      have h := itemsInRange_map_MarshalJSON (p :: ps)
      simpa [encodePeriods, JSON.floatsInRange] using h
  unfold Schedule.MarshalJSON
  simp [JSON.floatsInRange, membersInRange, encodeStringList_floatsInRange, hp]

theorem loadLocationsLoop_map_names (LoadLocation : String → Except String Location)
    (locs : List Location) (hlocs : ∀ loc ∈ locs, LoadLocation loc.name = .ok loc) :
    ∀ acc : List Location,
      loadLocationsLoop LoadLocation ((locs.map Location.String).map JSON.str) acc
        = (acc ++ locs, none) := by
  induction locs with
  | nil => intro acc; simp [loadLocationsLoop]
  | cons loc locs ih =>
    intro acc
    have hl : LoadLocation loc.name = .ok loc := hlocs loc (List.mem_cons_self _ _)
    simp only [List.map_cons, loadLocationsLoop, Location.String, hl]
    have hrest := ih (fun x hx => hlocs x (List.mem_cons_of_mem _ hx)) (acc ++ [loc])
    simp only [Location.String] at hrest
    rw [hrest]
    simp

theorem Schedule_UnmarshalJSON_MarshalJSON (LoadLocation : String → Except String Location)
    (s : Schedule) (hlocs : ∀ loc ∈ s.Locations, LoadLocation loc.name = .ok loc)
    (hps : ∀ p ∈ s.Periods, p.representable) :
    Schedule.UnmarshalJSON LoadLocation ⟨"", [], []⟩ s.MarshalJSON = (s.decoded, none) := by
  obtain ⟨_, _, _, _, _, _, m1, m2, m3, m4, m5⟩ := matchesField_self_facts
  have h3 : JSON.lookup "Locations"
      [("Name", JSON.str s.Name),
        ("Locations", encodeStringList (s.Locations.map Location.String)),
        ("Periods", encodePeriods s.Periods)]
        = some (encodeStringList (s.Locations.map Location.String)) := by
    simp [JSON.lookup]
  have htmp : decodeScheduleTmp s.MarshalJSON = .ok (s.Name, s.Periods.map some) := by
    unfold Schedule.MarshalJSON decodeScheduleTmp
    simp only [decodeTmpMembers, m1, m2, m3, m4, m5, decodeString,
      decodePeriods_encodePeriods s.Periods hps, if_true, Bool.false_eq_true, if_false]
  have hfloat : ¬ s.MarshalJSON.floatsInRange = false := by
    rw [Schedule_MarshalJSON_floatsInRange]
    exact fun h => Bool.noConfusion h
  unfold Schedule.UnmarshalJSON
  rw [htmp]
  simp only [if_neg hfloat]
  unfold Schedule.MarshalJSON
  simp only [h3]
  cases hL : s.Locations with
  | nil =>
    unfold Schedule.decoded
    rw [hL]
    rfl
  | cons loc locs =>
    have hne : List.map Location.String (loc :: locs) ≠ [] := by simp
    unfold encodeStringList
    rw [if_neg hne]
    have hloop := loadLocationsLoop_map_names LoadLocation (loc :: locs)
      (by rw [← hL]; exact hlocs) []
    simp only [hloop, List.nil_append]
    unfold Schedule.decoded
    rw [hL]

theorem loadedRules_loaded (LoadLocation : String → Except String Location)
    (calls : List (String × Period)) :
    ∀ rule ∈ loadedRules LoadLocation calls, ∃ tz, LoadLocation tz = .ok rule.1 := by
  induction calls with
  | nil => intro rule h; simp [loadedRules] at h
  | cons call calls ih =>
    obtain ⟨timezone, period⟩ := call
    intro rule h
    unfold loadedRules at h
    cases hload : LoadLocation timezone with
    | error err =>
      rw [hload] at h
      exact ih rule h
    | ok loc =>
      rw [hload] at h
      rcases List.mem_cons.1 h with h | h
      · exact ⟨timezone, by rw [h]; exact hload⟩
      · exact ih rule h

theorem twoZones_reloads (tz : String) (loc : Location) (h : twoZones tz = .ok loc) :
    twoZones loc.name = .ok loc := by
  unfold twoZones at h
  split_ifs at h
  · cases h; rfl
  · cases h; rfl

/-- C12, amended: for a schedule built by `NewSchedule` and `AddPeriod` calls whose
periods hold only weekdays from Sunday to Saturday (and hours and minutes that fit
a Go `int`), with `time.LoadLocation` loading a location again from the name of a
location it loaded, unmarshalling what `MarshalJSON` produces into a fresh
schedule returns no error and gives the same name, the same locations in the same
order and the same periods (none of them nil), so that `Action` agrees for every
instant and every running state. -/
theorem Schedule_JSON_roundtrip (LoadLocation : String → Except String Location)
    (name : String) (calls : List (String × Period))
    (hreload : ∀ tz loc, LoadLocation tz = .ok loc → LoadLocation loc.name = .ok loc)
    (hps : ∀ p ∈ (addPeriods LoadLocation (NewSchedule name) calls).Periods,
      p.representable) :
    Schedule.UnmarshalJSON LoadLocation ⟨"", [], []⟩
        (addPeriods LoadLocation (NewSchedule name) calls).MarshalJSON
      = ((addPeriods LoadLocation (NewSchedule name) calls).decoded, none)
    ∧ ∀ (t : Time) (isRunning : Bool),
        (Schedule.UnmarshalJSON LoadLocation ⟨"", [], []⟩
          (addPeriods LoadLocation (NewSchedule name) calls).MarshalJSON).1.Action t isRunning
        = (addPeriods LoadLocation (NewSchedule name) calls).Action t isRunning := by
  have hlocs : ∀ loc ∈ (addPeriods LoadLocation (NewSchedule name) calls).Locations,
      LoadLocation loc.name = .ok loc := by
    intro loc hloc
    rw [(addPeriods_eq LoadLocation calls (NewSchedule name)).2.1] at hloc
    simp only [NewSchedule, List.nil_append, List.mem_map] at hloc
    obtain ⟨rule, hrule, hfst⟩ := hloc
    obtain ⟨tz, htz⟩ := loadedRules_loaded LoadLocation calls rule hrule
    rw [← hfst]
    exact hreload tz rule.1 htz
  have hround := Schedule_UnmarshalJSON_MarshalJSON LoadLocation _ hlocs hps
  refine ⟨hround, ?_⟩
  intro t isRunning
  rw [hround]
  exact decoded_Action _ t isRunning

theorem Schedule_JSON_roundtrip_witness :
    (∀ p ∈ (addPeriods twoZones (NewSchedule "TwoShifts")
        [("UTC", ⟨⟨8, 0⟩, ⟨17, 0⟩, []⟩), ("Etc/GMT-12", ⟨⟨8, 0⟩, ⟨17, 0⟩, []⟩)]).Periods,
      p.representable)
    ∧ (Schedule.UnmarshalJSON twoZones ⟨"", [], []⟩
        (addPeriods twoZones (NewSchedule "TwoShifts")
          [("UTC", ⟨⟨8, 0⟩, ⟨17, 0⟩, []⟩),
            ("Etc/GMT-12", ⟨⟨8, 0⟩, ⟨17, 0⟩, []⟩)]).MarshalJSON).2 = none
    ∧ Schedule.UnmarshalJSON twoZones ⟨"", [], []⟩
        (addPeriods twoZones (NewSchedule "TwoShifts")
          [("UTC", ⟨⟨8, 0⟩, ⟨17, 0⟩, []⟩),
            ("Etc/GMT-12", ⟨⟨8, 0⟩, ⟨17, 0⟩, []⟩)]).MarshalJSON
      = ((addPeriods twoZones (NewSchedule "TwoShifts")
          [("UTC", ⟨⟨8, 0⟩, ⟨17, 0⟩, []⟩),
            ("Etc/GMT-12", ⟨⟨8, 0⟩, ⟨17, 0⟩, []⟩)]).decoded, none) :=
  ⟨by decide, by decide,
    (Schedule_JSON_roundtrip twoZones "TwoShifts"
      [("UTC", ⟨⟨8, 0⟩, ⟨17, 0⟩, []⟩), ("Etc/GMT-12", ⟨⟨8, 0⟩, ⟨17, 0⟩, []⟩)]
      twoZones_reloads (by decide)).1⟩

/-! ## The change lists of the adapters -/

theorem collectChanges_cons {α : Type} (step : α → Option (Option Change)) (a : α)
    (rest : List α) (changes : Changes) :
    collectChanges step (a :: rest) changes
      = match step a with
        | none => none
        | some none => collectChanges step rest changes
        | some (some c) => collectChanges step rest (changes ++ [c]) := rfl

theorem collectChanges_acc {α : Type} (step : α → Option (Option Change)) (l : List α) :
    ∀ changes : Changes,
      collectChanges step l changes = joinChanges (some changes) (collectChanges step l []) := by
  induction l with
  | nil => intro changes; simp [collectChanges, joinChanges]
  | cons a rest ih =>
    intro changes
    unfold collectChanges
    cases hstep : step a with
    | none => rfl
    | some r =>
      cases r with
      | none => exact ih changes
      | some c =>
        simp only []
        rw [ih (changes ++ [c]), ih ([] ++ [c])]
        cases collectChanges step rest [] <;> simp [joinChanges]

theorem collectChanges_append {α : Type} (step : α → Option (Option Change))
    (l1 l2 : List α) :
    collectChanges step (l1 ++ l2) []
      = joinChanges (collectChanges step l1 []) (collectChanges step l2 []) := by
  have hgen : ∀ changes : Changes, collectChanges step (l1 ++ l2) changes
      = joinChanges (collectChanges step l1 changes) (collectChanges step l2 []) := by
    induction l1 with
    | nil =>
      intro changes
      simp only [List.nil_append, collectChanges]
      exact collectChanges_acc step l2 changes
    | cons a rest ih =>
      intro changes
      simp only [List.cons_append]
      rw [collectChanges_cons, collectChanges_cons]
      cases hstep : step a with
      | none => cases collectChanges step l2 [] <;> rfl
      | some r =>
        cases r with
        | none => exact ih changes
        | some c => exact ih (changes ++ [c])
  exact hgen []

theorem collectChanges_singleton {α : Type} (step : α → Option (Option Change)) (a : α) :
    collectChanges step [a] [] = (step a).map Option.toList := by
  unfold collectChanges
  cases hstep : step a with
  | none => rfl
  | some r => cases r <;> rfl

theorem joinChanges_nil_left (o : Option Changes) : joinChanges (some []) o = o := by
  cases o <;> simp [joinChanges]

theorem collectChanges_skip {α : Type} (step : α → Option (Option Change))
    (pre post : List α) (a : α) (hskip : step a = some none) :
    collectChanges step (pre ++ a :: post) [] = collectChanges step (pre ++ post) [] := by
  rw [collectChanges_append, collectChanges_append]
  congr 1
  have h1 : collectChanges step (a :: post) [] = collectChanges step ([a] ++ post) [] := rfl
  rw [h1, collectChanges_append, collectChanges_singleton, hskip]
  exact joinChanges_nil_left _

theorem collectChanges_emit {α : Type} (step : α → Option (Option Change))
    (pre post : List α) (a : α) (c : Change) (hstep : step a = some (some c))
    (cpre cpost : Changes) (hpre : collectChanges step pre [] = some cpre)
    (hpost : collectChanges step post [] = some cpost) :
    collectChanges step (pre ++ a :: post) [] = some (cpre ++ c :: cpost) := by
  have h1 : collectChanges step (a :: post) [] = collectChanges step ([a] ++ post) [] := rfl
  rw [collectChanges_append, h1, collectChanges_append, collectChanges_singleton, hstep, hpre,
    hpost]
  rfl

theorem collectChanges_mem {α : Type} (step : α → Option (Option Change)) (l : List α) :
    ∀ (changes result : Changes), collectChanges step l changes = some result →
      ∀ c ∈ result, c ∈ changes ∨ ∃ a ∈ l, step a = some (some c) := by
  induction l with
  | nil =>
    intro changes result h c hc
    simp only [collectChanges, Option.some.injEq] at h
    rw [← h] at hc
    exact Or.inl hc
  | cons a rest ih =>
    intro changes result h c hc
    rw [collectChanges_cons] at h
    cases hs : step a with
    | none => rw [hs] at h; cases h
    | some r =>
      rw [hs] at h
      cases r with
      | none =>
        rcases ih changes result h c hc with hacc | ⟨b, hb, hstep⟩
        · exact Or.inl hacc
        · exact Or.inr ⟨b, List.mem_cons_of_mem _ hb, hstep⟩
      | some d =>
        rcases ih (changes ++ [d]) result h c hc with hacc | ⟨b, hb, hstep⟩
        · rcases List.mem_append.1 hacc with hacc | hnew
          · exact Or.inl hacc
          · rw [List.mem_singleton.1 hnew]
            exact Or.inr ⟨a, List.mem_cons_self _ _, hs⟩
        · exact Or.inr ⟨b, List.mem_cons_of_mem _ hb, hstep⟩

theorem collectChanges_insert {α : Type} (step : α → Option (Option Change))
    (pre post : List α) (a : α) (emitted : List Change)
    (hstep : step a = some none ∧ emitted = [] ∨ ∃ c, step a = some (some c) ∧ emitted = [c])
    (cpre cpost : Changes) (hpre : collectChanges step pre [] = some cpre)
    (hpost : collectChanges step post [] = some cpost) :
    collectChanges step (pre ++ a :: post) [] = some (cpre ++ emitted ++ cpost) := by
  rcases hstep with ⟨hskip, hnil⟩ | ⟨c, hemit, hone⟩
  · rw [collectChanges_skip step pre post a hskip, collectChanges_append, hpre, hpost, hnil]
    simp [joinChanges]
  · rw [collectChanges_emit step pre post a c hemit cpre cpost hpre hpost, hone]
    simp

theorem getASGGroupChangesLoop_eq (ts : Time) (schedules : Schedules)
    (l : List GroupSchedule) :
    ∀ changes, getASGGroupChangesLoop ts schedules l changes
      = collectChanges (asgStep ts schedules) l changes := by
  induction l with
  | nil => intro changes; rfl
  | cons a rest ih =>
    intro changes
    unfold getASGGroupChangesLoop collectChanges asgStep
    simp only []
    split_ifs with h1 h2
    · exact ih changes
    · exact ih changes
    · cases hfind : Schedules.Find schedules a.schedule with
      | none => exact ih changes
      | some eff =>
        simp only []
        cases hact : eff.Action ts (decide (a.resource.Instances.length ≠ 0)) with
        | none => rfl
        | some act =>
          simp only []
          split_ifs with h3
          · exact ih changes
          · exact ih _

theorem getInstanceChangesLoop_eq (ts : Time) (schedules : Schedules)
    (l : List instanceSchedule) :
    ∀ changes, getInstanceChangesLoop ts schedules l changes
      = collectChanges (instanceStep ts schedules) l changes := by
  induction l with
  | nil => intro changes; rfl
  | cons a rest ih =>
    intro changes
    unfold getInstanceChangesLoop collectChanges instanceStep
    simp only []
    split_ifs with h1 h2
    · exact ih changes
    · exact ih changes
    · cases hfind : Schedules.Find schedules a.schedule with
      | none => exact ih changes
      | some eff =>
        simp only []
        cases hact : eff.Action ts (decide (a.resource.State = InstanceStateNameRunning)) with
        | none => rfl
        | some act =>
          simp only []
          split_ifs with h3
          · exact ih changes
          · exact ih _

theorem getDBInstanceChangesLoop_eq (ts : Time) (schedules : Schedules)
    (l : List dbInstanceSchedule) :
    ∀ changes, getDBInstanceChangesLoop ts schedules l changes
      = collectChanges (dbStep ts schedules) l changes := by
  induction l with
  | nil => intro changes; rfl
  | cons a rest ih =>
    intro changes
    unfold getDBInstanceChangesLoop collectChanges dbStep
    simp only []
    split_ifs with h1
    · exact ih changes
    · cases hfind : Schedules.Find schedules a.schedule with
      | none => exact ih changes
      | some eff =>
        simp only []
        cases hact : eff.Action ts (decide (a.resource.DBInstanceStatus = "available")) with
        | none => rfl
        | some act =>
          simp only []
          split_ifs with h3
          · exact ih changes
          · exact ih _

theorem getASGGroupChanges_eq (l : List GroupSchedule) (ts : Time) (schedules : Schedules) :
    getASGGroupChanges l ts schedules = collectChanges (asgStep ts schedules) l [] :=
  getASGGroupChangesLoop_eq ts schedules l []

theorem getInstanceChanges_eq (l : List instanceSchedule) (ts : Time) (schedules : Schedules) :
    getInstanceChanges l ts schedules = collectChanges (instanceStep ts schedules) l [] :=
  getInstanceChangesLoop_eq ts schedules l []

theorem getDBInstanceChanges_eq (l : List dbInstanceSchedule) (ts : Time)
    (schedules : Schedules) :
    getDBInstanceChanges l ts schedules = collectChanges (dbStep ts schedules) l [] :=
  getDBInstanceChangesLoop_eq ts schedules l []

theorem asgStep_transitional (ts : Time) (schedules : Schedules) (a : GroupSchedule)
    (h : a.resource.DesiredCapacity ≠ (a.resource.Instances.length : Int)
      ∨ 0 < a.resource.SuspendedProcesses.length) :
    asgStep ts schedules a = some none := by
  unfold asgStep
  rcases h with h | h
  · rw [if_pos h]
  · split_ifs <;> rfl

/-- C13: a group whose desired capacity differs from its number of instances, or
that has a suspended process, gives no Change, at every instant and with every
list of schedules: alone it gives the empty list, and inside a list the result is
the one of the list without it. -/
theorem getASGGroupChanges_skips_transitional (pre post : List GroupSchedule)
    (a : GroupSchedule) (ts : Time) (schedules : Schedules)
    (h : a.resource.DesiredCapacity ≠ (a.resource.Instances.length : Int)
      ∨ 0 < a.resource.SuspendedProcesses.length) :
    getASGGroupChanges [a] ts schedules = some []
    ∧ getASGGroupChanges (pre ++ a :: post) ts schedules
        = getASGGroupChanges (pre ++ post) ts schedules := by
  have hstep := asgStep_transitional ts schedules a h
  refine ⟨?_, ?_⟩
  · rw [getASGGroupChanges_eq, collectChanges_singleton, hstep]
    rfl
  · rw [getASGGroupChanges_eq, getASGGroupChanges_eq]
    exact collectChanges_skip _ pre post a hstep

theorem getASGGroupChanges_skips_transitional_witness :
    ((⟨⟨"asg-3", 1, 1, [], [], []⟩, "n"⟩ : GroupSchedule).resource.DesiredCapacity
        ≠ ((⟨⟨"asg-3", 1, 1, [], [], []⟩, "n"⟩ : GroupSchedule).resource.Instances.length : Int)
      ∨ 0 < (⟨⟨"asg-3", 1, 1, [], [], []⟩, "n"⟩ : GroupSchedule).resource.SuspendedProcesses.length)
    ∧ getASGGroupChanges [⟨⟨"asg-1", 0, 0, [], [], []⟩, "n"⟩] chkTime alwaysSchedules
        = some [⟨"asg-1", "asg-1", StartAction, "asg", 1, 0⟩]
    ∧ getASGGroupChanges ([⟨⟨"asg-1", 0, 0, [], [], []⟩, "n"⟩]
          ++ ⟨⟨"asg-3", 1, 1, [], [], []⟩, "n"⟩ :: []) chkTime alwaysSchedules
        = getASGGroupChanges ([⟨⟨"asg-1", 0, 0, [], [], []⟩, "n"⟩] ++ []) chkTime
            alwaysSchedules :=
  ⟨by decide, by decide,
    (getASGGroupChanges_skips_transitional [⟨⟨"asg-1", 0, 0, [], [], []⟩, "n"⟩] []
      ⟨⟨"asg-3", 1, 1, [], [], []⟩, "n"⟩ chkTime alwaysSchedules (by decide)).2⟩

theorem getASGTagValue_eq_find (tags : List Tag) (keyName : String) :
    getASGTagValue tags keyName
      = (tags.find? (fun tag => decide (tag.Key = keyName))).map (fun tag => tag.Value) := by
  induction tags with
  | nil => rfl
  | cons tag tags ih =>
    unfold getASGTagValue
    by_cases h : tag.Key = keyName
    · simp [h]
    · simp [h, ih]

theorem getASGTagInt64_minSizeTag (tags : List Tag) :
    getASGTagInt64 tags minSizeTag 1 = restoreSize tags := by
  unfold getASGTagInt64 restoreSize
  rw [getASGTagValue_eq_find]
  cases tags.find? (fun tag => decide (tag.Key = minSizeTag)) with
  | none => rfl
  | some tag =>
    simp only [Option.map_some']
    cases ParseInt tag.Value.toList <;> rfl

/-- C14: a group with desired capacity equal to its number of instances, no
suspended process and a schedule name that `Find` resolves to a schedule whose
`Action(ts, instance count != 0)` is `act`, not Noop, gives exactly one Change:
action `act`, type "asg", ID the group's name, `minSize` the integer value of the
first `possum:min_size` tag (1 if there is none or it does not parse) and
`currentMinSize` the group's `MinSize`. Inside a list the Change stands between the
changes of the groups before and after. -/
theorem getASGGroupChanges_emits_one (pre post : List GroupSchedule) (a : GroupSchedule)
    (ts : Time) (schedules : Schedules) (s : Schedule) (act : ScheduledAction)
    (hcap : a.resource.DesiredCapacity = (a.resource.Instances.length : Int))
    (hsusp : a.resource.SuspendedProcesses.length = 0)
    (hfind : schedules.Find a.schedule = some s)
    (hact : s.Action ts (decide (a.resource.Instances.length ≠ 0)) = some act)
    (hne : act ≠ NoopAction) :
    getASGGroupChanges [a] ts schedules
      = some [⟨a.resource.AutoScalingGroupName, getASGName a.resource, act, "asg",
          restoreSize a.resource.Tags, a.resource.MinSize⟩]
    ∧ ∀ cpre cpost, getASGGroupChanges pre ts schedules = some cpre →
        getASGGroupChanges post ts schedules = some cpost →
        getASGGroupChanges (pre ++ a :: post) ts schedules
          = some (cpre ++ ⟨a.resource.AutoScalingGroupName, getASGName a.resource, act, "asg",
              restoreSize a.resource.Tags, a.resource.MinSize⟩ :: cpost) := by
  have hstep : asgStep ts schedules a
      = some (some ⟨a.resource.AutoScalingGroupName, getASGName a.resource, act, "asg",
          restoreSize a.resource.Tags, a.resource.MinSize⟩) := by
    unfold asgStep
    rw [if_neg (not_not.mpr hcap), if_neg (by omega), hfind]
    simp only [hact, if_neg hne, getASGTagInt64_minSizeTag]
  refine ⟨?_, ?_⟩
  · rw [getASGGroupChanges_eq, collectChanges_singleton, hstep]
    rfl
  · intro cpre cpost hpre hpost
    rw [getASGGroupChanges_eq] at hpre hpost ⊢
    exact collectChanges_emit _ pre post a _ hstep cpre cpost hpre hpost

theorem getASGGroupChanges_emits_one_witness :
    Schedules.Find neverSchedules "n"
        = some (addPeriods twoZones (NewSchedule "n") [("UTC", ⟨⟨0, 0⟩, ⟨0, 0⟩, []⟩)])
    ∧ restoreSize [⟨"possum:min_size", "3"⟩] = 3
    ∧ getASGGroupChanges [⟨⟨"asg-2", 1, 1, ["i-1"], [], [⟨"possum:min_size", "3"⟩]⟩, "n"⟩]
        chkTime neverSchedules
      = some [⟨"asg-2", "asg-2", StopAction, "asg", 3, 1⟩] :=
  ⟨rfl, by decide,
    (getASGGroupChanges_emits_one [] []
      ⟨⟨"asg-2", 1, 1, ["i-1"], [], [⟨"possum:min_size", "3"⟩]⟩, "n"⟩ chkTime neverSchedules
      (addPeriods twoZones (NewSchedule "n") [("UTC", ⟨⟨0, 0⟩, ⟨0, 0⟩, []⟩)]) StopAction
      (by decide) (by decide) rfl (by decide) (by decide)).1⟩

/-- What the loop body of `getInstanceChanges` emits, read backwards: a Change
comes only from an instance that is running or stopped and not a spot instance,
whose schedule resolves to a schedule with an action other than Noop, and it is
the Change with that action and type "instance". -/
theorem instanceStep_emits (ts : Time) (schedules : Schedules) (a : instanceSchedule)
    (c : Change) (h : instanceStep ts schedules a = some (some c)) :
    (a.resource.State = "running" ∨ a.resource.State = "stopped")
    ∧ a.resource.InstanceLifecycle ≠ some "spot"
    ∧ ∃ s, schedules.Find a.schedule = some s
        ∧ s.Action ts (decide (a.resource.State = "running")) = some c.Action
        ∧ c.Action ≠ NoopAction
        ∧ c = ⟨a.resource.InstanceId, getInstanceName a.resource, c.Action, "instance", 0, 0⟩ := by
  unfold instanceStep InstanceStateNameStopped InstanceStateNameRunning at h
  split_ifs at h with h1 h2
  · cases h
  · cases h
  cases hfind : Schedules.Find schedules a.schedule with
  | none => rw [hfind] at h; cases h
  | some eff =>
    rw [hfind] at h
    simp only [] at h
    cases hact : eff.Action ts (decide (a.resource.State = "running")) with
    | none => rw [hact] at h; cases h
    | some act =>
      rw [hact] at h
      simp only [] at h
      split_ifs at h with hnoop
      · cases h
      have hc : c = ⟨a.resource.InstanceId, getInstanceName a.resource, act, "instance", 0, 0⟩ :=
        (Option.some.inj (Option.some.inj h)).symm
      have hca : c.Action = act := by rw [hc]
      refine ⟨by tauto, h2, eff, rfl, ?_, ?_, ?_⟩
      · rw [hca]; exact hact
      · rw [hca]; exact hnoop
      · rw [hca]; exact hc

/-- C15: `getInstanceChanges` gives a Change for an instance only if its state is
exactly "running" or "stopped" and its lifecycle is not "spot" (otherwise the
instance gives nothing, alone and inside any list); an instance that passes and
whose schedule resolves gives, alone and inside any list between the changes of the
instances before and after it, the Change with the schedule's
`Action(ts, state == "running")` as action and type "instance", and none when that
action is Noop; and in the result for any list, every Change comes from an instance
of the list that passes the filter, with that action and that type. -/
theorem getInstanceChanges_filter_and_action (pre post : List instanceSchedule)
    (a : instanceSchedule) (ts : Time) (schedules : Schedules) :
    ((¬ (a.resource.State = "running" ∨ a.resource.State = "stopped")
        ∨ a.resource.InstanceLifecycle = some "spot") →
      getInstanceChanges [a] ts schedules = some []
      ∧ getInstanceChanges (pre ++ a :: post) ts schedules
          = getInstanceChanges (pre ++ post) ts schedules)
    ∧ (∀ (s : Schedule) (act : ScheduledAction),
        (a.resource.State = "running" ∨ a.resource.State = "stopped") →
        a.resource.InstanceLifecycle ≠ some "spot" →
        schedules.Find a.schedule = some s →
        s.Action ts (decide (a.resource.State = "running")) = some act →
        getInstanceChanges [a] ts schedules
          = some (if act = NoopAction then []
              else [⟨a.resource.InstanceId, getInstanceName a.resource, act, "instance",
                0, 0⟩])
        ∧ ∀ cpre cpost : Changes, getInstanceChanges pre ts schedules = some cpre →
            getInstanceChanges post ts schedules = some cpost →
            getInstanceChanges (pre ++ a :: post) ts schedules
              = some (cpre ++ (if act = NoopAction then []
                  else [⟨a.resource.InstanceId, getInstanceName a.resource, act, "instance",
                    0, 0⟩]) ++ cpost))
    ∧ (∀ (list : List instanceSchedule) (result : Changes),
        getInstanceChanges list ts schedules = some result →
        ∀ c ∈ result, ∃ b ∈ list,
          (b.resource.State = "running" ∨ b.resource.State = "stopped")
          ∧ b.resource.InstanceLifecycle ≠ some "spot"
          ∧ ∃ s, schedules.Find b.schedule = some s
              ∧ s.Action ts (decide (b.resource.State = "running")) = some c.Action
              ∧ c.Action ≠ NoopAction
              ∧ c.Type' = "instance" ∧ c.ID = b.resource.InstanceId) := by
  refine ⟨?_, ?_, ?_⟩
  · intro h
    have hstep : instanceStep ts schedules a = some none := by
      unfold instanceStep InstanceStateNameStopped InstanceStateNameRunning
      rcases h with h | h
      · rw [if_pos (by tauto)]
      · split_ifs <;> rfl
    refine ⟨?_, ?_⟩
    · rw [getInstanceChanges_eq, collectChanges_singleton, hstep]
      rfl
    · rw [getInstanceChanges_eq, getInstanceChanges_eq]
      exact collectChanges_skip _ pre post a hstep
  · intro s act hstate hspot hfind hact
    have hstep : instanceStep ts schedules a
        = if act = NoopAction then some none
          else some (some ⟨a.resource.InstanceId, getInstanceName a.resource, act, "instance",
            0, 0⟩) := by
      unfold instanceStep InstanceStateNameStopped InstanceStateNameRunning
      rw [if_neg (by tauto), if_neg hspot, hfind]
      simp only [hact]
    refine ⟨?_, ?_⟩
    · rw [getInstanceChanges_eq, collectChanges_singleton, hstep]
      split_ifs <;> rfl
    · intro cpre cpost hpre hpost
      rw [getInstanceChanges_eq] at hpre hpost ⊢
      refine collectChanges_insert _ pre post a _ ?_ cpre cpost hpre hpost
      by_cases hnoop : act = NoopAction
      · exact Or.inl ⟨by rw [hstep, if_pos hnoop], by rw [if_pos hnoop]⟩
      · exact Or.inr ⟨_, by rw [hstep, if_neg hnoop], by rw [if_neg hnoop]⟩
  · intro list result hres c hc
    rw [getInstanceChanges_eq] at hres
    rcases collectChanges_mem _ list [] result hres c hc with hnil | ⟨b, hb, hstep⟩
    · cases hnil
    · obtain ⟨hstate, hspot, s, hfind, hact, hnoop, hceq⟩ :=
        instanceStep_emits ts schedules b c hstep
      refine ⟨b, hb, hstate, hspot, s, hfind, hact, hnoop, ?_, ?_⟩
      · rw [hceq]
      · rw [hceq]

theorem getInstanceChanges_filter_and_action_witness :
    getInstanceChanges
        ([⟨⟨"i-1", "stopped", none, []⟩, "n"⟩] ++ ⟨⟨"i-2", "stopped", none, []⟩, "n"⟩
          :: [⟨⟨"i-3", "pending", none, []⟩, "n"⟩, ⟨⟨"i-4", "stopped", some "spot", []⟩, "n"⟩])
        chkTime alwaysSchedules
      = some ([⟨"i-1", "i-1", StartAction, "instance", 0, 0⟩]
          ++ (if StartAction = NoopAction then []
              else [⟨"i-2", "i-2", StartAction, "instance", 0, 0⟩]) ++ [])
    ∧ getInstanceChanges [⟨⟨"i-5", "running", none, []⟩, "n"⟩] chkTime alwaysSchedules
      = some [] :=
  ⟨((getInstanceChanges_filter_and_action [⟨⟨"i-1", "stopped", none, []⟩, "n"⟩]
      [⟨⟨"i-3", "pending", none, []⟩, "n"⟩, ⟨⟨"i-4", "stopped", some "spot", []⟩, "n"⟩]
      ⟨⟨"i-2", "stopped", none, []⟩, "n"⟩ chkTime alwaysSchedules).2.1
      (addPeriods twoZones (NewSchedule "n") [("UTC", ⟨⟨0, 0⟩, ⟨23, 59⟩, AllWeekdays⟩)])
      StartAction (by decide) (by decide) rfl (by decide)).2
      [⟨"i-1", "i-1", StartAction, "instance", 0, 0⟩] [] (by decide) (by decide),
    by decide⟩

/-- What the loop body of `getDBInstanceChanges` emits, read backwards: a Change
comes only from a database instance that is available or stopped, whose schedule
resolves to a schedule with an action other than Noop, and it is the Change with
that action and type "rds". -/
theorem dbStep_emits (ts : Time) (schedules : Schedules) (a : dbInstanceSchedule)
    (c : Change) (h : dbStep ts schedules a = some (some c)) :
    (a.resource.DBInstanceStatus = "available" ∨ a.resource.DBInstanceStatus = "stopped")
    ∧ ∃ s, schedules.Find a.schedule = some s
        ∧ s.Action ts (decide (a.resource.DBInstanceStatus = "available")) = some c.Action
        ∧ c.Action ≠ NoopAction
        ∧ c = ⟨a.resource.DBInstanceIdentifier, a.resource.DBInstanceIdentifier, c.Action,
            "rds", 0, 0⟩ := by
  unfold dbStep at h
  split_ifs at h with h1
  · cases h
  cases hfind : Schedules.Find schedules a.schedule with
  | none => rw [hfind] at h; cases h
  | some eff =>
    rw [hfind] at h
    simp only [] at h
    cases hact : eff.Action ts (decide (a.resource.DBInstanceStatus = "available")) with
    | none => rw [hact] at h; cases h
    | some act =>
      rw [hact] at h
      simp only [] at h
      split_ifs at h with hnoop
      · cases h
      have hc : c = ⟨a.resource.DBInstanceIdentifier, a.resource.DBInstanceIdentifier, act,
          "rds", 0, 0⟩ := (Option.some.inj (Option.some.inj h)).symm
      have hca : c.Action = act := by rw [hc]
      refine ⟨by tauto, eff, rfl, ?_, ?_, ?_⟩
      · rw [hca]; exact hact
      · rw [hca]; exact hnoop
      · rw [hca]; exact hc

/-- C16: `getDBInstanceChanges` gives a Change for a database instance only if its
status is exactly "available" or "stopped" (otherwise the instance gives nothing,
alone and inside any list); an instance that passes and whose schedule resolves
gives, alone and inside any list between the changes of the instances before and
after it, the Change with the schedule's `Action(ts, status == "available")` as
action and type "rds", and none when that action is Noop; and in the result for any
list, every Change comes from an instance of the list that passes the filter, with
that action and that type. -/
theorem getDBInstanceChanges_filter_and_action (pre post : List dbInstanceSchedule)
    (a : dbInstanceSchedule) (ts : Time) (schedules : Schedules) :
    (¬ (a.resource.DBInstanceStatus = "available" ∨ a.resource.DBInstanceStatus = "stopped") →
      getDBInstanceChanges [a] ts schedules = some []
      ∧ getDBInstanceChanges (pre ++ a :: post) ts schedules
          = getDBInstanceChanges (pre ++ post) ts schedules)
    ∧ (∀ (s : Schedule) (act : ScheduledAction),
        (a.resource.DBInstanceStatus = "available" ∨ a.resource.DBInstanceStatus = "stopped") →
        schedules.Find a.schedule = some s →
        s.Action ts (decide (a.resource.DBInstanceStatus = "available")) = some act →
        getDBInstanceChanges [a] ts schedules
          = some (if act = NoopAction then []
              else [⟨a.resource.DBInstanceIdentifier, a.resource.DBInstanceIdentifier, act,
                "rds", 0, 0⟩])
        ∧ ∀ cpre cpost : Changes, getDBInstanceChanges pre ts schedules = some cpre →
            getDBInstanceChanges post ts schedules = some cpost →
            getDBInstanceChanges (pre ++ a :: post) ts schedules
              = some (cpre ++ (if act = NoopAction then []
                  else [⟨a.resource.DBInstanceIdentifier, a.resource.DBInstanceIdentifier,
                    act, "rds", 0, 0⟩]) ++ cpost))
    ∧ (∀ (list : List dbInstanceSchedule) (result : Changes),
        getDBInstanceChanges list ts schedules = some result →
        ∀ c ∈ result, ∃ b ∈ list,
          (b.resource.DBInstanceStatus = "available" ∨ b.resource.DBInstanceStatus = "stopped")
          ∧ ∃ s, schedules.Find b.schedule = some s
              ∧ s.Action ts (decide (b.resource.DBInstanceStatus = "available"))
                  = some c.Action
              ∧ c.Action ≠ NoopAction
              ∧ c.Type' = "rds" ∧ c.ID = b.resource.DBInstanceIdentifier) := by
  refine ⟨?_, ?_, ?_⟩
  · intro h
    have hstep : dbStep ts schedules a = some none := by
      unfold dbStep
      rw [if_pos (by tauto)]
    refine ⟨?_, ?_⟩
    · rw [getDBInstanceChanges_eq, collectChanges_singleton, hstep]
      rfl
    · rw [getDBInstanceChanges_eq, getDBInstanceChanges_eq]
      exact collectChanges_skip _ pre post a hstep
  · intro s act hstate hfind hact
    have hstep : dbStep ts schedules a
        = if act = NoopAction then some none
          else some (some ⟨a.resource.DBInstanceIdentifier, a.resource.DBInstanceIdentifier,
            act, "rds", 0, 0⟩) := by
      unfold dbStep
      rw [if_neg (by tauto), hfind]
      simp only [hact]
    refine ⟨?_, ?_⟩
    · rw [getDBInstanceChanges_eq, collectChanges_singleton, hstep]
      split_ifs <;> rfl
    · intro cpre cpost hpre hpost
      rw [getDBInstanceChanges_eq] at hpre hpost ⊢
      refine collectChanges_insert _ pre post a _ ?_ cpre cpost hpre hpost
      by_cases hnoop : act = NoopAction
      · exact Or.inl ⟨by rw [hstep, if_pos hnoop], by rw [if_pos hnoop]⟩
      · exact Or.inr ⟨_, by rw [hstep, if_neg hnoop], by rw [if_neg hnoop]⟩
  · intro list result hres c hc
    rw [getDBInstanceChanges_eq] at hres
    rcases collectChanges_mem _ list [] result hres c hc with hnil | ⟨b, hb, hstep⟩
    · cases hnil
    · obtain ⟨hstate, s, hfind, hact, hnoop, hceq⟩ := dbStep_emits ts schedules b c hstep
      refine ⟨b, hb, hstate, s, hfind, hact, hnoop, ?_, ?_⟩
      · rw [hceq]
      · rw [hceq]

theorem getDBInstanceChanges_filter_and_action_witness :
    getDBInstanceChanges
        ([⟨⟨"db-1", "available"⟩, "n"⟩] ++ ⟨⟨"db-2", "available"⟩, "n"⟩
          :: [⟨⟨"db-3", "starting"⟩, "n"⟩])
        chkTime neverSchedules
      = some ([⟨"db-1", "db-1", StopAction, "rds", 0, 0⟩]
          ++ (if StopAction = NoopAction then []
              else [⟨"db-2", "db-2", StopAction, "rds", 0, 0⟩]) ++ [])
    ∧ getDBInstanceChanges [⟨⟨"db-4", "stopped"⟩, "n"⟩] chkTime neverSchedules = some [] :=
  ⟨((getDBInstanceChanges_filter_and_action [⟨⟨"db-1", "available"⟩, "n"⟩]
      [⟨⟨"db-3", "starting"⟩, "n"⟩] ⟨⟨"db-2", "available"⟩, "n"⟩ chkTime neverSchedules).2.1
      (addPeriods twoZones (NewSchedule "n") [("UTC", ⟨⟨0, 0⟩, ⟨0, 0⟩, []⟩)])
      StopAction (by decide) rfl (by decide)).2
      [⟨"db-1", "db-1", StopAction, "rds", 0, 0⟩] [] (by decide) (by decide),
    by decide⟩

theorem asgStep_of_Find_none (ts : Time) (schedules : Schedules) (a : GroupSchedule)
    (h : schedules.Find a.schedule = none) : asgStep ts schedules a = some none := by
  unfold asgStep
  rw [h]
  split_ifs <;> rfl

theorem instanceStep_of_Find_none (ts : Time) (schedules : Schedules) (a : instanceSchedule)
    (h : schedules.Find a.schedule = none) : instanceStep ts schedules a = some none := by
  unfold instanceStep
  rw [h]
  split_ifs <;> rfl

theorem dbStep_of_Find_none (ts : Time) (schedules : Schedules) (a : dbInstanceSchedule)
    (h : schedules.Find a.schedule = none) : dbStep ts schedules a = some none := by
  unfold dbStep
  rw [h]
  split_ifs <;> rfl

theorem Find_eq_none_of_no_name (schedules : Schedules) (name : String)
    (h : ∀ sch ∈ schedules, sch.Name ≠ name) : schedules.Find name = none := by
  induction schedules with
  | nil => rfl
  | cons sch rest ih =>
    unfold Schedules.Find
    rw [if_neg (h sch (List.mem_cons_self _ _))]
    exact ih (fun x hx => h x (List.mem_cons_of_mem _ hx))

/-- C17: in each of `getInstanceChanges`, `getASGGroupChanges` and
`getDBInstanceChanges`, a resource whose schedule name is the name of no schedule
in the list gives no Change and no failure (alone, the result is the empty list),
and the result for a list that holds it is the result for the list without it. -/
theorem unknown_schedule_is_skipped (ts : Time) (schedules : Schedules) :
    (∀ (pre post : List instanceSchedule) (a : instanceSchedule),
        (∀ sch ∈ schedules, sch.Name ≠ a.schedule) →
        getInstanceChanges [a] ts schedules = some []
        ∧ getInstanceChanges (pre ++ a :: post) ts schedules
            = getInstanceChanges (pre ++ post) ts schedules)
    ∧ (∀ (pre post : List GroupSchedule) (a : GroupSchedule),
        (∀ sch ∈ schedules, sch.Name ≠ a.schedule) →
        getASGGroupChanges [a] ts schedules = some []
        ∧ getASGGroupChanges (pre ++ a :: post) ts schedules
            = getASGGroupChanges (pre ++ post) ts schedules)
    ∧ (∀ (pre post : List dbInstanceSchedule) (a : dbInstanceSchedule),
        (∀ sch ∈ schedules, sch.Name ≠ a.schedule) →
        getDBInstanceChanges [a] ts schedules = some []
        ∧ getDBInstanceChanges (pre ++ a :: post) ts schedules
            = getDBInstanceChanges (pre ++ post) ts schedules) := by
  refine ⟨?_, ?_, ?_⟩
  · intro pre post a h
    have hstep := instanceStep_of_Find_none ts schedules a (Find_eq_none_of_no_name _ _ h)
    refine ⟨?_, ?_⟩
    · rw [getInstanceChanges_eq, collectChanges_singleton, hstep]
      rfl
    · rw [getInstanceChanges_eq, getInstanceChanges_eq]
      exact collectChanges_skip _ pre post a hstep
  · intro pre post a h
    have hstep := asgStep_of_Find_none ts schedules a (Find_eq_none_of_no_name _ _ h)
    refine ⟨?_, ?_⟩
    · rw [getASGGroupChanges_eq, collectChanges_singleton, hstep]
      rfl
    · rw [getASGGroupChanges_eq, getASGGroupChanges_eq]
      exact collectChanges_skip _ pre post a hstep
  · intro pre post a h
    have hstep := dbStep_of_Find_none ts schedules a (Find_eq_none_of_no_name _ _ h)
    refine ⟨?_, ?_⟩
    · rw [getDBInstanceChanges_eq, collectChanges_singleton, hstep]
      rfl
    · rw [getDBInstanceChanges_eq, getDBInstanceChanges_eq]
      exact collectChanges_skip _ pre post a hstep

theorem actionLoop_values (locations : List Location) (t : Time) (isRunning : Bool) :
    ∀ (periods : List Period) (i : Nat) (act : ScheduledAction),
      actionLoop locations t isRunning i periods = some act →
        act = StartAction ∨ act = StopAction ∨ act = NoopAction := by
  intro periods
  induction periods with
  | nil =>
    intro i act h
    simp only [actionLoop, Option.some.injEq] at h
    exact Or.inr (Or.inr h.symm)
  | cons rule rest ih =>
    intro i act h
    unfold actionLoop at h
    cases hloc : locations[i]? with
    | none => rw [hloc] at h; cases h
    | some loc =>
      rw [hloc] at h
      simp only [] at h
      split_ifs at h with h1 h2
      · exact Or.inl (Option.some.inj h).symm
      · exact Or.inr (Or.inl (Option.some.inj h).symm)
      · exact ih (i + 1) act h

theorem Find_mem (schedules : Schedules) (name : String) (s : Schedule)
    (h : schedules.Find name = some s) : s ∈ schedules := by
  induction schedules with
  | nil => simp [Schedules.Find] at h
  | cons sch rest ih =>
    unfold Schedules.Find at h
    split_ifs at h with hn
    · rw [← Option.some.inj h]
      exact List.mem_cons_self _ _
    · exact List.mem_cons_of_mem _ (ih h)

theorem Action_isSome_of_parallel (s : Schedule) (t : Time) (isRunning : Bool)
    (hlen : s.Locations.length = s.Periods.length) : ∃ act, s.Action t isRunning = some act :=
  ⟨_, actionLoop_eq_firstDecision s.Locations t isRunning s.Periods 0 (by omega)⟩

theorem collectChanges_all {α : Type} (step : α → Option (Option Change))
    (P : Change → Prop) (hstep : ∀ a c, step a = some (some c) → P c) (l : List α) :
    ∀ (changes result : Changes), (∀ c ∈ changes, P c) →
      collectChanges step l changes = some result → ∀ c ∈ result, P c := by
  induction l with
  | nil =>
    intro changes result hacc h
    simp only [collectChanges, Option.some.injEq] at h
    rw [← h]
    exact hacc
  | cons a rest ih =>
    intro changes result hacc h
    rw [collectChanges_cons] at h
    cases hs : step a with
    | none => rw [hs] at h; cases h
    | some r =>
      rw [hs] at h
      cases r with
      | none => exact ih changes result hacc h
      | some c =>
        refine ih (changes ++ [c]) result ?_ h
        intro x hx
        rcases List.mem_append.1 hx with hx | hx
        · exact hacc x hx
        · rw [List.mem_singleton.1 hx]
          exact hstep a c hs

theorem collectChanges_isSome {α : Type} (step : α → Option (Option Change)) (l : List α)
    (hstep : ∀ a ∈ l, ∃ r, step a = some r) :
    ∀ changes : Changes, ∃ result, collectChanges step l changes = some result := by
  induction l with
  | nil => intro changes; exact ⟨changes, rfl⟩
  | cons a rest ih =>
    intro changes
    obtain ⟨r, hr⟩ := hstep a (List.mem_cons_self _ _)
    have ihr := ih (fun x hx => hstep x (List.mem_cons_of_mem _ hx))
    rw [collectChanges_cons, hr]
    cases r with
    | none => exact ihr changes
    | some c => exact ihr (changes ++ [c])

theorem asgStep_action (ts : Time) (schedules : Schedules) (a : GroupSchedule) (c : Change)
    (h : asgStep ts schedules a = some (some c)) :
    c.Action = StartAction ∨ c.Action = StopAction := by
  unfold asgStep at h
  split_ifs at h with h1 h2
  · cases h
  · cases h
  cases hfind : Schedules.Find schedules a.schedule with
  | none => rw [hfind] at h; cases h
  | some eff =>
    rw [hfind] at h
    simp only [] at h
    cases hact : eff.Action ts (decide (a.resource.Instances.length ≠ 0)) with
    | none => rw [hact] at h; cases h
    | some act =>
      rw [hact] at h
      simp only [] at h
      split_ifs at h with hnoop
      · cases h
      have hc : c.Action = act := by
        rw [← Option.some.inj (Option.some.inj h)]
      rcases actionLoop_values _ _ _ _ _ _ hact with hv | hv | hv
      · exact Or.inl (hc.trans hv)
      · exact Or.inr (hc.trans hv)
      · exact absurd hv hnoop

theorem instanceStep_action (ts : Time) (schedules : Schedules) (a : instanceSchedule)
    (c : Change) (h : instanceStep ts schedules a = some (some c)) :
    c.Action = StartAction ∨ c.Action = StopAction := by
  unfold instanceStep at h
  split_ifs at h with h1 h2
  · cases h
  · cases h
  cases hfind : Schedules.Find schedules a.schedule with
  | none => rw [hfind] at h; cases h
  | some eff =>
    rw [hfind] at h
    simp only [] at h
    cases hact : eff.Action ts (decide (a.resource.State = InstanceStateNameRunning)) with
    | none => rw [hact] at h; cases h
    | some act =>
      rw [hact] at h
      simp only [] at h
      split_ifs at h with hnoop
      · cases h
      have hc : c.Action = act := by
        rw [← Option.some.inj (Option.some.inj h)]
      rcases actionLoop_values _ _ _ _ _ _ hact with hv | hv | hv
      · exact Or.inl (hc.trans hv)
      · exact Or.inr (hc.trans hv)
      · exact absurd hv hnoop

theorem dbStep_action (ts : Time) (schedules : Schedules) (a : dbInstanceSchedule)
    (c : Change) (h : dbStep ts schedules a = some (some c)) :
    c.Action = StartAction ∨ c.Action = StopAction := by
  unfold dbStep at h
  split_ifs at h with h1
  · cases h
  cases hfind : Schedules.Find schedules a.schedule with
  | none => rw [hfind] at h; cases h
  | some eff =>
    rw [hfind] at h
    simp only [] at h
    cases hact : eff.Action ts (decide (a.resource.DBInstanceStatus = "available")) with
    | none => rw [hact] at h; cases h
    | some act =>
      rw [hact] at h
      simp only [] at h
      split_ifs at h with hnoop
      · cases h
      have hc : c.Action = act := by
        rw [← Option.some.inj (Option.some.inj h)]
      rcases actionLoop_values _ _ _ _ _ _ hact with hv | hv | hv
      · exact Or.inl (hc.trans hv)
      · exact Or.inr (hc.trans hv)
      · exact absurd hv hnoop

theorem asgStep_isSome (ts : Time) (schedules : Schedules)
    (hwf : ∀ s ∈ schedules, s.Locations.length = s.Periods.length) (a : GroupSchedule) :
    ∃ r, asgStep ts schedules a = some r := by
  unfold asgStep
  split_ifs with h1 h2
  · exact ⟨_, rfl⟩
  · exact ⟨_, rfl⟩
  · cases hfind : Schedules.Find schedules a.schedule with
    | none => exact ⟨_, rfl⟩
    | some eff =>
      obtain ⟨act, hact⟩ := Action_isSome_of_parallel eff ts
        (decide (a.resource.Instances.length ≠ 0)) (hwf eff (Find_mem _ _ _ hfind))
      simp only [hact]
      split_ifs <;> exact ⟨_, rfl⟩

theorem instanceStep_isSome (ts : Time) (schedules : Schedules)
    (hwf : ∀ s ∈ schedules, s.Locations.length = s.Periods.length) (a : instanceSchedule) :
    ∃ r, instanceStep ts schedules a = some r := by
  unfold instanceStep
  split_ifs with h1 h2
  · exact ⟨_, rfl⟩
  · exact ⟨_, rfl⟩
  · cases hfind : Schedules.Find schedules a.schedule with
    | none => exact ⟨_, rfl⟩
    | some eff =>
      obtain ⟨act, hact⟩ := Action_isSome_of_parallel eff ts
        (decide (a.resource.State = InstanceStateNameRunning)) (hwf eff (Find_mem _ _ _ hfind))
      simp only [hact]
      split_ifs <;> exact ⟨_, rfl⟩

theorem dbStep_isSome (ts : Time) (schedules : Schedules)
    (hwf : ∀ s ∈ schedules, s.Locations.length = s.Periods.length) (a : dbInstanceSchedule) :
    ∃ r, dbStep ts schedules a = some r := by
  unfold dbStep
  split_ifs with h1
  · exact ⟨_, rfl⟩
  · cases hfind : Schedules.Find schedules a.schedule with
    | none => exact ⟨_, rfl⟩
    | some eff =>
      obtain ⟨act, hact⟩ := Action_isSome_of_parallel eff ts
        (decide (a.resource.DBInstanceStatus = "available")) (hwf eff (Find_mem _ _ _ hfind))
      simp only [hact]
      split_ifs <;> exact ⟨_, rfl⟩

/-- C18: every Change returned by `getInstanceChanges`, `getASGGroupChanges` and
`getDBInstanceChanges` has action Start or Stop, never Noop, for every input
list, instant and list of schedules; and the three functions do return a list
when every schedule has as many locations as periods. -/
theorem Changes_are_Start_or_Stop (ts : Time) (schedules : Schedules) :
    (∀ (list : List instanceSchedule) (changes : Changes),
        getInstanceChanges list ts schedules = some changes →
        ∀ c ∈ changes, (c.Action = StartAction ∨ c.Action = StopAction)
          ∧ c.Action ≠ NoopAction)
    ∧ (∀ (list : List GroupSchedule) (changes : Changes),
        getASGGroupChanges list ts schedules = some changes →
        ∀ c ∈ changes, (c.Action = StartAction ∨ c.Action = StopAction)
          ∧ c.Action ≠ NoopAction)
    ∧ (∀ (list : List dbInstanceSchedule) (changes : Changes),
        getDBInstanceChanges list ts schedules = some changes →
        ∀ c ∈ changes, (c.Action = StartAction ∨ c.Action = StopAction)
          ∧ c.Action ≠ NoopAction)
    ∧ ((∀ s ∈ schedules, s.Locations.length = s.Periods.length) →
        (∀ list, ∃ changes, getInstanceChanges list ts schedules = some changes)
        ∧ (∀ list, ∃ changes, getASGGroupChanges list ts schedules = some changes)
        ∧ (∀ list, ∃ changes, getDBInstanceChanges list ts schedules = some changes)) := by
  have hP : ∀ c : Change, (c.Action = StartAction ∨ c.Action = StopAction) →
      (c.Action = StartAction ∨ c.Action = StopAction) ∧ c.Action ≠ NoopAction := by
    intro c h
    refine ⟨h, ?_⟩
    rcases h with h | h <;> rw [h] <;> decide
  refine ⟨?_, ?_, ?_, ?_⟩
  · intro list changes h
    rw [getInstanceChanges_eq] at h
    exact collectChanges_all _ _ (fun a c hs => hP c (instanceStep_action ts schedules a c hs))
      list [] changes (by simp) h
  · intro list changes h
    rw [getASGGroupChanges_eq] at h
    exact collectChanges_all _ _ (fun a c hs => hP c (asgStep_action ts schedules a c hs))
      list [] changes (by simp) h
  · intro list changes h
    rw [getDBInstanceChanges_eq] at h
    exact collectChanges_all _ _ (fun a c hs => hP c (dbStep_action ts schedules a c hs))
      list [] changes (by simp) h
  · intro hwf
    refine ⟨?_, ?_, ?_⟩
    · intro list
      rw [getInstanceChanges_eq]
      exact collectChanges_isSome _ list (fun a _ => instanceStep_isSome ts schedules hwf a) []
    · intro list
      rw [getASGGroupChanges_eq]
      exact collectChanges_isSome _ list (fun a _ => asgStep_isSome ts schedules hwf a) []
    · intro list
      rw [getDBInstanceChanges_eq]
      exact collectChanges_isSome _ list (fun a _ => dbStep_isSome ts schedules hwf a) []

/-! ## Applying the changes of autoscaling groups: theorems -/

theorem issueAll_append (client : ASGClient) (cs1 cs2 : List Call) :
    ∀ log, issueAll client (cs1 ++ cs2) log
      = match issueAll client cs1 log with
        | (l, some err) => (l, some err)
        | (l, none) => issueAll client cs2 l := by
  induction cs1 with
  | nil => intro log; rfl
  | cons call rest ih =>
    intro log
    simp only [List.cons_append, issueAll]
    cases hc : client log call with
    | some err => rfl
    | none => exact ih (log ++ [call])

theorem performASGChanges_cons (client : ASGClient) (change : Change) (rest : List Change)
    (log : List Call) :
    performASGChanges client (change :: rest) log
      = match issueAll client (expectedCalls change) log with
        | (l, some err) => (l, some err)
        | (l, none) => performASGChanges client rest l := by
  rw [performASGChanges]
  unfold expectedCalls
  by_cases hstart : change.Action = StartAction
  · simp only [if_pos hstart, updateASGSize, issueAll]
    cases client log (Call.UpdateAutoScalingGroup change.ID change.minSize change.minSize) <;> rfl
  · by_cases hstop : change.Action = StopAction
    · simp only [if_neg hstart, if_pos hstop, updateASGSize, tagASGGroupSize, issueAll, minSizeTag]
      cases client log (Call.UpdateAutoScalingGroup change.ID 0 0) with
      | some err => rfl
      | none =>
        simp only []
        cases client (log ++ [Call.UpdateAutoScalingGroup change.ID 0 0])
          (Call.CreateOrUpdateTags
            [⟨change.ID, "possum:min_size", String.mk (fmtD change.currentMinSize), false,
              "auto-scaling-group"⟩]) <;> rfl
    · simp only [if_neg hstart, if_neg hstop, issueAll]

theorem performASGChanges_eq_issueAll (client : ASGClient) (changes : List Change) :
    ∀ log, performASGChanges client changes log
      = issueAll client (expectedCallsOf changes) log := by
  induction changes with
  | nil => intro log; rfl
  | cons change rest ih =>
    intro log
    rw [performASGChanges_cons, expectedCallsOf, issueAll_append]
    cases hr : issueAll client (expectedCalls change) log with
    | mk l r =>
      cases r with
      | some err => rfl
      | none => exact ih l

theorem performASGChanges_append (client : ASGClient) (pre post : List Change) :
    ∀ log, performASGChanges client (pre ++ post) log
      = match performASGChanges client pre log with
        | (l, some err) => (l, some err)
        | (l, none) => performASGChanges client post l := by
  induction pre with
  | nil => intro log; rfl
  | cons change rest ih =>
    intro log
    rw [List.cons_append, performASGChanges_cons, performASGChanges_cons]
    cases hr : issueAll client (expectedCalls change) log with
    | mk l r =>
      cases r with
      | some err => rfl
      | none => exact ih l

theorem issueAll_of_no_failure (client : ASGClient) (hok : ∀ log call, client log call = none)
    (calls : List Call) : ∀ log, issueAll client calls log = (log ++ calls, none) := by
  induction calls with
  | nil => intro log; simp [issueAll]
  | cons call rest ih =>
    intro log
    simp only [issueAll, hok, ih]
    simp

/-- C19: when no client call fails, `performASGChanges` returns nil and makes, in
list order, exactly the calls described: for each Start change one
`UpdateAutoScalingGroup` with `MinSize` and `DesiredCapacity` set to the change's
`minSize`; for each Stop change one `UpdateAutoScalingGroup` with both set to 0
and right after it one `CreateOrUpdateTags` writing `possum:min_size` with the
decimal text of `currentMinSize`; and no call for a Noop change. -/
theorem performASGChanges_calls (client : ASGClient) (changes : List Change)
    (hok : ∀ log call, client log call = none) :
    performASGChanges client changes [] = (expectedCallsOf changes, none)
    ∧ (∀ change ∈ changes, change.Action = StartAction →
        expectedCalls change
          = [Call.UpdateAutoScalingGroup change.ID change.minSize change.minSize])
    ∧ (∀ change ∈ changes, change.Action = StopAction →
        expectedCalls change
          = [Call.UpdateAutoScalingGroup change.ID 0 0,
              Call.CreateOrUpdateTags
                [⟨change.ID, "possum:min_size", String.mk (fmtD change.currentMinSize), false,
                  "auto-scaling-group"⟩]]
        ∧ (-(2 : Int) ^ 63 ≤ change.currentMinSize ∧ change.currentMinSize < (2 : Int) ^ 63 →
            DenotesInt (fmtD change.currentMinSize) change.currentMinSize))
    ∧ (∀ change ∈ changes, change.Action = NoopAction → expectedCalls change = []) := by
  refine ⟨?_, ?_, ?_, ?_⟩
  · rw [performASGChanges_eq_issueAll, issueAll_of_no_failure client hok]
    simp
  · intro change _ h
    simp [expectedCalls, h]
  · intro change _ h
    refine ⟨?_, ?_⟩
    · have hne : ¬ change.Action = StartAction := by rw [h]; decide
      unfold expectedCalls
      rw [if_neg hne, if_pos h]
    · intro hr
      exact (Atoi_eq_some_iff _ _).1 (Atoi_fmtD _ hr.1 hr.2)
  · intro change _ h
    have h1 : ¬ change.Action = StartAction := by rw [h]; decide
    have h2 : ¬ change.Action = StopAction := by rw [h]; decide
    simp [expectedCalls, h1, h2]

theorem performASGChanges_calls_witness :
    (∀ log call, reliableClient log call = none)
    ∧ performASGChanges reliableClient
        [⟨"n", "", StopAction, "asg", 1, 0⟩, ⟨"k", "", NoopAction, "asg", 1, 0⟩,
          ⟨"m", "", StartAction, "asg", 1, 0⟩] []
      = ([Call.UpdateAutoScalingGroup "n" 0 0,
          Call.CreateOrUpdateTags [⟨"n", "possum:min_size", "0", false, "auto-scaling-group"⟩],
          Call.UpdateAutoScalingGroup "m" 1 1], none) :=
  ⟨fun _ _ => rfl,
    (performASGChanges_calls reliableClient
      [⟨"n", "", StopAction, "asg", 1, 0⟩, ⟨"k", "", NoopAction, "asg", 1, 0⟩,
        ⟨"m", "", StartAction, "asg", 1, 0⟩] (fun _ _ => rfl)).1⟩

theorem issueAll_result (client : ASGClient) (calls : List Call) :
    ∀ (log l : List Call) (r : Option String), issueAll client calls log = (l, r) →
      (r = none → l = log ++ calls)
      ∧ (∀ err, r = some err →
          ∃ done call rest, calls = done ++ call :: rest ∧ l = log ++ done ++ [call]
            ∧ client (log ++ done) call = some err
            ∧ issueAll client done log = (log ++ done, none)) := by
  induction calls with
  | nil =>
    intro log l r h
    simp only [issueAll, Prod.mk.injEq] at h
    obtain ⟨hl, hr⟩ := h
    refine ⟨fun _ => by simp [hl], ?_⟩
    intro err herr
    rw [← hr] at herr
    cases herr
  | cons call rest ih =>
    intro log l r h
    rw [issueAll] at h
    cases hc : client log call with
    | some e =>
      rw [hc] at h
      simp only [Prod.mk.injEq] at h
      obtain ⟨hl, hr⟩ := h
      refine ⟨fun hn => (by rw [← hr] at hn; cases hn), ?_⟩
      intro err herr
      rw [← hr] at herr
      cases herr
      refine ⟨[], call, rest, rfl, ?_, ?_, ?_⟩
      · rw [← hl]; simp
      · simpa using hc
      · simp [issueAll]
    | none =>
      rw [hc] at h
      obtain ⟨h1, h2⟩ := ih (log ++ [call]) l r h
      refine ⟨fun hn => (by rw [h1 hn]; simp), ?_⟩
      intro err herr
      obtain ⟨done, call2, rest2, hsplit, hl, hfail, hdone⟩ := h2 err herr
      refine ⟨call :: done, call2, rest2, (by rw [hsplit]; rfl), (by rw [hl]; simp), ?_, ?_⟩
      · simpa using hfail
      · rw [issueAll, hc]
        simpa using hdone

/-- C20: for every list of changes and every behaviour of the client,
`performASGChanges` makes the described calls in order until the first one fails,
returns the error of that call and makes no call after it. For a Stop change that
the run reaches, the update to 0 is made; when it fails its error is returned with
no tag write, and when it succeeds the `possum:min_size` tag write is made right
after it. A change after a failed call gets no call. -/
theorem performASGChanges_stops_at_first_failure (client : ASGClient)
    (pre post : List Change) (c : Change) (log : List Call) :
    performASGChanges client (pre ++ c :: post) log
      = issueAll client (expectedCallsOf (pre ++ c :: post)) log
    ∧ (∀ l r, performASGChanges client (pre ++ c :: post) log = (l, r) →
        (r = none → l = log ++ expectedCallsOf (pre ++ c :: post))
        ∧ (∀ err, r = some err →
            ∃ done call rest, expectedCallsOf (pre ++ c :: post) = done ++ call :: rest
              ∧ l = log ++ done ++ [call]
              ∧ client (log ++ done) call = some err
              ∧ issueAll client done log = (log ++ done, none)))
    ∧ (∀ l1 err, performASGChanges client pre log = (l1, some err) →
        performASGChanges client (pre ++ c :: post) log = (l1, some err))
    ∧ (c.Action = StopAction →
        ∀ l1, performASGChanges client pre log = (l1, none) →
          (∀ err, client l1 (Call.UpdateAutoScalingGroup c.ID 0 0) = some err →
            performASGChanges client (pre ++ c :: post) log
              = (l1 ++ [Call.UpdateAutoScalingGroup c.ID 0 0], some err))
          ∧ (client l1 (Call.UpdateAutoScalingGroup c.ID 0 0) = none →
              (∀ err,
                client (l1 ++ [Call.UpdateAutoScalingGroup c.ID 0 0])
                  (Call.CreateOrUpdateTags
                    [⟨c.ID, "possum:min_size", String.mk (fmtD c.currentMinSize), false,
                      "auto-scaling-group"⟩]) = some err →
                performASGChanges client (pre ++ c :: post) log
                  = (l1 ++ [Call.UpdateAutoScalingGroup c.ID 0 0,
                      Call.CreateOrUpdateTags
                        [⟨c.ID, "possum:min_size", String.mk (fmtD c.currentMinSize), false,
                          "auto-scaling-group"⟩]], some err))
              ∧ (client (l1 ++ [Call.UpdateAutoScalingGroup c.ID 0 0])
                  (Call.CreateOrUpdateTags
                    [⟨c.ID, "possum:min_size", String.mk (fmtD c.currentMinSize), false,
                      "auto-scaling-group"⟩]) = none →
                performASGChanges client (pre ++ c :: post) log
                  = performASGChanges client post
                      (l1 ++ [Call.UpdateAutoScalingGroup c.ID 0 0,
                        Call.CreateOrUpdateTags
                          [⟨c.ID, "possum:min_size", String.mk (fmtD c.currentMinSize), false,
                            "auto-scaling-group"⟩]])))) := by
  refine ⟨performASGChanges_eq_issueAll client _ log, ?_, ?_, ?_⟩
  · intro l r h
    rw [performASGChanges_eq_issueAll] at h
    exact issueAll_result client _ log l r h
  · intro l1 err h
    rw [performASGChanges_append, h]
  · intro hstop l1 h
    have hne : ¬ c.Action = StartAction := by rw [hstop]; decide
    have hcalls : expectedCalls c
        = [Call.UpdateAutoScalingGroup c.ID 0 0,
            Call.CreateOrUpdateTags
              [⟨c.ID, "possum:min_size", String.mk (fmtD c.currentMinSize), false,
                "auto-scaling-group"⟩]] := by
      unfold expectedCalls
      rw [if_neg hne, if_pos hstop]
    have hrun : performASGChanges client (pre ++ c :: post) log
        = match issueAll client (expectedCalls c) l1 with
          | (l, some err) => (l, some err)
          | (l, none) => performASGChanges client post l := by
      rw [performASGChanges_append, h]
      exact performASGChanges_cons client c post l1
    rw [hcalls] at hrun
    refine ⟨?_, ?_⟩
    · intro err hu
      rw [hrun]
      simp only [issueAll, hu]
    · intro hu
      refine ⟨?_, ?_⟩
      · intro err ht
        rw [hrun]
        simp only [issueAll, hu, ht, List.append_assoc, List.singleton_append]
      · intro ht
        rw [hrun]
        simp only [issueAll, hu, ht, List.append_assoc, List.singleton_append]

theorem performASGChanges_tag_failure_example :
    performASGChanges tagFailingClient
        [⟨"n", "", StopAction, "asg", 1, 0⟩, ⟨"m", "", StartAction, "asg", 1, 0⟩] []
      = ([Call.UpdateAutoScalingGroup "n" 0 0,
          Call.CreateOrUpdateTags [⟨"n", "possum:min_size", "0", false, "auto-scaling-group"⟩]],
          some "tagging failed") := by
  decide

/-! ## Applying the changes of instances: theorems -/

theorem sortInstanceChanges_eq (list : Changes) :
    ∀ toStart toStop : List String,
      sortInstanceChanges list toStart toStop
        = (toStart ++ idsWithAction StartAction list, toStop ++ idsWithAction StopAction list) := by
  induction list with
  | nil => intro toStart toStop; simp [sortInstanceChanges, idsWithAction]
  | cons a rest ih =>
    intro toStart toStop
    have hss : ¬ StartAction = StopAction := by decide
    have hss2 : ¬ StopAction = StartAction := by decide
    unfold sortInstanceChanges
    by_cases hstart : a.Action = StartAction
    · have hstop : ¬ a.Action = StopAction := by rw [hstart]; decide
      rw [if_pos hstart, ih]
      simp [idsWithAction, List.filter_cons, hstart, hss]
    · by_cases hstop : a.Action = StopAction
      · rw [if_neg hstart, if_pos hstop, ih]
        simp [idsWithAction, List.filter_cons, hstop, hss2]
      · rw [if_neg hstart, if_neg hstop, ih]
        simp [idsWithAction, List.filter_cons, hstart, hstop]

theorem performInstanceChanges_eq (client : EC2Client) (list : Changes) (log : List EC2Call) :
    performInstanceChanges client list log
      = issueInstanceCalls client (idsWithAction StartAction list)
          (idsWithAction StopAction list) log := by
  unfold performInstanceChanges
  rw [sortInstanceChanges_eq]
  simp

theorem idsWithAction_ne_nil_iff (action : ScheduledAction) (list : Changes) :
    idsWithAction action list ≠ [] ↔ ∃ a ∈ list, a.Action = action := by
  unfold idsWithAction
  induction list with
  | nil => simp
  | cons a rest ih =>
    by_cases h : a.Action = action
    · simp [List.filter_cons, h]
    · simp only [List.filter_cons, h, decide_False, Bool.false_eq_true, if_false, ih,
        List.mem_cons, exists_eq_or_imp, false_or]

/-- C21: when no client call fails, `performInstanceChanges` returns nil and makes
at most one `StartInstances` call and at most one `StopInstances` call, the start
call first. The start call is made exactly when the list has a Start change and
carries the ids of all Start changes in list order; the stop call is made exactly
when the list has a Stop change and carries the ids of all Stop changes in list
order; a Noop change is in neither. -/
theorem performInstanceChanges_batches (client : EC2Client) (list : Changes)
    (hok : ∀ log call, client log call = none) :
    performInstanceChanges client list []
      = ((if idsWithAction StartAction list = [] then []
            else [EC2Call.StartInstances (idsWithAction StartAction list)])
          ++ (if idsWithAction StopAction list = [] then []
            else [EC2Call.StopInstances (idsWithAction StopAction list)]), none)
    ∧ (idsWithAction StartAction list ≠ [] ↔ ∃ a ∈ list, a.Action = StartAction)
    ∧ (idsWithAction StopAction list ≠ [] ↔ ∃ a ∈ list, a.Action = StopAction)
    ∧ idsWithAction StartAction list
        = (list.filter (fun a => decide (a.Action = StartAction))).map (fun a => a.ID)
    ∧ idsWithAction StopAction list
        = (list.filter (fun a => decide (a.Action = StopAction))).map (fun a => a.ID) := by
  refine ⟨?_, idsWithAction_ne_nil_iff _ _, idsWithAction_ne_nil_iff _ _, rfl, rfl⟩
  rw [performInstanceChanges_eq]
  unfold issueInstanceCalls
  by_cases hs : idsWithAction StartAction list = []
  · by_cases ht : idsWithAction StopAction list = []
    · simp [hs, ht]
    · have hlen : 0 < (idsWithAction StopAction list).length := List.length_pos.mpr ht
      simp [hs, ht, hlen, hok]
  · have hlens : 0 < (idsWithAction StartAction list).length := List.length_pos.mpr hs
    by_cases ht : idsWithAction StopAction list = []
    · simp [hs, ht, hlens, hok]
    · have hlen : 0 < (idsWithAction StopAction list).length := List.length_pos.mpr ht
      simp [hs, ht, hlens, hlen, hok]

theorem performInstanceChanges_batches_witness :
    (∀ log call, reliableEC2 log call = none)
    ∧ performInstanceChanges reliableEC2 testInstanceChanges []
      = ([EC2Call.StartInstances ["i-2", "i-4", "i-5"], EC2Call.StopInstances ["i-1", "i-3"]],
          none) :=
  ⟨fun _ _ => rfl,
    (performInstanceChanges_batches reliableEC2 testInstanceChanges (fun _ _ => rfl)).1⟩

/-- C22, on the code: an error of the `StartInstances` call is lost when a
`StopInstances` call follows and succeeds, because the stop call assigns the same
`err` again. With the changes of `TestChangeInstanceState` and a client whose
start call fails, both calls are made, the start call answers with an error, and
`performInstanceChanges` returns nil. -/
theorem performInstanceChanges_loses_start_error :
    startFailingEC2 [] (EC2Call.StartInstances ["i-2", "i-4", "i-5"]) = some "start failed"
    ∧ performInstanceChanges startFailingEC2 testInstanceChanges []
      = ([EC2Call.StartInstances ["i-2", "i-4", "i-5"], EC2Call.StopInstances ["i-1", "i-3"]],
          none) := by
  refine ⟨rfl, by decide⟩

/-! ## The Lambda handler: theorems -/

/-- C23 as stated fails: when the instance adapter fails, `perRegion` returns at
once. The autoscaling and database adapters are not called, and the changes that
the autoscaling adapter would return without failing are not in the result. -/
theorem perRegion_returns_at_first_failure :
    perRegion ([], some "ec2 down") ([⟨"g", "g", StartAction, "asg", 1, 0⟩], none)
        ([⟨"d", "d", StopAction, "rds", 0, 0⟩], none)
      = ([Adapter.instances], [], some "ec2 down")
    ∧ Adapter.autoscaling ∉
        (perRegion ([], some "ec2 down") ([⟨"g", "g", StartAction, "asg", 1, 0⟩], none)
          ([⟨"d", "d", StopAction, "rds", 0, 0⟩], none)).1
    ∧ (⟨"g", "g", StartAction, "asg", 1, 0⟩ : Change) ∉
        (perRegion ([], some "ec2 down") ([⟨"g", "g", StartAction, "asg", 1, 0⟩], none)
          ([⟨"d", "d", StopAction, "rds", 0, 0⟩], none)).2.1 := by
  refine ⟨by decide, by decide, by decide⟩

/-- C23, amended: `perRegion` calls the adapters in the order instance,
autoscaling, database and stops at the first one that fails. The adapters after
it are not called; the returned changes are those returned by the adapters that
were called, the failing one included, in that order; the returned error is the
one of the failing adapter, and nil when none fails. -/
theorem perRegion_runs_until_first_failure
    (doInstances doAutoScalingGroups doDB : Changes × Option String) :
    perRegion doInstances doAutoScalingGroups doDB
      = if doInstances.2 ≠ none then ([Adapter.instances], doInstances.1, doInstances.2)
        else if doAutoScalingGroups.2 ≠ none then
          ([Adapter.instances, Adapter.autoscaling],
            doInstances.1 ++ doAutoScalingGroups.1, doAutoScalingGroups.2)
        else
          ([Adapter.instances, Adapter.autoscaling, Adapter.database],
            doInstances.1 ++ doAutoScalingGroups.1 ++ doDB.1, doDB.2) := by
  obtain ⟨c1, e1⟩ := doInstances
  obtain ⟨c2, e2⟩ := doAutoScalingGroups
  obtain ⟨c3, e3⟩ := doDB
  cases e1 <;> cases e2 <;> cases e3 <;> simp [perRegion, Changes.Append]

theorem mapLookup_mapInsert (m : RegionalChanges) (k r : String) (v : Changes) :
    mapLookup (mapInsert m k v) r = if k = r then some v else mapLookup m r := by
  induction m with
  | nil => simp [mapInsert, mapLookup]
  | cons entry rest ih =>
    obtain ⟨k1, v1⟩ := entry
    unfold mapInsert
    by_cases h1 : k1 = k
    · rw [if_pos h1]
      subst h1
      by_cases h2 : k1 = r
      · simp [mapLookup, h2]
      · simp [mapLookup, h2]
    · rw [if_neg h1]
      by_cases h2 : k1 = r
      · have h3 : ¬ k = r := fun e => h1 (h2.trans e.symm)
        simp [mapLookup, h2, h3]
      · simp only [mapLookup, h2, if_false, ih]

theorem collectRegions_lookup (run : String → Changes × Option String) (order : List String) :
    ∀ (errs : List String) (m : RegionalChanges) (r : String),
      mapLookup (collectRegions run order errs m).2 r
        = if r ∈ order ∧ (run r).1 ≠ [] then some (run r).1 else mapLookup m r := by
  induction order with
  | nil => intro errs m r; simp [collectRegions]
  | cons x rest ih =>
    intro errs m r
    unfold collectRegions
    rw [ih]
    by_cases hx : (run x).1.length > 0
    · have hxne : (run x).1 ≠ [] := List.length_pos.mp hx
      rw [if_pos hx, mapLookup_mapInsert]
      by_cases hr : r ∈ rest ∧ (run r).1 ≠ []
      · have hr2 : r ∈ x :: rest ∧ (run r).1 ≠ [] := ⟨List.mem_cons_of_mem _ hr.1, hr.2⟩
        rw [if_pos hr, if_pos hr2]
      · rw [if_neg hr]
        by_cases hxr : x = r
        · subst hxr
          rw [if_pos rfl, if_pos ⟨List.mem_cons_self _ _, hxne⟩]
        · have hr2 : ¬ (r ∈ x :: rest ∧ (run r).1 ≠ []) := by
            rintro ⟨hmem, hne⟩
            rcases List.mem_cons.1 hmem with hmem | hmem
            · exact hxr hmem.symm
            · exact hr ⟨hmem, hne⟩
          rw [if_neg hxr, if_neg hr2]
    · have hxnil : (run x).1 = [] := by
        cases hc : (run x).1 with
        | nil => rfl
        | cons a l => rw [hc] at hx; simp at hx
      rw [if_neg hx]
      by_cases hr : r ∈ rest ∧ (run r).1 ≠ []
      · have hr2 : r ∈ x :: rest ∧ (run r).1 ≠ [] := ⟨List.mem_cons_of_mem _ hr.1, hr.2⟩
        rw [if_pos hr, if_pos hr2]
      · have hr2 : ¬ (r ∈ x :: rest ∧ (run r).1 ≠ []) := by
          rintro ⟨hmem, hne⟩
          rcases List.mem_cons.1 hmem with hmem | hmem
          · rw [hmem] at hne; exact hne hxnil
          · exact hr ⟨hmem, hne⟩
        rw [if_neg hr, if_neg hr2]

theorem Handler_report (tableName : String) (schedules : Schedules) (regions : List String)
    (run : String → Changes × Option String) (order : List String)
    (notify : String → Option String) (htable : tableName ≠ "") (hsched : schedules ≠ []) :
    (Handler tableName (schedules, none) (regions, none) run order notify).1
      = some (collectRegions run order [] []).2 := by
  have hlen : ¬ schedules.length = 0 := fun h => hsched (List.length_eq_zero.mp h)
  unfold Handler
  rw [if_neg htable]
  simp only [if_neg hlen]
  split_ifs with hn
  · cases notify (buildNotification (collectRegions run order [] []).2) <;> rfl
  · rfl

/-- C24: whenever `Handler` gets as far as running the regions, the report it
returns maps each region whose run returned a non-empty list of changes to exactly
that list, and holds no other region, whatever errors the runs returned, in
whatever order the goroutines finish and whether or not the notification fails. -/
theorem Handler_report_has_every_nonempty_region (tableName : String) (schedules : Schedules)
    (regions : List String) (run : String → Changes × Option String) (order : List String)
    (notify : String → Option String) (htable : tableName ≠ "") (hsched : schedules ≠ [])
    (horder : order.Perm regions) :
    ∃ report,
      (Handler tableName (schedules, none) (regions, none) run order notify).1 = some report
      ∧ ∀ (r : String) (changes : Changes),
          mapLookup report r = some changes
            ↔ (r ∈ regions ∧ (run r).1 = changes ∧ changes ≠ []) := by
  refine ⟨_, Handler_report tableName schedules regions run order notify htable hsched, ?_⟩
  intro r changes
  rw [collectRegions_lookup]
  by_cases h : r ∈ order ∧ (run r).1 ≠ []
  · rw [if_pos h]
    constructor
    · intro hc
      have hc2 : (run r).1 = changes := Option.some.inj hc
      exact ⟨horder.mem_iff.1 h.1, hc2, by rw [← hc2]; exact h.2⟩
    · rintro ⟨_, hc, _⟩
      rw [hc]
  · rw [if_neg h]
    constructor
    · intro hc
      simp [mapLookup] at hc
    · rintro ⟨hmem, hc, hne⟩
      exact absurd ⟨horder.mem_iff.2 hmem, by rw [hc]; exact hne⟩ h

theorem Handler_report_has_every_nonempty_region_witness :
    ("possum" ≠ "" ∧ alwaysSchedules ≠ []
      ∧ List.Perm ["us-east-1", "eu-west-1", "ap-southeast-2"]
          ["ap-southeast-2", "eu-west-1", "us-east-1"])
    ∧ ∃ report,
      (Handler "possum" (alwaysSchedules, none)
        (["ap-southeast-2", "eu-west-1", "us-east-1"], none)
        (fun r => if r = "eu-west-1" then ([⟨"i-1", "web", StopAction, "instance", 0, 0⟩],
            some "rds: request failed")
          else if r = "us-east-1" then ([], some "ec2: request failed") else ([], none))
        ["us-east-1", "eu-west-1", "ap-southeast-2"] (fun _ => none)).1 = some report
      ∧ ∀ (r : String) (changes : Changes),
          mapLookup report r = some changes
            ↔ (r ∈ ["ap-southeast-2", "eu-west-1", "us-east-1"]
              ∧ ((fun r => if r = "eu-west-1" then
                    ([⟨"i-1", "web", StopAction, "instance", 0, 0⟩], some "rds: request failed")
                  else if r = "us-east-1" then ([], some "ec2: request failed")
                  else (([], none) : Changes × Option String)) r).1 = changes
              ∧ changes ≠ []) :=
  ⟨⟨by decide, List.cons_ne_nil _ _, by decide⟩,
    Handler_report_has_every_nonempty_region "possum" alwaysSchedules
      ["ap-southeast-2", "eu-west-1", "us-east-1"]
      (fun r => if r = "eu-west-1" then ([⟨"i-1", "web", StopAction, "instance", 0, 0⟩],
          some "rds: request failed")
        else if r = "us-east-1" then ([], some "ec2: request failed") else ([], none))
      ["us-east-1", "eu-west-1", "ap-southeast-2"] (fun _ => none)
      (by decide) (List.cons_ne_nil _ _) (by decide)⟩

/-- C25, on the code: `outputErr` is declared and returned but never assigned, so
the errors of the regions are only printed. With one region whose run returns an
error and no changes, no notification is sent and `Handler` returns the empty
report with a nil error. -/
theorem Handler_drops_region_errors :
    (collectRegions (fun _ => (([] : Changes), some "ec2: request failed")) ["ap-southeast-2"]
        [] []).1 = ["ec2: request failed"]
    ∧ Handler "possum" (alwaysSchedules, none) (["ap-southeast-2"], none)
        (fun _ => ([], some "ec2: request failed")) ["ap-southeast-2"] (fun _ => none)
      = (some [], none) := by
  refine ⟨by decide, by decide⟩

/-! ## The store: theorems -/

/-- C26, on the code: `GetSchedules` reads `res.Item["content"].S` before it tests
for nil. When the item has no "content" attribute the map gives the nil pointer
and reading `.S` through it panics; the test `content == nil` is reached only when
the attribute is there without a string value. -/
theorem GetSchedules_panics_without_content
    (parseJSON : String → Except String JSON)
    (LoadLocation : String → Except String Location) :
    itemLookup [] "content" = none
    ∧ GetSchedules ([], none) parseJSON LoadLocation = none
    ∧ GetSchedules ([("id", ⟨some "schedules"⟩)], none) parseJSON LoadLocation = none
    ∧ GetSchedules ([("content", ⟨none⟩)], none) parseJSON LoadLocation = some ([], none) := by
  refine ⟨rfl, rfl, rfl, rfl⟩

/-! ## The goroutines of `Handler`: theorems -/

/-- C27, on the code: the insert into the map is between `x.Lock()` and
`x.Unlock()`, the insert into `errs` is not. With two regions whose runs both
return an error, both goroutines can be in the middle of `errs = append(errs, err)`
at the same time, nobody holding the mutex, and when both have finished `errs`
holds one error instead of two. A goroutine that asks for the mutex while the
other holds it cannot go on. -/
theorem errs_append_is_not_exclusive :
    (runSchedule [0, 1] (startUnits twoFailingRuns)).map
        (fun st => (st.units.map insideErrsInsert, st.holder)) = some ([true, true], none)
    ∧ (runSchedule [0, 1, 0, 1] (startUnits twoFailingRuns)).map (fun st => st.errs)
        = some ["ec2: request failed"]
    ∧ (runSchedule [0, 0, 1, 1] (startUnits twoFailingRuns)).map (fun st => st.errs)
        = some ["rds: request failed", "ec2: request failed"]
    ∧ (runSchedule [0, 0, 1, 1, 0] (startUnits twoFailingRuns)).map
        (fun st => (st.units.map insideMapInsert, st.holder)) = some ([true, false], some 0)
    ∧ runSchedule [0, 0, 1, 1, 0, 1] (startUnits twoFailingRuns) = none := by
  refine ⟨by decide, by decide, by decide, by decide, by decide⟩

/-! ## The lists of an unmarshalled schedule -/

/-- C28 as stated fails: a document with one period and no "Locations" is accepted
by `Schedule.UnmarshalJSON`; the schedule has one period and no location, and
`Action` on it indexes `Locations` out of range. The same holds when the keys are
written in small letters, which the decoder of a struct takes as well. -/
theorem UnmarshalJSON_accepts_unequal_lists :
    ((Schedule.UnmarshalJSON twoZones ⟨"", [], []⟩ periodsOnlyDocument).2 = none
      ∧ (Schedule.UnmarshalJSON twoZones ⟨"", [], []⟩ periodsOnlyDocument).1.Periods
          = [some ⟨⟨8, 0⟩, ⟨18, 0⟩, []⟩]
      ∧ (Schedule.UnmarshalJSON twoZones ⟨"", [], []⟩ periodsOnlyDocument).1.Periods.length = 1
      ∧ (Schedule.UnmarshalJSON twoZones ⟨"", [], []⟩ periodsOnlyDocument).1.Locations.length
          = 0
      ∧ (Schedule.UnmarshalJSON twoZones ⟨"", [], []⟩ periodsOnlyDocument).1.Action chkTime
          false = none)
    ∧ ((Schedule.UnmarshalJSON twoZones ⟨"", [], []⟩ smallLettersDocument).2 = none
      ∧ (Schedule.UnmarshalJSON twoZones ⟨"", [], []⟩ smallLettersDocument).1.Name = "x"
      ∧ (Schedule.UnmarshalJSON twoZones ⟨"", [], []⟩ smallLettersDocument).1.Periods
          = [some ⟨⟨8, 0⟩, ⟨18, 0⟩, []⟩]
      ∧ (Schedule.UnmarshalJSON twoZones ⟨"", [], []⟩ smallLettersDocument).1.Locations.length
          = 0
      ∧ (Schedule.UnmarshalJSON twoZones ⟨"", [], []⟩ smallLettersDocument).1.Action chkTime
          false = none) := by
  refine ⟨⟨by decide, by decide, by decide, by decide, by decide⟩,
    ⟨by decide, by decide, by decide, by decide, by decide⟩⟩

theorem decodePeriodItems_cons_of_not_null (item : JSON) (items : List JSON)
    (h : item.isNull = false) :
    decodePeriodItems (item :: items)
      = match Period.UnmarshalJSON item with
        | .error err => .error err
        | .ok p =>
          match decodePeriodItems items with
          | .error err => .error err
          | .ok rest => .ok (some p :: rest) := by
  cases item with
  | null => simp [JSON.isNull] at h
  | bool x => rfl
  | number x => rfl
  | str x => rfl
  | arr x => rfl
  | obj x => rfl

/-- An array that decodes into a `[]*Period` gives one entry for each element, and
a nil entry exactly for the `null` elements. -/
theorem decodePeriodItems_spec (items : List JSON) :
    ∀ ps : List (Option Period), decodePeriodItems items = .ok ps →
      ps.length = items.length ∧ (none ∈ ps ↔ items.any JSON.isNull = true) := by
  induction items with
  | nil =>
    intro ps h
    simp only [decodePeriodItems, Except.ok.injEq] at h
    rw [← h]
    simp
  | cons item items ih =>
    intro ps h
    cases hnull : item.isNull with
    | true =>
      have hitem : item = .null := by
        cases item <;> first | rfl | (simp [JSON.isNull] at hnull)
      subst hitem
      simp only [decodePeriodItems] at h
      cases hr : decodePeriodItems items with
      | error e => rw [hr] at h; cases h
      | ok rest =>
        rw [hr] at h
        simp only [Except.ok.injEq] at h
        rw [← h]
        obtain ⟨hlen, _⟩ := ih rest hr
        simp [hlen, JSON.isNull]
    | false =>
      rw [decodePeriodItems_cons_of_not_null item items hnull] at h
      cases hp : Period.UnmarshalJSON item with
      | error e => rw [hp] at h; cases h
      | ok p =>
        rw [hp] at h
        simp only [] at h
        cases hr : decodePeriodItems items with
        | error e => rw [hr] at h; cases h
        | ok rest =>
          rw [hr] at h
          simp only [Except.ok.injEq] at h
          rw [← h]
          obtain ⟨hlen, hnone⟩ := ih rest hr
          refine ⟨by simp [hlen], ?_⟩
          simp only [List.mem_cons, List.any_cons, hnull, Bool.false_or]
          constructor
          · rintro (h1 | h1)
            · cases h1
            · exact hnone.1 h1
          · intro h1
            exact Or.inr (hnone.2 h1)

theorem decodePeriods_spec (v : JSON) (ps : List (Option Period))
    (h : decodePeriods v = .ok ps) :
    (v = .null ∧ ps = [])
    ∨ ∃ items, v = .arr items ∧ ps.length = items.length
        ∧ (none ∈ ps ↔ items.any JSON.isNull = true) := by
  cases v with
  | null =>
    simp only [decodePeriods, Except.ok.injEq] at h
    exact Or.inl ⟨rfl, h.symm⟩
  | arr items =>
    obtain ⟨hlen, hnone⟩ := decodePeriodItems_spec items ps h
    exact Or.inr ⟨items, rfl, hlen, hnone⟩
  | bool x => simp [decodePeriods] at h
  | number x => simp [decodePeriods] at h
  | str x => simp [decodePeriods] at h
  | obj x => simp [decodePeriods] at h

theorem matchesField_Name_not_Periods (key : String) (h : matchesField key "Name" = true) :
    matchesField key "Periods" = false := by
  unfold matchesField at *
  simp only [decide_eq_true_eq, decide_eq_false_iff_not] at *
  rw [h]
  decide

/-- The periods that the members of an object leave in the struct `tmp`: those of
the last member taken for the field `Periods`, and what was there when there is
none. -/
theorem decodeTmpMembers_periods (members : List (String × JSON)) :
    ∀ (name name' : String) (periods periods' : List (Option Period)),
      decodeTmpMembers members (name, periods) = .ok (name', periods') →
        match JSON.member "Periods" members with
        | none => periods' = periods
        | some v => decodePeriods v = .ok periods' := by
  induction members with
  | nil =>
    intro name name' periods periods' h
    simp only [decodeTmpMembers, Except.ok.injEq, Prod.mk.injEq] at h
    simp only [JSON.member]
    exact h.2.symm
  | cons member rest ih =>
    obtain ⟨key, value⟩ := member
    intro name name' periods periods' h
    unfold decodeTmpMembers at h
    simp only [JSON.member]
    by_cases hname : matchesField key "Name" = true
    · have hper := matchesField_Name_not_Periods key hname
      rw [if_pos hname] at h
      cases hs : decodeString name value with
      | error e => rw [hs] at h; cases h
      | ok s =>
        rw [hs] at h
        have hrest := ih s name' periods periods' h
        cases hm : JSON.member "Periods" rest with
        | none =>
          rw [hm] at hrest
          simp only [hper, Bool.false_eq_true, if_false]
          exact hrest
        | some w =>
          rw [hm] at hrest
          exact hrest
    · rw [if_neg hname] at h
      by_cases hper : matchesField key "Periods" = true
      · rw [if_pos hper] at h
        cases hp : decodePeriods value with
        | error e => rw [hp] at h; cases h
        | ok ps =>
          rw [hp] at h
          have hrest := ih name name' ps periods' h
          cases hm : JSON.member "Periods" rest with
          | none =>
            rw [hm] at hrest
            simp only [hper, if_true]
            rw [hrest]
            exact hp
          | some w =>
            rw [hm] at hrest
            exact hrest
      · rw [if_neg hper] at h
        have hrest := ih name name' periods periods' h
        cases hm : JSON.member "Periods" rest with
        | none =>
          rw [hm] at hrest
          simp only [hper, if_false]
          exact hrest
        | some w =>
          rw [hm] at hrest
          exact hrest

/-- The periods of an accepted document: one entry for each entry that the document
gives for the periods, nil exactly for the `null` ones. -/
theorem decodeScheduleTmp_spec (b : JSON) (name : String) (periods : List (Option Period))
    (h : decodeScheduleTmp b = .ok (name, periods)) :
    periods.length = periodEntries b
    ∧ (none ∈ periods ↔ hasNullPeriodEntry b = true) := by
  cases b with
  | null =>
    simp only [decodeScheduleTmp, Except.ok.injEq, Prod.mk.injEq] at h
    rw [← h.2]
    simp [periodEntries, hasNullPeriodEntry]
  | obj members =>
    simp only [decodeScheduleTmp] at h
    have hper := decodeTmpMembers_periods members "" name [] periods h
    simp only [periodEntries, hasNullPeriodEntry]
    cases hm : JSON.member "Periods" members with
    | none =>
      rw [hm] at hper
      simp only [] at hper
      rw [hper]
      simp
    | some v =>
      rw [hm] at hper
      rcases decodePeriods_spec v periods hper with ⟨hv, hps⟩ | ⟨items, hv, hlen, hnone⟩
      · rw [hv, hps]
        simp
      · rw [hv]
        exact ⟨hlen, hnone⟩
  | bool x => simp [decodeScheduleTmp] at h
  | number x => simp [decodeScheduleTmp] at h
  | str x => simp [decodeScheduleTmp] at h
  | arr x => simp [decodeScheduleTmp] at h

theorem loadLocationsLoop_length (LoadLocation : String → Except String Location)
    (items : List JSON) :
    ∀ (acc locs : List Location),
      loadLocationsLoop LoadLocation items acc = (locs, none) →
        locs.length = acc.length + countStrings items := by
  induction items with
  | nil =>
    intro acc locs h
    simp only [loadLocationsLoop, Prod.mk.injEq, and_true] at h
    rw [← h]
    rfl
  | cons item items ih =>
    intro acc locs h
    cases item with
    | str name =>
      unfold loadLocationsLoop at h
      cases hl : LoadLocation name with
      | error e =>
        rw [hl] at h
        simp at h
      | ok loc =>
        rw [hl] at h
        have := ih (acc ++ [loc]) locs h
        rw [this, List.length_append]
        simp only [List.length_singleton, countStrings]
        omega
    | null => exact ih acc locs (by simpa [loadLocationsLoop] using h)
    | bool b => exact ih acc locs (by simpa [loadLocationsLoop] using h)
    | number n => exact ih acc locs (by simpa [loadLocationsLoop] using h)
    | arr n => exact ih acc locs (by simpa [loadLocationsLoop] using h)
    | obj n => exact ih acc locs (by simpa [loadLocationsLoop] using h)

/-- What an accepted document leaves in a fresh schedule: the periods of the struct
`tmp`, and one location for each string entry under "Locations". -/
theorem UnmarshalJSON_accepted (LoadLocation : String → Except String Location)
    (b : JSON) (s : DecodedSchedule)
    (haccept : Schedule.UnmarshalJSON LoadLocation ⟨"", [], []⟩ b = (s, none)) :
    decodeScheduleTmp b = .ok (s.Name, s.Periods)
    ∧ s.Locations.length = locationEntries b := by
  unfold Schedule.UnmarshalJSON at haccept
  cases htmp : decodeScheduleTmp b with
  | error e =>
    rw [htmp] at haccept
    simp at haccept
  | ok np =>
    obtain ⟨name, periods⟩ := np
    rw [htmp] at haccept
    simp only [] at haccept
    split_ifs at haccept with hfloat
    · simp at haccept
    cases b with
    | obj fields =>
      simp only [] at haccept
      cases hl : JSON.lookup "Locations" fields with
      | none =>
        rw [hl] at haccept
        simp only [Prod.mk.injEq, and_true] at haccept
        rw [← haccept]
        exact ⟨rfl, by simp [locationEntries, hl]⟩
      | some doc =>
        rw [hl] at haccept
        cases doc with
        | arr locations =>
          simp only [Prod.mk.injEq] at haccept
          obtain ⟨hs, herr⟩ := haccept
          have hloop : loadLocationsLoop LoadLocation locations []
              = ((loadLocationsLoop LoadLocation locations []).1, none) := by
            rw [← herr]
          have hlen := loadLocationsLoop_length LoadLocation locations [] _ hloop
          rw [← hs]
          refine ⟨rfl, ?_⟩
          simp only [locationEntries, hl]
          simpa using hlen
        | null =>
          simp only [Prod.mk.injEq, and_true] at haccept
          rw [← haccept]
          exact ⟨rfl, by simp [locationEntries, hl]⟩
        | bool x =>
          simp only [Prod.mk.injEq, and_true] at haccept
          rw [← haccept]
          exact ⟨rfl, by simp [locationEntries, hl]⟩
        | number x =>
          simp only [Prod.mk.injEq, and_true] at haccept
          rw [← haccept]
          exact ⟨rfl, by simp [locationEntries, hl]⟩
        | str x =>
          simp only [Prod.mk.injEq, and_true] at haccept
          rw [← haccept]
          exact ⟨rfl, by simp [locationEntries, hl]⟩
        | obj x =>
          simp only [Prod.mk.injEq, and_true] at haccept
          rw [← haccept]
          exact ⟨rfl, by simp [locationEntries, hl]⟩
    | null =>
      simp only [Prod.mk.injEq, and_true] at haccept
      rw [← haccept]
      exact ⟨rfl, rfl⟩
    | bool x => simp [decodeScheduleTmp] at htmp
    | number x => simp [decodeScheduleTmp] at htmp
    | str x => simp [decodeScheduleTmp] at htmp
    | arr x => simp [decodeScheduleTmp] at htmp

/-- With a location for every period that is left, the loop of `Action` fails only
on a nil period. -/
theorem decodedActionLoop_none (locations : List Location) (t : Time) (isRunning : Bool)
    (periods : List (Option Period)) :
    ∀ i : Nat, i + periods.length ≤ locations.length →
      decodedActionLoop locations t isRunning i periods = none → none ∈ periods := by
  induction periods with
  | nil =>
    intro i _ h
    simp [decodedActionLoop] at h
  | cons entry rest ih =>
    intro i hlen h
    simp only [List.length_cons] at hlen
    have hi : i < locations.length := by omega
    unfold decodedActionLoop at h
    rw [List.getElem?_eq_getElem hi] at h
    cases entry with
    | none => exact List.mem_cons_self _ _
    | some rule =>
      simp only [] at h
      split_ifs at h
      exact List.mem_cons_of_mem _ (ih (i + 1) (by omega) h)

theorem exists_map_some_of_no_none (periods : List (Option Period))
    (h : none ∉ periods) : ∃ ps : List Period, periods = ps.map some := by
  induction periods with
  | nil => exact ⟨[], rfl⟩
  | cons entry rest ih =>
    obtain ⟨ps, hps⟩ := ih (fun hmem => h (List.mem_cons_of_mem _ hmem))
    cases entry with
    | none => exact absurd (List.mem_cons_self _ _) h
    | some p => exact ⟨p :: ps, by rw [hps]; rfl⟩

/-- C28, amended: for every document that `Schedule.UnmarshalJSON` accepts when
decoding into a fresh schedule, the schedule has one entry of `Periods` for each
entry that the document gives for the periods (the array of the last member whose
key is "Periods" in any letter case; a `null` entry gives a nil period) and one
location for each string entry under the key "Locations" (none when the key is
missing or not an array). It has as many locations as periods exactly when these
two counts agree, which the decoder does not check. When they agree `Action`
never indexes `Locations` out of range: it fails only on a nil period, and when no
entry is `null` the result is a schedule without nil periods on which `Action`
returns for every instant and every running state. -/
theorem UnmarshalJSON_list_lengths (LoadLocation : String → Except String Location)
    (b : JSON) (s : DecodedSchedule)
    (haccept : Schedule.UnmarshalJSON LoadLocation ⟨"", [], []⟩ b = (s, none)) :
    s.Periods.length = periodEntries b
    ∧ s.Locations.length = locationEntries b
    ∧ (s.Locations.length = s.Periods.length ↔ locationEntries b = periodEntries b)
    ∧ (none ∈ s.Periods ↔ hasNullPeriodEntry b = true)
    ∧ (locationEntries b = periodEntries b →
        ∀ (t : Time) (isRunning : Bool), s.Action t isRunning = none → none ∈ s.Periods)
    ∧ (locationEntries b = periodEntries b → hasNullPeriodEntry b = false →
        ∃ sched : Schedule, s = sched.decoded
          ∧ ∀ (t : Time) (isRunning : Bool), ∃ act,
              s.Action t isRunning = some act ∧ sched.Action t isRunning = some act) := by
  obtain ⟨htmp, hl⟩ := UnmarshalJSON_accepted LoadLocation b s haccept
  obtain ⟨hp, hnull⟩ := decodeScheduleTmp_spec b s.Name s.Periods htmp
  refine ⟨hp, hl, by rw [hp, hl], hnull, ?_, ?_⟩
  · intro heq t isRunning hnone
    exact decodedActionLoop_none s.Locations t isRunning s.Periods 0
      (by rw [hp, hl, heq]; omega) hnone
  · intro heq hno
    have hnot : none ∉ s.Periods := by
      intro hmem
      rw [hnull.1 hmem] at hno
      cases hno
    obtain ⟨ps, hps⟩ := exists_map_some_of_no_none s.Periods hnot
    have hlen : s.Locations.length = ps.length := by
      have h1 : s.Periods.length = ps.length := by rw [hps, List.length_map]
      rw [hl, heq, ← hp, h1]
    refine ⟨⟨s.Name, s.Locations, ps⟩, ?_, ?_⟩
    · cases s
      simp only [Schedule.decoded] at hps ⊢
      rw [hps]
    · intro t isRunning
      obtain ⟨act, hact⟩ := Action_isSome_of_parallel ⟨s.Name, s.Locations, ps⟩ t isRunning hlen
      refine ⟨act, ?_, hact⟩
      rw [← hact, ← decoded_Action]
      cases s
      simp only [Schedule.decoded] at hps ⊢
      rw [hps]

theorem UnmarshalJSON_list_lengths_witness :
    Schedule.UnmarshalJSON twoZones ⟨"", [], []⟩ twoRuleSchedule.MarshalJSON
      = (twoRuleSchedule.decoded, none)
    ∧ twoRuleSchedule.decoded.Periods.length = periodEntries twoRuleSchedule.MarshalJSON
    ∧ twoRuleSchedule.decoded.Locations.length = locationEntries twoRuleSchedule.MarshalJSON
    ∧ periodEntries twoRuleSchedule.MarshalJSON = 2
    ∧ locationEntries twoRuleSchedule.MarshalJSON = 2
    ∧ (Schedule.UnmarshalJSON twoZones ⟨"", [], []⟩ nullPeriodDocument).2 = none
    ∧ (Schedule.UnmarshalJSON twoZones ⟨"", [], []⟩ nullPeriodDocument).1.Periods
        = [none, some ⟨⟨8, 0⟩, ⟨18, 0⟩, []⟩]
    ∧ periodEntries nullPeriodDocument = 2
    ∧ locationEntries nullPeriodDocument = 2
    ∧ hasNullPeriodEntry nullPeriodDocument = true
    ∧ (Schedule.UnmarshalJSON twoZones ⟨"", [], []⟩ nullPeriodDocument).1.Action chkTime
        false = none :=
  ⟨rfl,
    (UnmarshalJSON_list_lengths twoZones twoRuleSchedule.MarshalJSON twoRuleSchedule.decoded
      rfl).1,
    (UnmarshalJSON_list_lengths twoZones twoRuleSchedule.MarshalJSON twoRuleSchedule.decoded
      rfl).2.1,
    by decide, by decide, by decide, by decide, by decide, by decide, by decide, by decide⟩

/-! ## Tags -/

theorem find_eq_none_of_no_key (tags : List Tag) (key : String)
    (h : ∀ tag ∈ tags, tag.Key ≠ key) :
    tags.find? (fun tag => decide (tag.Key = key)) = none := by
  rw [List.find?_eq_none]
  intro tag htag
  simpa using h tag htag

/-- C29: for every tag list, key and default, `getASGTagInt64` returns the value of
the first tag with that key when that value is a base-10 integer that fits 64 bits
(0 included), and the default when no tag has the key or when that value is not
such an integer. -/
theorem getASGTagInt64_first_tag_or_default (tags : List Tag) (tagKey : String)
    (defaultVal : Int) :
    (∀ (tag : Tag) (n : Int),
        tags.find? (fun tag => decide (tag.Key = tagKey)) = some tag →
        DenotesInt tag.Value.toList n → getASGTagInt64 tags tagKey defaultVal = n)
    ∧ ((∀ tag ∈ tags, tag.Key ≠ tagKey) → getASGTagInt64 tags tagKey defaultVal = defaultVal)
    ∧ (∀ tag : Tag,
        tags.find? (fun tag => decide (tag.Key = tagKey)) = some tag →
        (¬ ∃ n, DenotesInt tag.Value.toList n) →
        getASGTagInt64 tags tagKey defaultVal = defaultVal)
    ∧ getASGTagInt64 [⟨"valid", "2"⟩] "valid" 99 = 2
    ∧ getASGTagInt64 [⟨"valid", "0"⟩] "valid" 99 = 0
    ∧ getASGTagInt64 [⟨"valid", "2"⟩] "no_key" 99 = 99
    ∧ getASGTagInt64 [⟨"valid", "not_int"⟩] "valid" 99 = 99 := by
  refine ⟨?_, ?_, ?_, by decide, by decide, by decide, by decide⟩
  · intro tag n hfind hn
    unfold getASGTagInt64
    rw [getASGTagValue_eq_find, hfind]
    have hparse : ParseInt tag.Value.toList = some n := (Atoi_eq_some_iff _ _).2 hn
    simp only [Option.map_some', hparse]
  · intro hno
    unfold getASGTagInt64
    rw [getASGTagValue_eq_find, find_eq_none_of_no_key tags tagKey hno]
    rfl
  · intro tag hfind hn
    unfold getASGTagInt64
    rw [getASGTagValue_eq_find, hfind]
    have hparse : ParseInt tag.Value.toList = none := (Atoi_eq_none_iff _).2 hn
    simp only [Option.map_some', hparse]

/-! ## Discovery of instances: theorems -/

theorem getEC2TagValue_eq_find (tags : List Tag) (keyName : String) :
    getEC2TagValue tags keyName
      = (tags.find? (fun tag => decide (tag.Key = keyName))).map (fun tag => tag.Value) := by
  induction tags with
  | nil => rfl
  | cons tag tags ih =>
    unfold getEC2TagValue
    by_cases h : tag.Key = keyName
    · simp [h]
    · simp [h, ih]

theorem getEC2TagValue_eq_none_iff (tags : List Tag) (keyName : String) :
    getEC2TagValue tags keyName = none ↔ ¬ ∃ tag ∈ tags, tag.Key = keyName := by
  rw [getEC2TagValue_eq_find, Option.map_eq_none', List.find?_eq_none]
  simp

theorem collectInstances_step (inst : Instance) (list : List instanceSchedule) :
    (match getEC2TagValue inst.Tags autoScalingGroupTag with
      | some _ => list
      | none =>
        match getEC2TagValue inst.Tags scheduleTag with
        | some schedule => list ++ [⟨inst, schedule⟩]
        | none => list)
      = list ++ (scheduledInstance inst).toList := by
  unfold scheduledInstance
  cases hasg : getEC2TagValue inst.Tags autoScalingGroupTag with
  | some v =>
    have hex : ∃ tag ∈ inst.Tags, tag.Key = "aws:autoscaling:groupName" := by
      by_contra hcon
      have := (getEC2TagValue_eq_none_iff inst.Tags autoScalingGroupTag).2 hcon
      rw [this] at hasg
      cases hasg
    rw [if_pos hex]
    simp
  | none =>
    have hex : ¬ ∃ tag ∈ inst.Tags, tag.Key = "aws:autoscaling:groupName" :=
      (getEC2TagValue_eq_none_iff inst.Tags autoScalingGroupTag).1 hasg
    rw [if_neg hex]
    simp only []
    rw [getEC2TagValue_eq_find]
    unfold scheduleTag
    cases inst.Tags.find? (fun tag => decide (tag.Key = "possum:schedule")) with
    | none => simp
    | some tag => simp

theorem collectInstances_eq (insts : List Instance) :
    ∀ list, collectInstances insts list = list ++ insts.filterMap scheduledInstance := by
  induction insts with
  | nil => intro list; simp [collectInstances]
  | cons inst rest ih =>
    intro list
    have hstep := collectInstances_step inst list
    unfold collectInstances
    cases hasg : getEC2TagValue inst.Tags autoScalingGroupTag with
    | some v =>
      rw [hasg] at hstep
      simp only [] at hstep ⊢
      rw [ih]
      cases hs : scheduledInstance inst with
      | none => simp [List.filterMap_cons, hs]
      | some x => rw [hs] at hstep; simp at hstep
    | none =>
      rw [hasg] at hstep
      simp only [] at hstep ⊢
      cases hsch : getEC2TagValue inst.Tags scheduleTag with
      | some schedule =>
        rw [hsch] at hstep
        simp only [] at hstep ⊢
        rw [ih, hstep]
        cases hs : scheduledInstance inst with
        | none => simp [List.filterMap_cons, hs]
        | some x => simp [List.filterMap_cons, hs]
      | none =>
        rw [hsch] at hstep
        simp only [] at hstep ⊢
        rw [ih]
        cases hs : scheduledInstance inst with
        | none => simp [List.filterMap_cons, hs]
        | some x => rw [hs] at hstep; simp at hstep

theorem collectReservations_eq (page : List (List Instance)) :
    ∀ list, collectReservations page list
      = list ++ (page.foldr (fun reservation acc => reservation ++ acc) []).filterMap
          scheduledInstance := by
  induction page with
  | nil => intro list; simp [collectReservations]
  | cons reservation rest ih =>
    intro list
    unfold collectReservations
    rw [ih, collectInstances_eq]
    simp [List.filterMap_append]

theorem collectPages_eq (pages : List (List (List Instance))) :
    ∀ list, collectPages pages list
      = list ++ (allInstances pages).filterMap scheduledInstance := by
  induction pages with
  | nil => intro list; simp [collectPages, allInstances]
  | cons page rest ih =>
    intro list
    unfold collectPages allInstances
    rw [ih, collectReservations_eq]
    simp [List.filterMap_append]

/-- C30: when the provider call does not fail, `getInstances` returns no error and,
in the provider's order (page after page, reservation after reservation), exactly
the instances that have a tag `possum:schedule` and no tag
`aws:autoscaling:groupName`, each paired with the value of its own `possum:schedule`
tag. -/
theorem getInstances_returns_scheduled_instances (pages : List (List (List Instance))) :
    getInstances (pages, none) = ((allInstances pages).filterMap scheduledInstance, none)
    ∧ (∀ (inst : Instance) (a : instanceSchedule), scheduledInstance inst = some a →
        a.resource = inst
        ∧ (¬ ∃ tag ∈ inst.Tags, tag.Key = "aws:autoscaling:groupName")
        ∧ ∃ tag, inst.Tags.find? (fun tag => decide (tag.Key = "possum:schedule")) = some tag
            ∧ a.schedule = tag.Value)
    ∧ (∀ inst : Instance, scheduledInstance inst = none →
        (∃ tag ∈ inst.Tags, tag.Key = "aws:autoscaling:groupName")
        ∨ ¬ ∃ tag ∈ inst.Tags, tag.Key = "possum:schedule") := by
  refine ⟨?_, ?_, ?_⟩
  · unfold getInstances
    rw [collectPages_eq]
    simp
  · intro inst a h
    unfold scheduledInstance at h
    split_ifs at h with hasg
    cases hf : inst.Tags.find? (fun tag => decide (tag.Key = "possum:schedule")) with
    | none => rw [hf] at h; cases h
    | some tag =>
      rw [hf] at h
      simp only [Option.some.injEq] at h
      rw [← h]
      exact ⟨rfl, hasg, tag, rfl, rfl⟩
  · intro inst h
    unfold scheduledInstance at h
    split_ifs at h with hasg
    · exact Or.inl hasg
    · right
      cases hf : inst.Tags.find? (fun tag => decide (tag.Key = "possum:schedule")) with
      | none =>
        rw [List.find?_eq_none] at hf
        rintro ⟨tag, hmem, hkey⟩
        exact hf tag hmem (by simpa using hkey)
      | some tag => rw [hf] at h; cases h

/-! ## Discovery of autoscaling groups: theorems -/

theorem tagCollector_eq (page : List TagDescription) :
    ∀ collected : List String × List String,
      tagCollector page collected
        = (collected.1 ++ page.map (fun tag => tag.ResourceId),
            collected.2 ++ page.map (fun tag => tag.Value)) := by
  induction page with
  | nil => intro collected; simp [tagCollector]
  | cons tag rest ih =>
    rintro ⟨groupNames, schemas⟩
    simp [tagCollector, ih]

theorem collectTagPages_eq (pages : List (List TagDescription)) :
    ∀ collected : List String × List String,
      collectTagPages pages collected
        = (collected.1 ++ pages.flatten.map (fun tag => tag.ResourceId),
            collected.2 ++ pages.flatten.map (fun tag => tag.Value)) := by
  induction pages with
  | nil => intro collected; simp [collectTagPages]
  | cons page rest ih =>
    intro collected
    simp [collectTagPages, ih, tagCollector_eq]

/-- One page of groups is paired with the collected schedule names from the index
of the loop on, position by position; the loop panics exactly when it reaches an
index past the collected names. -/
theorem collector_eq (schemas : List String) (page : List Group) :
    ∀ (i : Nat) (result : List GroupSchedule),
      collector schemas i page result
        = if page = [] ∨ i + page.length ≤ schemas.length then
            some (result ++ List.zipWith GroupSchedule.mk page (schemas.drop i))
          else none := by
  induction page with
  | nil => intro i result; simp [collector]
  | cons group rest ih =>
    intro i result
    unfold collector
    by_cases hi : i < schemas.length
    · have hget : schemas[i]? = some schemas[i] := List.getElem?_eq_getElem hi
      have hdrop : schemas.drop i = schemas[i] :: schemas.drop (i + 1) :=
        List.drop_eq_getElem_cons hi
      rw [hget]
      simp only []
      rw [ih]
      by_cases hrest : rest = []
      · subst hrest
        have hle : i + 1 ≤ schemas.length := hi
        simp only [List.length_nil, List.length_cons, Nat.zero_add, hle, or_true, true_or,
          if_true, List.zipWith_nil_left, List.append_nil]
        rw [hdrop]
        rfl
      · by_cases hle : i + 1 + rest.length ≤ schemas.length
        · have hle2 : i + (rest.length + 1) ≤ schemas.length := by omega
          simp only [List.length_cons, hle, hle2, or_true, if_true]
          rw [hdrop, List.zipWith_cons_cons, List.append_assoc]
          rfl
        · have hle2 : ¬ i + (rest.length + 1) ≤ schemas.length := by omega
          simp [hrest, hle, hle2]
    · have hget : schemas[i]? = none := List.getElem?_eq_none (by omega)
      have hle2 : ¬ i + (rest.length + 1) ≤ schemas.length := by omega
      rw [hget]
      simp [hle2]

/-- When no page holds more groups than there are collected schedule names, the
pages are collected without a panic, and each page is paired with the first
collected names, position by position. -/
theorem collectGroupPages_eq (schemas : List String) (pages : List (List Group))
    (hlen : ∀ page ∈ pages, page.length ≤ schemas.length) :
    ∀ result : List GroupSchedule,
      collectGroupPages schemas pages result
        = some (result ++ (pages.map (fun page => List.zipWith GroupSchedule.mk page schemas)).flatten) := by
  induction pages with
  | nil => intro result; simp [collectGroupPages]
  | cons page rest ih =>
    intro result
    have hpage : page.length ≤ schemas.length := hlen page (List.mem_cons_self _ _)
    have hrest : ∀ p ∈ rest, p.length ≤ schemas.length :=
      fun p hp => hlen p (List.mem_cons_of_mem _ hp)
    unfold collectGroupPages
    rw [collector_eq]
    have hcond : page = [] ∨ 0 + page.length ≤ schemas.length := Or.inr (by omega)
    rw [if_pos hcond]
    simp only [List.drop_zero]
    rw [ih hrest]
    simp [List.append_assoc]

/-- C31, on the code: `getAutoScalingGroups` pairs a group with the schedule name at
the group's position within its page, not with the value of the tag whose
`ResourceId` is the group's name. With the tags `group1 -> OfficeHours` and
`group2 -> Nights`, a provider that delivers the two groups on two pages gets
`group2` paired with `OfficeHours`, and a provider that delivers `group2` before
`group1` on one page gets both groups paired with the other's schedule; the tag of
`group2` says `Nights`. -/
theorem getAutoScalingGroups_pairs_by_page_position :
    getAutoScalingGroups (twoTaggedGroups, none) twoPagesProvider
        = some ([⟨namedGroup "group1", "OfficeHours"⟩, ⟨namedGroup "group2", "OfficeHours"⟩],
            none)
    ∧ getAutoScalingGroups (twoTaggedGroups, none) reorderingProvider
        = some ([⟨namedGroup "group2", "OfficeHours"⟩, ⟨namedGroup "group1", "Nights"⟩], none)
    ∧ taggedSchedule twoTaggedGroups "group1" = some "OfficeHours"
    ∧ taggedSchedule twoTaggedGroups "group2" = some "Nights" := by
  refine ⟨by decide, by decide, by decide, by decide⟩

/-- Without an error of the tag call and with at least one tag, and when no page
holds more groups than there are tags, `getAutoScalingGroups` returns every
delivered group, page by page, paired with the value of the tag at the group's
position within its page. -/
theorem getAutoScalingGroups_eq (tags : List (List TagDescription))
    (provider : List String → List (List Group) × Option String)
    (hne : tags.flatten ≠ [])
    (hlen : ∀ page ∈ (provider (tags.flatten.map (fun tag => tag.ResourceId))).1,
      page.length ≤ tags.flatten.length) :
    getAutoScalingGroups (tags, none) provider
      = some (((provider (tags.flatten.map (fun tag => tag.ResourceId))).1.map
            (fun page => List.zipWith GroupSchedule.mk page
              (tags.flatten.map (fun tag => tag.Value)))).flatten,
          (provider (tags.flatten.map (fun tag => tag.ResourceId))).2) := by
  unfold getAutoScalingGroups
  simp only [collectTagPages_eq, List.nil_append]
  have hzero : ¬ (tags.flatten.map (fun tag => tag.ResourceId)).length = 0 := by
    rw [List.length_map]
    exact fun e => hne (List.length_eq_zero.mp e)
  rw [if_neg hzero]
  have hlen2 : ∀ page ∈ (provider (tags.flatten.map (fun tag => tag.ResourceId))).1,
      page.length ≤ (tags.flatten.map (fun tag => tag.Value)).length := by
    intro page hpage
    rw [List.length_map]
    exact hlen page hpage
  rw [collectGroupPages_eq _ _ hlen2]
  simp

/-! ## Periods on the hour, inverted periods and single rules: theorems -/

theorem Time_Hour_range (t : Time) : 0 ≤ t.Hour ∧ t.Hour ≤ 23 := by
  unfold Time.Hour
  omega

theorem Time_Minute_range (t : Time) : 0 ≤ t.Minute ∧ t.Minute ≤ 59 := by
  unfold Time.Minute
  omega

theorem beforeStart_eq_true_iff (r : Period) (t : Time) :
    r.beforeStart t = true
      ↔ t.Hour < r.StartTime.Hour
        ∨ (r.StopTime.Hour = t.Hour ∧ t.Minute < r.StartTime.Minute) := by
  unfold Period.beforeStart
  by_cases h1 : r.StartTime.Hour > t.Hour
  · simp [h1]
  · by_cases h2 : r.StopTime.Hour = t.Hour ∧ r.StartTime.Minute > t.Minute
    · have h3 : t.Minute < r.StartTime.Minute := h2.2
      simp [h1, h2.1, h3]
    · rw [if_neg h1, if_neg h2]
      constructor
      · intro h; cases h
      · rintro (h | ⟨ha, hb⟩)
        · exact absurd h h1
        · exact absurd ⟨ha, hb⟩ h2

theorem afterStop_eq_true_iff (r : Period) (t : Time) :
    r.afterStop t = true
      ↔ r.StopTime.Hour < t.Hour
        ∨ (r.StopTime.Hour = t.Hour ∧ r.StopTime.Minute < t.Minute) := by
  unfold Period.afterStop
  by_cases h1 : r.StopTime.Hour < t.Hour
  · simp [h1]
  · by_cases h2 : r.StopTime.Hour = t.Hour ∧ r.StopTime.Minute < t.Minute
    · simp [h1, h2.1, h2.2]
    · rw [if_neg h1, if_neg h2]
      constructor
      · intro h; cases h
      · rintro (h | ⟨ha, hb⟩)
        · exact absurd h h1
        · exact absurd ⟨ha, hb⟩ h2

/-- What `InPeriod` decides, read off the code: the weekday is allowed, and neither
`beforeStart` nor `afterStop` fires. -/
theorem InPeriod_eq_true_iff (r : Period) (t : Time) :
    r.InPeriod t = true
      ↔ weekdayAllowed r t
        ∧ ¬ (t.Hour < r.StartTime.Hour
              ∨ (r.StopTime.Hour = t.Hour ∧ t.Minute < r.StartTime.Minute))
        ∧ ¬ (r.StopTime.Hour < t.Hour
              ∨ (r.StopTime.Hour = t.Hour ∧ r.StopTime.Minute < t.Minute)) := by
  rw [← inWeekday_eq_true_iff, ← beforeStart_eq_true_iff, ← afterStop_eq_true_iff]
  unfold Period.InPeriod
  cases r.inWeekday t <;> cases r.beforeStart t <;> cases r.afterStop t <;> simp

/-- C32: for a period whose start minute is 0 and every instant `t` (its hour is in
0..23 and its minute in 0..59), `InPeriod(t)` is true if and only if the weekday of
`t` is allowed by the period and the (hour, minute) of `t` lies in the closed
interval from `StartTime` to `StopTime`. -/
theorem InPeriod_closed_interval_of_start_on_hour (p : Period) (t : Time)
    (hstart : p.StartTime.Minute = 0) :
    (0 ≤ t.Hour ∧ t.Hour ≤ 23 ∧ 0 ≤ t.Minute ∧ t.Minute ≤ 59)
    ∧ (p.InPeriod t = true
        ↔ weekdayAllowed p t ∧ atOrAfter t.Hour t.Minute p.StartTime
          ∧ atOrBefore t.Hour t.Minute p.StopTime) := by
  have hh := Time_Hour_range t
  have hm := Time_Minute_range t
  refine ⟨⟨hh.1, hh.2, hm.1, hm.2⟩, ?_⟩
  rw [InPeriod_eq_true_iff]
  unfold atOrAfter atOrBefore
  constructor
  · rintro ⟨hw, h1, h2⟩
    refine ⟨hw, ?_, ?_⟩ <;> omega
  · rintro ⟨hw, h1, h2⟩
    refine ⟨hw, ?_, ?_⟩ <;> omega

theorem InPeriod_closed_interval_of_start_on_hour_witness :
    (Period.mk ⟨8, 0⟩ ⟨17, 30⟩ [Monday]).StartTime.Minute = 0
    ∧ Period.InPeriod ⟨⟨8, 0⟩, ⟨17, 30⟩, [Monday]⟩ (newWeekday Monday 17 30) = true
    ∧ Period.InPeriod ⟨⟨8, 0⟩, ⟨17, 30⟩, [Monday]⟩ (newWeekday Monday 17 31) = false
    ∧ (Period.InPeriod ⟨⟨8, 0⟩, ⟨17, 30⟩, [Monday]⟩ (newWeekday Monday 8 0) = true
        ↔ weekdayAllowed ⟨⟨8, 0⟩, ⟨17, 30⟩, [Monday]⟩ (newWeekday Monday 8 0)
          ∧ atOrAfter (newWeekday Monday 8 0).Hour (newWeekday Monday 8 0).Minute ⟨8, 0⟩
          ∧ atOrBefore (newWeekday Monday 8 0).Hour (newWeekday Monday 8 0).Minute ⟨17, 30⟩) :=
  ⟨rfl, by decide, by decide,
    (InPeriod_closed_interval_of_start_on_hour ⟨⟨8, 0⟩, ⟨17, 30⟩, [Monday]⟩
      (newWeekday Monday 8 0) rfl).2⟩

/-- C33: `NewPeriod` accepts a start time after the stop time (18:00 to 08:00 gives
a period), and a period whose `StartTime` is strictly after its `StopTime`,
comparing (hour, minute) lexicographically, contains no instant: `InPeriod(t)` is
false for every `t`, so such a window does not wrap past midnight. -/
theorem InPeriod_false_of_start_after_stop :
    (NewPeriod "18:00" "08:00" [] = .ok ⟨⟨18, 0⟩, ⟨8, 0⟩, []⟩
      ∧ strictlyAfter (⟨18, 0⟩ : KitchenTime) ⟨8, 0⟩)
    ∧ ∀ (p : Period) (t : Time), strictlyAfter p.StartTime p.StopTime →
        p.InPeriod t = false := by
  refine ⟨⟨by decide, by decide⟩, ?_⟩
  intro p t hafter
  unfold strictlyAfter at hafter
  cases hin : p.InPeriod t with
  | false => rfl
  | true =>
    exfalso
    obtain ⟨_, h1, h2⟩ := (InPeriod_eq_true_iff p t).1 hin
    omega

theorem InPeriod_false_of_start_after_stop_witness :
    strictlyAfter (Period.mk ⟨22, 0⟩ ⟨6, 0⟩ []).StartTime (Period.mk ⟨22, 0⟩ ⟨6, 0⟩ []).StopTime
    ∧ Period.InPeriod ⟨⟨22, 0⟩, ⟨6, 0⟩, []⟩ (newWeekday Monday 23 0) = false
    ∧ Period.InPeriod ⟨⟨22, 0⟩, ⟨6, 0⟩, []⟩ (newWeekday Tuesday 3 0) = false :=
  ⟨by decide,
    InPeriod_false_of_start_after_stop.2 ⟨⟨22, 0⟩, ⟨6, 0⟩, []⟩ (newWeekday Monday 23 0)
      (by decide),
    InPeriod_false_of_start_after_stop.2 ⟨⟨22, 0⟩, ⟨6, 0⟩, []⟩ (newWeekday Tuesday 3 0)
      (by decide)⟩

/-- C34: for a schedule with at most one rule the decision is stable once applied:
if `Action(t, false)` is Start then `Action(t, true)` is Noop, and if
`Action(t, true)` is Stop then `Action(t, false)` is Noop. -/
theorem Action_stable_for_single_rule (s : Schedule) (t : Time)
    (hone : s.Periods.length ≤ 1) :
    (s.Action t false = some StartAction → s.Action t true = some NoopAction)
    ∧ (s.Action t true = some StopAction → s.Action t false = some NoopAction) := by
  have hsn : ¬ NoopAction = StartAction := by decide
  have hpn : ¬ NoopAction = StopAction := by decide
  unfold Schedule.Action
  cases hp : s.Periods with
  | nil => simp [actionLoop, hsn, hpn]
  | cons rule rest =>
    have hrest : rest = [] := by
      rw [hp] at hone
      exact List.length_eq_zero.mp (by simpa using hone)
    subst hrest
    unfold actionLoop
    cases s.Locations[0]? with
    | none => simp
    | some loc =>
      cases hin : rule.InPeriod (t.In loc) <;> simp [actionLoop, hin, hsn, hpn]

theorem Action_stable_for_single_rule_witness :
    oneRuleSchedule.Periods.length ≤ 1
    ∧ oneRuleSchedule.Action (newWeekday Monday 12 0) false = some StartAction
    ∧ oneRuleSchedule.Action (newWeekday Monday 12 0) true = some NoopAction
    ∧ oneRuleSchedule.Action (newWeekday Monday 20 0) true = some StopAction
    ∧ oneRuleSchedule.Action (newWeekday Monday 20 0) false = some NoopAction :=
  ⟨by decide, by decide,
    (Action_stable_for_single_rule oneRuleSchedule (newWeekday Monday 12 0) (by decide)).1
      (by decide),
    by decide,
    (Action_stable_for_single_rule oneRuleSchedule (newWeekday Monday 20 0) (by decide)).2
      (by decide)⟩

/-- C35: there are a schedule with two rules and an instant `t`, in the period of
one rule and not in the period of the other, at which `Action(t, false)` is Start
and `Action(t, true)` is Stop: 08:00-17:00 in UTC and 08:00-17:00 twelve hours
east of UTC, on a Friday at 20:00 UTC. -/
theorem Action_starts_and_stops_at_one_instant :
    ∃ (s : Schedule) (t : Time),
      s.Periods.length = 2 ∧ s.Locations.length = 2
      ∧ (∃ rule ∈ List.zip s.Locations s.Periods, rule.2.InPeriod (t.In rule.1) = true)
      ∧ (∃ rule ∈ List.zip s.Locations s.Periods, rule.2.InPeriod (t.In rule.1) = false)
      ∧ s.Action t false = some StartAction
      ∧ s.Action t true = some StopAction :=
  ⟨twoRuleSchedule, newWeekday Friday 20 0, by decide, by decide,
    ⟨(plusTwelve, ⟨⟨8, 0⟩, ⟨17, 0⟩, []⟩), by simp [twoRuleSchedule, addPeriods,
      Schedule.AddPeriod, twoZones, NewSchedule], by decide⟩,
    ⟨(UTC, ⟨⟨8, 0⟩, ⟨17, 0⟩, []⟩), by simp [twoRuleSchedule, addPeriods,
      Schedule.AddPeriod, twoZones, NewSchedule], by decide⟩,
    by decide, by decide⟩

/-! ## Restore sizes of Start changes: theorems -/

/-- The sizes of a change that the loop body of `getASGGroupChanges` emits for a
group: `minSize` is the restore size read from the tags and `currentMinSize` is the
group's `MinSize`. -/
theorem asgStep_sizes (ts : Time) (schedules : Schedules) (a : GroupSchedule) (c : Change)
    (h : asgStep ts schedules a = some (some c)) :
    c.ID = a.resource.AutoScalingGroupName ∧ c.minSize = restoreSize a.resource.Tags
      ∧ c.currentMinSize = a.resource.MinSize := by
  unfold asgStep at h
  split_ifs at h with h1 h2
  · cases h
  · cases h
  cases hfind : Schedules.Find schedules a.schedule with
  | none => rw [hfind] at h; cases h
  | some effectiveSchedule =>
    rw [hfind] at h
    simp only [] at h
    cases hact : effectiveSchedule.Action ts (decide (a.resource.Instances.length ≠ 0)) with
    | none => rw [hact] at h; cases h
    | some act =>
      rw [hact] at h
      simp only [] at h
      split_ifs at h with hnoop
      · cases h
      · simp only [Option.some.injEq] at h
        rw [← h]
        exact ⟨rfl, getASGTagInt64_minSizeTag _, rfl⟩

/-- The restore size is at least 1 unless the first tag `possum:min_size` holds an
integer below 1. -/
theorem restoreSize_ge_one_iff (tags : List Tag) :
    1 ≤ restoreSize tags
      ↔ ∀ (tag : Tag) (n : Int),
          tags.find? (fun tag => decide (tag.Key = minSizeTag)) = some tag →
          DenotesInt tag.Value.toList n → 1 ≤ n := by
  unfold restoreSize
  cases hfind : tags.find? (fun tag => decide (tag.Key = minSizeTag)) with
  | none => simp
  | some found =>
    simp only [Option.some.injEq]
    cases hparse : ParseInt found.Value.toList with
    | none =>
      simp only [Option.getD_none, le_refl, true_iff]
      intro tag n htag hden
      rw [← htag] at hden
      have hsome : ParseInt found.Value.toList = some n := (Atoi_eq_some_iff _ _).2 hden
      rw [hparse] at hsome
      cases hsome
    | some m =>
      simp only [Option.getD_some]
      constructor
      · intro hm tag n htag hden
        rw [← htag] at hden
        have hsome : ParseInt found.Value.toList = some n := (Atoi_eq_some_iff _ _).2 hden
        rw [hparse] at hsome
        cases hsome
        exact hm
      · intro hall
        exact hall found m rfl ((Atoi_eq_some_iff _ _).1 hparse)

/-- C36 as stated fails: a Start change can have `minSize` 0. A stopped group whose tag
`possum:min_size` holds `0` gets, under a schedule that is always on, a Start change
with `minSize` 0, and applying it asks for `MinSize` 0 and `DesiredCapacity` 0. The
tag value `0` is what stopping a running group with `MinSize` 0 writes. -/
theorem getASGGroupChanges_start_with_zero_minSize :
    getASGGroupChanges [zeroMinSizeGroup] chkTime alwaysSchedules
        = some [⟨"asg", "asg", StartAction, "asg", 0, 0⟩]
    ∧ performASGChanges reliableClient [⟨"asg", "asg", StartAction, "asg", 0, 0⟩] []
        = ([Call.UpdateAutoScalingGroup "asg" 0 0], none)
    ∧ getASGGroupChanges [runningMinZeroGroup] chkTime neverSchedules
        = some [⟨"asg", "asg", StopAction, "asg", 1, 0⟩]
    ∧ performASGChanges reliableClient [⟨"asg", "asg", StopAction, "asg", 1, 0⟩] []
        = ([Call.UpdateAutoScalingGroup "asg" 0 0,
            Call.CreateOrUpdateTags
              [⟨"asg", "possum:min_size", "0", false, "auto-scaling-group"⟩]], none) := by
  refine ⟨by decide, by decide, by decide, by decide⟩

/-- C36, amended: every Start change that `getASGGroupChanges` emits belongs to a
group of the list and has as `minSize` the integer value of the group's first tag
`possum:min_size`, or 1 when the group has no such tag or its value does not parse;
so `minSize` is at least 1 exactly when that tag does not hold an integer below 1.
Applying the change alone asks once for `MinSize` and `DesiredCapacity` equal to
`minSize`. -/
theorem getASGGroupChanges_start_minSize (list : List GroupSchedule) (ts : Time)
    (schedules : Schedules) (changes : Changes) (c : Change) (client : ASGClient)
    (h : getASGGroupChanges list ts schedules = some changes) (hc : c ∈ changes)
    (hstart : c.Action = StartAction) :
    (∃ a ∈ list, c.ID = a.resource.AutoScalingGroupName
      ∧ c.minSize = restoreSize a.resource.Tags
      ∧ (1 ≤ c.minSize
          ↔ ∀ (tag : Tag) (n : Int),
              a.resource.Tags.find? (fun tag => decide (tag.Key = minSizeTag)) = some tag →
              DenotesInt tag.Value.toList n → 1 ≤ n))
    ∧ performASGChanges client [c] []
        = ([Call.UpdateAutoScalingGroup c.ID c.minSize c.minSize],
            client [] (Call.UpdateAutoScalingGroup c.ID c.minSize c.minSize)) := by
  constructor
  · rw [getASGGroupChanges_eq] at h
    rcases collectChanges_mem _ list [] changes h c hc with hnil | ⟨a, ha, hstep⟩
    · cases hnil
    · obtain ⟨hid, hmin, _⟩ := asgStep_sizes ts schedules a c hstep
      refine ⟨a, ha, hid, hmin, ?_⟩
      rw [hmin]
      exact restoreSize_ge_one_iff _
  · rw [performASGChanges, if_pos hstart]
    unfold updateASGSize
    cases client [] (Call.UpdateAutoScalingGroup c.ID c.minSize c.minSize) <;>
      simp [performASGChanges]

theorem getASGGroupChanges_start_minSize_witness :
    getASGGroupChanges [⟨⟨"asg", 0, 0, [], [], [⟨"possum:min_size", "3"⟩]⟩, "n"⟩] chkTime
        alwaysSchedules = some [⟨"asg", "asg", StartAction, "asg", 3, 0⟩]
    ∧ (∃ a ∈ [(⟨⟨"asg", 0, 0, [], [], [⟨"possum:min_size", "3"⟩]⟩, "n"⟩ : GroupSchedule)],
        (3 : Int) = restoreSize a.resource.Tags)
    ∧ performASGChanges reliableClient [⟨"asg", "asg", StartAction, "asg", 3, 0⟩] []
        = ([Call.UpdateAutoScalingGroup "asg" 3 3], none) := by
  have hrun : getASGGroupChanges
      [⟨⟨"asg", 0, 0, [], [], [⟨"possum:min_size", "3"⟩]⟩, "n"⟩] chkTime alwaysSchedules
        = some [⟨"asg", "asg", StartAction, "asg", 3, 0⟩] := by decide
  have hthm := getASGGroupChanges_start_minSize
    [⟨⟨"asg", 0, 0, [], [], [⟨"possum:min_size", "3"⟩]⟩, "n"⟩] chkTime alwaysSchedules
    [⟨"asg", "asg", StartAction, "asg", 3, 0⟩] ⟨"asg", "asg", StartAction, "asg", 3, 0⟩
    reliableClient hrun (List.mem_singleton.2 rfl) rfl
  obtain ⟨⟨a, ha, _, hmin, _⟩, hcalls⟩ := hthm
  exact ⟨hrun, ⟨a, ha, hmin⟩, hcalls⟩

end Possum
